import Mathlib

/-!
Verification development for the algoview data-structure engine.

The definitions below are shallow embeddings of the TypeScript source:

* `TreeNode` is the UI tree format (`src/lib/definitions.ts`): a value, an
  optional children array (a missing array and an empty array behave
  identically everywhere in the source, so both are modelled as `[]`), and an
  optional `isEmpty` flag (only its truthiness is ever read, so it is a
  `Bool`, with "not set" modelled as `false`).
* `Bst` embeds `src/algorithm/Bst.ts` and `Avl` embeds `src/algorithm/Avl.ts`
  (their first revision, whose line numbers the claims cite).
* JavaScript numbers are modelled as `Int`: every value stored in these
  containers enters through integer-producing paths (`parseInt`,
  `Math.floor`) and the algorithms use only comparisons on them.
-/

inductive TreeNode where
  | mk (value : Int) (children : List TreeNode) (isEmpty : Bool)

def TreeNode.value : TreeNode → Int
  | .mk v _ _ => v

def TreeNode.children : TreeNode → List TreeNode
  | .mk _ cs _ => cs

def TreeNode.isEmpty : TreeNode → Bool
  | .mk _ _ e => e

@[simp] theorem TreeNode.isEmpty_mk (v : Int) (cs : List TreeNode) (e : Bool) :
    (TreeNode.mk v cs e).isEmpty = e := rfl

/-- Operation kinds of `AlgorithmOperation.operation` in `definitions.ts`. -/
inductive OpKind where
  | insert | delete | search | update | balance
deriving Repr, DecidableEq

/-- The operation descriptor `AlgorithmOperation` from `definitions.ts`;
`newValue` is optional there. -/
structure AlgorithmOperation where
  operation : OpKind
  value : Int
  newValue : Option Int := none
deriving Repr, DecidableEq

/-- The result record `AlgorithmResult` from `definitions.ts` (the fields the
tree engines actually set: `newTree`, `operation`, `success`, `message`). -/
structure AlgorithmResult where
  newTree : TreeNode
  operation : OpKind
  success : Bool
  message : String

namespace Bst

/-- The `BSTNode` shape from `definitions.ts`; `nil` stands for `null`. -/
inductive BSTTree where
  | nil
  | node (value : Int) (left right : BSTTree)
deriving Repr, DecidableEq

open BSTTree

/-- In-order traversal of a `BSTNode` tree (left, value, right). -/
def inorder : BSTTree → List Int
  | nil => []
  | node v l r => inorder l ++ v :: inorder r

/-- Number of nodes of a `BSTNode` tree. -/
def size : BSTTree → Nat
  | nil => 0
  | node _ l r => size l + size r + 1

/-- `convertToBSTFormat` from `Bst.ts`: UI format (children array) to
left/right format, dropping `isEmpty` children and any children beyond the
first two. -/
def convertToBSTFormat : TreeNode → BSTTree
  | .mk v cs e =>
    if e then nil
    else
      match cs with
      | [] => node v nil nil
      | [c0] => node v (if c0.isEmpty then nil else convertToBSTFormat c0) nil
      | c0 :: c1 :: _ =>
        node v (if c0.isEmpty then nil else convertToBSTFormat c0)
               (if c1.isEmpty then nil else convertToBSTFormat c1)

/-- `convertToUIFormat` from `Bst.ts`: back to the UI format; `null` becomes
the empty sentinel `{value 0, isEmpty true}`, and a right-only node gets an
`isEmpty` placeholder as left child. -/
def convertToUIFormat : BSTTree → TreeNode
  | nil => .mk 0 [] true
  | node v nil nil => .mk v [] false
  | node v (node lv ll lr) nil => .mk v [convertToUIFormat (node lv ll lr)] false
  | node v nil (node rv rl rr) =>
      .mk v [.mk 0 [] true, convertToUIFormat (node rv rl rr)] false
  | node v (node lv ll lr) (node rv rl rr) =>
      .mk v [convertToUIFormat (node lv ll lr), convertToUIFormat (node rv rl rr)] false

/-- `insertNode` from `Bst.ts` (path-copying insert, duplicates untouched). -/
def insertNode : BSTTree → Int → BSTTree
  | nil, value => node value nil nil
  | node v l r, value =>
    if value = v then node v l r
    else if value < v then node v (insertNode l value) r
    else node v l (insertNode r value)

/-- `searchNode` from `Bst.ts` (iterative comparison-guided search, modelled
by the equivalent structural recursion along the same path). -/
def searchNode : BSTTree → Int → Bool
  | nil, _ => false
  | node v l r, value =>
    if value = v then true
    else if value < v then searchNode l value
    else searchNode r value

/-- `minValue` from `Bst.ts`: follow left children to the minimum. -/
def minValue : BSTTree → Int
  | nil => 0
  | node v nil _ => v
  | node _ (node lv ll lr) _ => minValue (node lv ll lr)

/-- `deleteNode` from `Bst.ts`: the three classic deletion cases, replacing a
two-child node's value by the minimum of its right subtree. -/
def deleteNode : BSTTree → Int → BSTTree
  | nil, _ => nil
  | node v l r, value =>
    if value < v then node v (deleteNode l value) r
    else if v < value then node v l (deleteNode r value)
    else
      match l, r with
      | nil, nil => nil
      | nil, _ => r
      | _, nil => l
      | _, _ => node (minValue r) l (deleteNode r (minValue r))

/-- `findNodeAndBounds` from `Bst.ts`: locate `value` and report the open
interval of its ancestor bounds (`none` models ±Infinity). -/
def findNodeAndBounds (t : BSTTree) (value : Int) (lowerBound upperBound : Option Int) :
    Bool × Option Int × Option Int :=
  match t with
  | nil => (false, lowerBound, upperBound)
  | node v l r =>
    if v = value then (true, lowerBound, upperBound)
    else if value < v then findNodeAndBounds l value lowerBound (some v)
    else findNodeAndBounds r value (some v) upperBound

/-- `isValidUpdate` from `Bst.ts`: the in-place substitution of `oldValue` by
`newValue` must stay strictly inside the located node's ancestor bounds. -/
def isValidUpdate (t : BSTTree) (oldValue newValue : Int) : Bool :=
  match t with
  | nil => true
  | _ =>
    match findNodeAndBounds t oldValue none none with
    | (false, _, _) => false
    | (true, lo, hi) =>
      (match lo with | none => true | some a => a < newValue) &&
      (match hi with | none => true | some b => newValue < b)

/-- `updateNode` from `Bst.ts`: returns the `{tree, message, success}` record. -/
def updateNode (root : BSTTree) (oldValue newValue : Int) : BSTTree × String × Bool :=
  let oldExists := searchNode root oldValue
  let newExists := oldValue ≠ newValue && searchNode root newValue
  if !oldExists then
    (root, s!"Valor {oldValue} não encontrado para atualização", false)
  else if newExists then
    (root, s!"Novo valor {newValue} já existe na árvore. Escolha um valor único.", false)
  else if !isValidUpdate root oldValue newValue then
    (root, s!"Atualização inválida: o novo valor {newValue} violaria a propriedade da BST. Escolha um valor que mantenha a ordem correta.", false)
  else
    (insertNode (deleteNode root oldValue) newValue, s!"Valor {oldValue} foi atualizado para {newValue}", true)

end Bst

/-- `runBSTAlgorithm` from `Bst.ts`: convert the UI tree, dispatch on the
operation, convert back. -/
def runBSTAlgorithm (treeData : TreeNode) (options : AlgorithmOperation) : AlgorithmResult :=
  let bstTree := Bst.convertToBSTFormat treeData
  let result : Bst.BSTTree × Bool × String :=
    match options.operation with
    | .insert =>
      if Bst.searchNode bstTree options.value then
        (bstTree, false, s!"Valor {options.value} já existe na árvore. Duplicatas não são permitidas em BST.")
      else
        (Bst.insertNode bstTree options.value, true, s!"Valor {options.value} foi inserido com sucesso")
    | .delete =>
      if !Bst.searchNode bstTree options.value then
        (bstTree, false, s!"Value {options.value} not found for deletion")
      else
        match bstTree with
        | .node v .nil .nil =>
          if v = options.value then
            (.nil, true, s!"Root node {options.value} was deleted. Tree is now empty.")
          else
            (Bst.deleteNode bstTree options.value, true, s!"Value {options.value} was deleted successfully")
        | _ =>
          (Bst.deleteNode bstTree options.value, true, s!"Value {options.value} was deleted successfully")
    | .search =>
      let found := Bst.searchNode bstTree options.value
      (bstTree, found, if found then s!"Value {options.value} was found" else s!"Value {options.value} not found")
    | .update =>
      let r := Bst.updateNode bstTree options.value (options.newValue.getD 0)
      (r.1, r.2.2, r.2.1)
    | .balance => (bstTree, false, "No operation performed")
  { newTree := Bst.convertToUIFormat result.1
    operation := options.operation
    success := result.2.1
    message := result.2.2 }

namespace Avl

/-- The `AVLNode` shape from `definitions.ts`: `BSTNode` plus a stored height. -/
inductive AVLTree where
  | nil
  | node (value : Int) (left right : AVLTree) (height : Nat)
deriving Repr, DecidableEq

open AVLTree

/-- `getHeight` from `Avl.ts`: the stored height, 0 for `null`. -/
def getHeight : AVLTree → Nat
  | nil => 0
  | node _ _ _ h => h

/-- `getBalance` from `Avl.ts`: stored height of left minus stored height of
right (0 for `null`). -/
def getBalance : AVLTree → Int
  | nil => 0
  | node _ l r _ => (getHeight l : Int) - (getHeight r : Int)

/-- In-order traversal of an `AVLNode` tree. -/
def inorder : AVLTree → List Int
  | nil => []
  | node v l r _ => inorder l ++ v :: inorder r

/-- `collectAllValues` from `Avl.ts` (pre-order: node, left, right). -/
def collectAllValues : AVLTree → List Int
  | nil => []
  | node v l r _ => v :: (collectAllValues l ++ collectAllValues r)

/-- `rightRotate` from `Avl.ts`. The source casts `y.left` to a node; when the
left child is `null` (never the case at its call sites, which all guard on a
positive balance factor) the model returns the input unchanged. -/
def rightRotate : AVLTree → AVLTree
  | node yv (node xv xl xr _) yr _ =>
    let newY := node yv xr yr (max (getHeight xr) (getHeight yr) + 1)
    node xv xl newY (max (getHeight xl) (getHeight newY) + 1)
  | t => t

/-- `leftRotate` from `Avl.ts` (mirror of `rightRotate`). -/
def leftRotate : AVLTree → AVLTree
  | node xv xl (node yv yl yr _) _ =>
    let newX := node xv xl yl (max (getHeight xl) (getHeight yl) + 1)
    node yv newX yr (max (getHeight newX) (getHeight yr) + 1)
  | t => t

/-- Truthiness test `t && value < t.value` used by the insertion rebalancing
conditions of `Avl.ts`. -/
def ltRoot (value : Int) : AVLTree → Bool
  | nil => false
  | node v _ _ _ => value < v

/-- Truthiness test `t && value > t.value` used by the insertion rebalancing
conditions of `Avl.ts`. -/
def gtRoot (value : Int) : AVLTree → Bool
  | nil => false
  | node v _ _ _ => v < value

/-- Height update and the four value-dispatched rotation cases at the end of
`insertNode` in `Avl.ts`; `nl`/`nr` are `newNode.left`/`newNode.right`. -/
def insertRebalance (v : Int) (nl nr : AVLTree) (value : Int) : AVLTree :=
  let nh := max (getHeight nl) (getHeight nr) + 1
  let n := node v nl nr nh
  let balance := getBalance n
  if 1 < balance ∧ ltRoot value nl then rightRotate n
  else if balance < -1 ∧ gtRoot value nr then leftRotate n
  else if 1 < balance ∧ gtRoot value nl then rightRotate (node v (leftRotate nl) nr nh)
  else if balance < -1 ∧ ltRoot value nr then leftRotate (node v nl (rightRotate nr) nh)
  else n

/-- `insertNode` from `Avl.ts`: BST insert with copied nodes, height update
and the four rotation cases dispatched by comparing `value` with the updated
child's root value. -/
def insertNode : AVLTree → Int → AVLTree
  | nil, value => node value nil nil 1
  | node v l r h, value =>
    if value = v then node v l r h
    else if value < v then insertRebalance v (insertNode l value) r value
    else insertRebalance v l (insertNode r value) value

/-- `minValue` from `Avl.ts`. -/
def minValue : AVLTree → Int
  | nil => 0
  | node v nil _ _ => v
  | node _ (node lv ll lr lh) _ _ => minValue (node lv ll lr lh)

/-- Test for a non-`null` `AVLNode`, modelling JavaScript truthiness of a node. -/
def isNode : AVLTree → Bool
  | nil => false
  | node _ _ _ _ => true

/-- Height update and the four balance-dispatched rotation cases at the end of
`deleteNode` in `Avl.ts` (reached except on the early-return child-splicing
paths). -/
def deleteRebalance (v : Int) (l r : AVLTree) : AVLTree :=
  let nh := max (getHeight l) (getHeight r) + 1
  let root := node v l r nh
  let balance := getBalance root
  if 1 < balance ∧ 0 ≤ getBalance l then rightRotate root
  else if 1 < balance ∧ getBalance l < 0 ∧ isNode l then rightRotate (node v (leftRotate l) r nh)
  else if balance < -1 ∧ getBalance r ≤ 0 then leftRotate root
  else if balance < -1 ∧ 0 < getBalance r ∧ isNode r then leftRotate (node v l (rightRotate r) nh)
  else root

/-- `deleteNode` from `Avl.ts`: BST-style delete; the leaf and one-child cases
return early (no rebalancing), the recursive cases and the two-children case
fall through to the height update and rotation dispatch. -/
def deleteNode : AVLTree → Int → AVLTree
  | nil, _ => nil
  | node v l r _h, value =>
    if value < v then deleteRebalance v (deleteNode l value) r
    else if v < value then deleteRebalance v l (deleteNode r value)
    else
      match l, r with
      | nil, _ => r
      | _, nil => l
      | _, _ => deleteRebalance (minValue r) l (deleteNode r (minValue r))

/-- `isTreeBalanced` from `Avl.ts`: every node's balance factor lies in
`[-1, 1]` (computed from the stored heights). -/
def isTreeBalanced : AVLTree → Bool
  | nil => true
  | node _ l r _ =>
    let balance := (getHeight l : Int) - (getHeight r : Int)
    if 1 < balance ∨ balance < -1 then false
    else isTreeBalanced l && isTreeBalanced r

/-- `buildBalancedTree` inside `rebuildBalancedTree` of `Avl.ts`: middle
element of `values[start..end]` as root, recursively on both halves. Indices
are integers, `mid` is `Math.floor`, and an out-of-range read yields value 0
(never reached from in-range calls). -/
def buildBalancedTree (values : List Int) (start finish : Int) : AVLTree :=
  if finish < start then nil
  else
    let mid := (start + finish) / 2
    let l := buildBalancedTree values start (mid - 1)
    let r := buildBalancedTree values (mid + 1) finish
    node (values.getD mid.toNat 0) l r (max (getHeight l) (getHeight r) + 1)
termination_by (finish + 1 - start).toNat
decreasing_by all_goals omega

/-- `rebuildBalancedTree` from `Avl.ts`: collect the in-order values and build
a balanced tree from the whole list. -/
def rebuildBalancedTree : AVLTree → AVLTree
  | nil => nil
  | node v l r h =>
    let values := inorder (node v l r h)
    buildBalancedTree values 0 (values.length - 1)

/-- `convertToAVLFormat` from `Avl.ts`: UI format to `AVLNode` format with
heights recomputed; `isEmpty` roots and childless value-0 roots become `null`,
and only the first two children are used. -/
def convertToAVLFormat : TreeNode → AVLTree
  | .mk v cs e =>
    if e then nil
    else
      match cs with
      | [] => if v = 0 then nil else node v nil nil 1
      | [c0] =>
        let l := convertToAVLFormat c0
        node v l nil (max (getHeight l) (getHeight nil) + 1)
      | c0 :: c1 :: _ =>
        let l := convertToAVLFormat c0
        let r := convertToAVLFormat c1
        node v l r (max (getHeight l) (getHeight r) + 1)

/-- `convertToUIFormat` from `Avl.ts` (same shape as the BST one, heights
dropped). -/
def convertToUIFormat : AVLTree → TreeNode
  | nil => .mk 0 [] true
  | node v nil nil _ => .mk v [] false
  | node v (node lv ll lr lh) nil _ => .mk v [convertToUIFormat (node lv ll lr lh)] false
  | node v nil (node rv rl rr rh) _ =>
      .mk v [.mk 0 [] true, convertToUIFormat (node rv rl rr rh)] false
  | node v (node lv ll lr lh) (node rv rl rr rh) _ =>
      .mk v [convertToUIFormat (node lv ll lr lh), convertToUIFormat (node rv rl rr rh)] false

end Avl

/-- String a JavaScript template literal produces for a possibly-`undefined`
number (used for `options.newValue` in the update messages of `Avl.ts`). -/
def jsShow : Option Int → String
  | none => "undefined"
  | some n => toString n

/-- `runAVLAlgorithm` from `Avl.ts`: convert the UI tree, collect all values
(pre-order) for the membership checks, dispatch on the operation, convert
back. -/
def runAVLAlgorithm (treeData : TreeNode) (options : AlgorithmOperation) : AlgorithmResult :=
  let avlTree := Avl.convertToAVLFormat treeData
  let allValues := Avl.collectAllValues avlTree
  let result : Avl.AVLTree × Bool × String :=
    match options.operation with
    | .insert =>
      if allValues.contains options.value then
        (avlTree, false, s!"Valor {options.value} já existe na árvore. Duplicatas não são permitidas em árvores AVL.")
      else
        (Avl.insertNode avlTree options.value, true, s!"Valor {options.value} foi inserido com rebalanceamento")
    | .delete =>
      if !allValues.contains options.value then
        (avlTree, false, s!"Valor {options.value} não encontrado para exclusão")
      else
        match avlTree with
        | .node v .nil .nil _ =>
          if v = options.value then
            (.nil, true, s!"Nó raiz {options.value} foi excluído. Árvore agora está vazia.")
          else
            (Avl.deleteNode avlTree options.value, true, s!"Valor {options.value} foi excluído com rebalanceamento")
        | _ =>
          (Avl.deleteNode avlTree options.value, true, s!"Valor {options.value} foi excluído com rebalanceamento")
    | .search =>
      let found := allValues.contains options.value
      (avlTree, found,
        if found then s!"Valor {options.value} foi encontrado na árvore"
        else s!"Valor {options.value} não encontrado na árvore")
    | .update =>
      let valueExists := allValues.contains options.value
      let newValueExists :=
        (match options.newValue with
         | none => true
         | some nv => options.value ≠ nv) && allValues.contains (options.newValue.getD 0)
      if !valueExists then
        (avlTree, false, s!"Valor {options.value} não encontrado para atualização")
      else if newValueExists then
        (avlTree, false, "Novo valor " ++ jsShow options.newValue ++ " já existe na árvore. Escolha um valor único.")
      else
        (Avl.insertNode (Avl.deleteNode avlTree options.value) (options.newValue.getD 0), true,
          s!"Valor {options.value} foi atualizado para " ++ jsShow options.newValue ++ " com rebalanceamento automático")
    | .balance =>
      if Avl.isTreeBalanced avlTree then
        (avlTree, true, "Árvore já está balanceada")
      else
        (Avl.rebuildBalancedTree avlTree, true, "Árvore foi balanceada com sucesso")
  { newTree := Avl.convertToUIFormat result.1
    operation := options.operation
    success := result.2.1
    message := result.2.2 }

namespace Avl

/-- Validity of an `AVLNode` tree: every stored height is one more than the
maximum of the children's stored heights, and every balance factor lies in
`[-1, 1]`. This is the notion of "valid AVL tree" the specification states. -/
def AVLValid : AVLTree → Prop
  | .nil => True
  | .node _ l r h =>
    AVLValid l ∧ AVLValid r ∧ h = max (getHeight l) (getHeight r) + 1 ∧
      getHeight l ≤ getHeight r + 1 ∧ getHeight r ≤ getHeight l + 1

instance AVLValid.instDecidable : (t : AVLTree) → Decidable (AVLValid t)
  | .nil => isTrue trivial
  | .node v l r h =>
    have dl : Decidable (AVLValid l) := AVLValid.instDecidable l
    have dr : Decidable (AVLValid r) := AVLValid.instDecidable r
    @instDecidableAnd _ _ dl (@instDecidableAnd _ _ dr inferInstance)

@[simp] theorem AVLValid_nil : AVLValid .nil ↔ True := Iff.rfl

@[simp] theorem AVLValid_node {v : Int} {l r : AVLTree} {h : Nat} :
    AVLValid (.node v l r h) ↔
      AVLValid l ∧ AVLValid r ∧ h = max (getHeight l) (getHeight r) + 1 ∧
        getHeight l ≤ getHeight r + 1 ∧ getHeight r ≤ getHeight l + 1 := Iff.rfl

/-- Forget the stored heights, mapping the `AVLNode` shape onto the `BSTNode`
shape. -/
def forgetHeights : AVLTree → Bst.BSTTree
  | .nil => .nil
  | .node v l r _ => .node v (forgetHeights l) (forgetHeights r)

theorem convertToUIFormat_isEmpty_avl (v : Int) (l r : AVLTree) (h : Nat) :
    (convertToUIFormat (.node v l r h)).isEmpty = false := by
  cases l <;> cases r <;> rfl

theorem inorder_forgetHeights (a : AVLTree) :
    Bst.inorder (forgetHeights a) = inorder a := by
  induction a with
  | nil => rfl
  | node v l r h ihl ihr => simp [forgetHeights, Bst.inorder, inorder, ihl, ihr]

theorem convertToBSTFormat_convertToUIFormat_avl (a : AVLTree) :
    Bst.convertToBSTFormat (convertToUIFormat a) = forgetHeights a := by
  induction a with
  | nil => rfl
  | node v l r h ihl ihr =>
    cases l <;> cases r <;>
      simp_all [convertToUIFormat, Bst.convertToBSTFormat, forgetHeights,
        convertToUIFormat_isEmpty_avl]

end Avl

namespace Bst

theorem convertToUIFormat_isEmpty (v : Int) (l r : BSTTree) :
    (convertToUIFormat (.node v l r)).isEmpty = false := by
  cases l <;> cases r <;> rfl

/-- Converting a `BSTNode` tree to the UI format and back is the identity. -/
theorem convertToBSTFormat_convertToUIFormat (b : BSTTree) :
    convertToBSTFormat (convertToUIFormat b) = b := by
  induction b with
  | nil => rfl
  | node v l r ihl ihr =>
    cases l <;> cases r <;>
      simp_all [convertToUIFormat, convertToBSTFormat, convertToUIFormat_isEmpty]

theorem size_eq_length_inorder (b : BSTTree) : size b = (inorder b).length := by
  induction b with
  | nil => rfl
  | node v l r ihl ihr => simp [size, inorder, ihl, ihr]; omega

/-- Decomposition of sortedness of an in-order traversal at a node. -/
theorem sorted_inorder_node {v : Int} {l r : BSTTree} :
    (inorder (.node v l r)).Sorted (· < ·) ↔
      (inorder l).Sorted (· < ·) ∧ (inorder r).Sorted (· < ·) ∧
        (∀ x ∈ inorder l, x < v) ∧ (∀ y ∈ inorder r, v < y) := by
  simp only [inorder, List.Sorted, List.pairwise_append, List.pairwise_cons,
    List.mem_cons]
  constructor
  · rintro ⟨hl, ⟨hv, hr⟩, hx⟩
    exact ⟨hl, hr, fun x hx' => (hx x hx' v (Or.inl rfl)), hv⟩
  · rintro ⟨hl, hr, hlv, hvr⟩
    refine ⟨hl, ⟨hvr, hr⟩, fun x hx y hy => ?_⟩
    rcases hy with rfl | hy
    · exact hlv x hx
    · exact lt_trans (hlv x hx) (hvr y hy)

/-- On a tree with sorted in-order traversal, `searchNode` decides membership
in the traversal. -/
theorem searchNode_iff_mem {t : BSTTree} (hs : (inorder t).Sorted (· < ·)) (v : Int) :
    searchNode t v = true ↔ v ∈ inorder t := by
  induction t with
  | nil => simp [searchNode, inorder]
  | node w l r ihl ihr =>
    rcases sorted_inorder_node.1 hs with ⟨hl, hr, hlw, hwr⟩
    by_cases hvw : v = w
    · subst hvw; simp [searchNode, inorder]
    · by_cases hlt : v < w
      · rw [searchNode]
        simp only [if_neg hvw, if_pos hlt, inorder, List.mem_append, List.mem_cons]
        rw [ihl hl]
        constructor
        · exact fun h => Or.inl h
        · rintro (h | h | h)
          · exact h
          · exact absurd h hvw
          · exact absurd hlt (not_lt.2 (le_of_lt (hwr v h)))
      · rw [searchNode]
        simp only [if_neg hvw, if_neg hlt, inorder, List.mem_append, List.mem_cons]
        rw [ihr hr]
        constructor
        · exact fun h => Or.inr (Or.inr h)
        · rintro (h | h | h)
          · exact absurd (hlw v h) hlt
          · exact absurd h hvw
          · exact h

end Bst

/-- In-order traversal of a UI-format tree, read through its `BSTNode`
interpretation (the binary reading every engine of the repository uses). -/
def uiInorder (t : TreeNode) : List Int :=
  Bst.inorder (Bst.convertToBSTFormat t)

theorem uiInorder_convertToUIFormat (b : Bst.BSTTree) :
    uiInorder (Bst.convertToUIFormat b) = Bst.inorder b := by
  rw [uiInorder, Bst.convertToBSTFormat_convertToUIFormat]

theorem uiInorder_convertToUIFormat_avl (a : Avl.AVLTree) :
    uiInorder (Avl.convertToUIFormat a) = Avl.inorder a := by
  rw [uiInorder, Avl.convertToBSTFormat_convertToUIFormat_avl, Avl.inorder_forgetHeights]

theorem runAVLAlgorithm_congr (t1 t2 : TreeNode) (op : AlgorithmOperation)
    (h : Avl.convertToAVLFormat t1 = Avl.convertToAVLFormat t2) :
    runAVLAlgorithm t1 op = runAVLAlgorithm t2 op := by
  simp only [runAVLAlgorithm, h]

/-- C10: for every operation, `runAVLAlgorithm` applied to an input tree whose
root has value 0 and no children — with the `isEmpty` flag not set — behaves
exactly as if applied to the canonical empty-tree sentinel: `convertToAVLFormat`
sends both to `null`, so in particular searching for 0 in the single-node tree
holding 0 reports `success = false`. -/
theorem claim_C10 :
    (∀ op : AlgorithmOperation,
      runAVLAlgorithm (.mk 0 [] false) op = runAVLAlgorithm (.mk 0 [] true) op) ∧
    Avl.convertToAVLFormat (.mk 0 [] false) = .nil ∧
    (runAVLAlgorithm (.mk 0 [] false) ⟨.search, 0, none⟩).success = false :=
  ⟨fun op => runAVLAlgorithm_congr _ _ op rfl, rfl, rfl⟩

/-- C2: inserting a value already present in a BST (tree with sorted in-order
traversal) or in an AVL tree returns `success = false` with a diagnostic
message, and the returned tree is unchanged — same traversal sequence and same
size as the input's. -/
theorem claim_C2 (t : TreeNode) (v : Int) :
    ((Bst.inorder (Bst.convertToBSTFormat t)).Sorted (· < ·) →
      v ∈ Bst.inorder (Bst.convertToBSTFormat t) →
      (runBSTAlgorithm t ⟨.insert, v, none⟩).success = false ∧
      (runBSTAlgorithm t ⟨.insert, v, none⟩).message =
        s!"Valor {v} já existe na árvore. Duplicatas não são permitidas em BST." ∧
      uiInorder (runBSTAlgorithm t ⟨.insert, v, none⟩).newTree =
        Bst.inorder (Bst.convertToBSTFormat t) ∧
      Bst.size (Bst.convertToBSTFormat (runBSTAlgorithm t ⟨.insert, v, none⟩).newTree) =
        Bst.size (Bst.convertToBSTFormat t)) ∧
    ((Avl.collectAllValues (Avl.convertToAVLFormat t)).contains v = true →
      (runAVLAlgorithm t ⟨.insert, v, none⟩).success = false ∧
      (runAVLAlgorithm t ⟨.insert, v, none⟩).message =
        s!"Valor {v} já existe na árvore. Duplicatas não são permitidas em árvores AVL." ∧
      (runAVLAlgorithm t ⟨.insert, v, none⟩).newTree =
        Avl.convertToUIFormat (Avl.convertToAVLFormat t) ∧
      uiInorder (runAVLAlgorithm t ⟨.insert, v, none⟩).newTree =
        Avl.inorder (Avl.convertToAVLFormat t)) := by
  constructor
  · intro hs hm
    have hsearch : Bst.searchNode (Bst.convertToBSTFormat t) v = true :=
      (Bst.searchNode_iff_mem hs v).2 hm
    have hrun : runBSTAlgorithm t ⟨.insert, v, none⟩ =
        ⟨Bst.convertToUIFormat (Bst.convertToBSTFormat t), .insert, false,
          s!"Valor {v} já existe na árvore. Duplicatas não são permitidas em BST."⟩ := by
      simp [runBSTAlgorithm, hsearch]
    rw [hrun]
    refine ⟨rfl, rfl, ?_, ?_⟩
    · exact uiInorder_convertToUIFormat _
    · rw [Bst.convertToBSTFormat_convertToUIFormat]
  · intro hc
    have hcm : v ∈ Avl.collectAllValues (Avl.convertToAVLFormat t) := by simpa using hc
    have hrun : runAVLAlgorithm t ⟨.insert, v, none⟩ =
        ⟨Avl.convertToUIFormat (Avl.convertToAVLFormat t), .insert, false,
          s!"Valor {v} já existe na árvore. Duplicatas não são permitidas em árvores AVL."⟩ := by
      simp [runAVLAlgorithm, hcm]
    rw [hrun]
    exact ⟨rfl, rfl, rfl, uiInorder_convertToUIFormat_avl _⟩

theorem claim_C2_witness :
    (Bst.inorder (Bst.convertToBSTFormat (.mk 10 [] false))).Sorted (· < ·) ∧
    10 ∈ Bst.inorder (Bst.convertToBSTFormat (.mk 10 [] false)) ∧
    (Avl.collectAllValues (Avl.convertToAVLFormat (.mk 10 [] false))).contains 10 = true ∧
    (runBSTAlgorithm (.mk 10 [] false) ⟨.insert, 10, none⟩).success = false ∧
    (runAVLAlgorithm (.mk 10 [] false) ⟨.insert, 10, none⟩).success = false :=
  ⟨by decide, by decide, by decide,
    ((claim_C2 (.mk 10 [] false) 10).1 (by decide) (by decide)).1,
    ((claim_C2 (.mk 10 [] false) 10).2 (by decide)).1⟩

/-- C4 counterexample: the claim says AVL update is rejected under exactly the
BST rules, including the ancestor-bounds rule; but on the tree `10 ← 5`,
`update(5, 20)` violates the bounds rule (`isValidUpdate` is false and BST
update indeed rejects), while the AVL update succeeds. -/
theorem claim_C4_counterexample :
    (runAVLAlgorithm (.mk 10 [.mk 5 [] false] false) ⟨.update, 5, some 20⟩).success = true ∧
    Bst.isValidUpdate (Bst.convertToBSTFormat (.mk 10 [.mk 5 [] false] false)) 5 20 = false ∧
    (runBSTAlgorithm (.mk 10 [.mk 5 [] false] false) ⟨.update, 5, some 20⟩).success = false := by
  exact ⟨rfl, rfl, rfl⟩

/-- C4 (amended): AVL update is rejected — `success = false`, tree unchanged —
exactly when the old value is absent, or the new value is distinct from the old
one and already present; no ancestor-bounds check is performed (unlike BST
update). Otherwise it succeeds via delete(old) followed by insert(new) with
rebalancing. -/
theorem claim_C4 (t : TreeNode) (oldV newV : Int) :
    ((Avl.collectAllValues (Avl.convertToAVLFormat t)).contains oldV = false →
      runAVLAlgorithm t ⟨.update, oldV, some newV⟩ =
        ⟨Avl.convertToUIFormat (Avl.convertToAVLFormat t), .update, false,
          s!"Valor {oldV} não encontrado para atualização"⟩) ∧
    ((Avl.collectAllValues (Avl.convertToAVLFormat t)).contains oldV = true →
      oldV ≠ newV →
      (Avl.collectAllValues (Avl.convertToAVLFormat t)).contains newV = true →
      runAVLAlgorithm t ⟨.update, oldV, some newV⟩ =
        ⟨Avl.convertToUIFormat (Avl.convertToAVLFormat t), .update, false,
          "Novo valor " ++ jsShow (some newV) ++ " já existe na árvore. Escolha um valor único."⟩) ∧
    ((Avl.collectAllValues (Avl.convertToAVLFormat t)).contains oldV = true →
      (oldV = newV ∨ (Avl.collectAllValues (Avl.convertToAVLFormat t)).contains newV = false) →
      runAVLAlgorithm t ⟨.update, oldV, some newV⟩ =
        ⟨Avl.convertToUIFormat
            (Avl.insertNode (Avl.deleteNode (Avl.convertToAVLFormat t) oldV) newV),
          .update, true,
          s!"Valor {oldV} foi atualizado para " ++ jsShow (some newV) ++
            " com rebalanceamento automático"⟩) := by
  refine ⟨?_, ?_, ?_⟩
  · intro h
    have hm : oldV ∉ Avl.collectAllValues (Avl.convertToAVLFormat t) := by simpa using h
    simp [runAVLAlgorithm, hm]
  · intro h hne hnew
    have hm : oldV ∈ Avl.collectAllValues (Avl.convertToAVLFormat t) := by simpa using h
    have hmn : newV ∈ Avl.collectAllValues (Avl.convertToAVLFormat t) := by simpa using hnew
    simp [runAVLAlgorithm, hm, hmn, hne]
  · intro h hcase
    have hm : oldV ∈ Avl.collectAllValues (Avl.convertToAVLFormat t) := by simpa using h
    rcases hcase with rfl | hnew
    · simp [runAVLAlgorithm, hm]
    · have hmn : newV ∉ Avl.collectAllValues (Avl.convertToAVLFormat t) := by simpa using hnew
      simp [runAVLAlgorithm, hm, hmn]

theorem claim_C4_witness :
    (Avl.collectAllValues (Avl.convertToAVLFormat (.mk 10 [.mk 5 [] false] false))).contains 5
      = true ∧
    (Avl.collectAllValues (Avl.convertToAVLFormat (.mk 10 [.mk 5 [] false] false))).contains 20
      = false ∧
    runAVLAlgorithm (.mk 10 [.mk 5 [] false] false) ⟨.update, 5, some 20⟩ =
      ⟨Avl.convertToUIFormat
          (Avl.insertNode
            (Avl.deleteNode (Avl.convertToAVLFormat (.mk 10 [.mk 5 [] false] false)) 5) 20),
        .update, true,
        s!"Valor {(5 : Int)} foi atualizado para " ++ jsShow (some 20) ++
          " com rebalanceamento automático"⟩ :=
  ⟨by decide, by decide,
    ((claim_C4 (.mk 10 [.mk 5 [] false] false) 5 20).2.2 (by decide) (Or.inr (by decide)))⟩

namespace SinglyLinkedList

/-!
`SinglyLinkedList` from the source is a head pointer plus a chain of nodes;
a chain is modelled by the list of its values in head-to-tail order. The two
self-organizing operations below return the JS boolean result together with
the list after the operation.
-/

/-- The searching walk of `moveToFront`: advance `prev`/`current` until the
first node holding `value`, then unlink it (`prev.next = current.next`);
`none` when the walk runs off the chain. -/
def removeFirst : List Int → Int → Option (List Int)
  | [], _ => none
  | h :: t, v => if h = v then some t else (removeFirst t v).map (h :: ·)

/-- `moveToFront` from the source: empty list fails; a head hit succeeds with
no change; otherwise the found node is unlinked and relinked at the head. -/
def moveToFront (l : List Int) (v : Int) : Bool × List Int :=
  match l with
  | [] => (false, [])
  | h :: t =>
    if h = v then (true, h :: t)
    else
      match removeFirst t v with
      | none => (false, h :: t)
      | some t2 => (true, v :: h :: t2)

/-- The searching walk of `transpose`: `prev` starts at the head, `current` at
its successor; on finding `value` the two nodes swap values. -/
def swapWithPred (prev : Int) (rest : List Int) (v : Int) : Option (List Int) :=
  match rest with
  | [] => none
  | c :: t => if c = v then some (c :: prev :: t) else (swapWithPred c t v).map (prev :: ·)

/-- `transpose` from the source: fails on lists with fewer than two nodes and
when the value sits at the head; otherwise swaps the found node's value with
its immediate predecessor's. -/
def transpose (l : List Int) (v : Int) : Bool × List Int :=
  match l with
  | [] => (false, [])
  | [x] => (false, [x])
  | h :: c :: t =>
    if h = v then (false, h :: c :: t)
    else
      match swapWithPred h (c :: t) v with
      | none => (false, h :: c :: t)
      | some l2 => (true, l2)

theorem removeFirst_of_mem {t : List Int} {v : Int} (h : v ∈ t) :
    removeFirst t v = some (t.erase v) := by
  induction t with
  | nil => cases h
  | cons x t ih =>
    by_cases hx : x = v
    · subst hx; simp [removeFirst, List.erase_cons]
    · rcases List.mem_cons.1 h with rfl | hmem
      · exact absurd rfl hx
      · simp [removeFirst, hx, ih hmem, List.erase_cons, show (x == v) = false by simp [hx]]

theorem removeFirst_of_not_mem {t : List Int} {v : Int} (h : v ∉ t) :
    removeFirst t v = none := by
  induction t with
  | nil => rfl
  | cons x t ih =>
    simp only [List.mem_cons, not_or] at h
    simp [removeFirst, Ne.symm h.1, h.1, ih h.2]

theorem swapWithPred_of_not_mem {rest : List Int} {v : Int} (p : Int) (h : v ∉ rest) :
    swapWithPred p rest v = none := by
  induction rest generalizing p with
  | nil => rfl
  | cons c t ih =>
    simp only [List.mem_cons, not_or] at h
    simp [swapWithPred, Ne.symm h.1, h.1, ih _ h.2]

theorem swapWithPred_of_mem (p : Int) (a : List Int) (q : Int) (b : List Int) (v : Int)
    (ha : v ∉ a) (hq : q ≠ v) :
    swapWithPred p ((a ++ [q]) ++ v :: b) v = some ((p :: a) ++ v :: q :: b) := by
  induction a generalizing p with
  | nil => simp [swapWithPred, hq, Ne.symm hq]
  | cons x a2 ih =>
    simp only [List.mem_cons, not_or] at ha
    rw [List.cons_append, List.cons_append, swapWithPred]
    have ih2 := ih x ha.2
    simp only [List.append_assoc, List.singleton_append] at ih2
    simp [Ne.symm ha.1, ha.1, ih2]

end SinglyLinkedList

/-- C9: in a singly linked list, `moveToFront(v)` on a list containing `v`
returns `true` and moves the first occurrence of `v` to index 0, keeping the
remaining elements in their previous relative order; `transpose(v)` on a list
whose first occurrence of `v` has an immediate predecessor returns `true` and
exchanges the positions of `v` and that predecessor; both return `false` when
`v` is absent, and `transpose` also when `v` is at the head or the list has
fewer than two elements. -/
theorem claim_C9 (l : List Int) (v : Int) :
    (v ∈ l → SinglyLinkedList.moveToFront l v = (true, v :: l.erase v)) ∧
    (v ∉ l → SinglyLinkedList.moveToFront l v = (false, l)) ∧
    (∀ (a b : List Int) (p : Int), l = a ++ p :: v :: b → v ∉ a → p ≠ v →
      SinglyLinkedList.transpose l v = (true, a ++ v :: p :: b)) ∧
    (v ∉ l → SinglyLinkedList.transpose l v = (false, l)) ∧
    (∀ t : List Int, l = v :: t → SinglyLinkedList.transpose l v = (false, l)) ∧
    (l.length < 2 → SinglyLinkedList.transpose l v = (false, l)) := by
  refine ⟨?_, ?_, ?_, ?_, ?_, ?_⟩
  · intro hm
    match l, hm with
    | h :: t, hm =>
      by_cases hh : h = v
      · subst hh; simp [SinglyLinkedList.moveToFront, List.erase_cons]
      · have hmt : v ∈ t := by
          rcases List.mem_cons.1 hm with rfl | h2
          · exact absurd rfl hh
          · exact h2
        simp [SinglyLinkedList.moveToFront, hh, SinglyLinkedList.removeFirst_of_mem hmt,
          List.erase_cons, show (h == v) = false by simp [hh]]
  · intro hm
    match l with
    | [] => rfl
    | h :: t =>
      simp only [List.mem_cons, not_or] at hm
      simp [SinglyLinkedList.moveToFront, Ne.symm hm.1, hm.1,
        SinglyLinkedList.removeFirst_of_not_mem hm.2]
  · intro a b p hdecomp hva hpv
    subst hdecomp
    cases a with
    | nil =>
      simp [SinglyLinkedList.transpose, Ne.symm hpv, hpv, SinglyLinkedList.swapWithPred]
    | cons a0 a2 =>
      simp only [List.mem_cons, not_or] at hva
      cases a2 with
      | nil =>
        have hsw := SinglyLinkedList.swapWithPred_of_mem a0 [] p b v (by simp) hpv
        simp only [List.nil_append, List.singleton_append] at hsw
        show SinglyLinkedList.transpose (a0 :: p :: v :: b) v = _
        rw [SinglyLinkedList.transpose]
        rw [if_neg (Ne.symm hva.1), hsw]
        simp
      | cons a1 a3 =>
        have hva1 : ¬v = a0 := hva.1
        have hva2 : v ∉ a1 :: a3 := hva.2
        have hsw := SinglyLinkedList.swapWithPred_of_mem a0 (a1 :: a3) p b v hva2 hpv
        have harr : a1 :: (a3 ++ p :: v :: b) = ((a1 :: a3) ++ [p]) ++ v :: b := by simp
        show SinglyLinkedList.transpose (a0 :: a1 :: (a3 ++ p :: v :: b)) v = _
        rw [SinglyLinkedList.transpose]
        rw [if_neg (Ne.symm hva1), harr, hsw]
  · intro hm
    match l with
    | [] => rfl
    | [x] => rfl
    | h :: c :: t =>
      simp only [List.mem_cons, not_or] at hm
      have hsw : SinglyLinkedList.swapWithPred h (c :: t) v = none :=
        SinglyLinkedList.swapWithPred_of_not_mem h (by simp [hm.2.1, hm.2.2])
      rw [SinglyLinkedList.transpose]
      simp [Ne.symm hm.1, hsw]
  · intro t ht
    subst ht
    match t with
    | [] => rfl
    | c :: t2 => simp [SinglyLinkedList.transpose]
  · intro hlen
    match l with
    | [] => rfl
    | [x] => rfl
    | a :: b :: t => simp at hlen; omega

theorem claim_C9_witness :
    (35 : Int) ∈ [15, 25, 35, 45, 55] ∧
    SinglyLinkedList.moveToFront [15, 25, 35, 45, 55] 35 = (true, [35, 15, 25, 45, 55]) ∧
    SinglyLinkedList.transpose [15, 25, 35, 45, 55] 35 = (true, [15, 35, 25, 45, 55]) :=
  ⟨by decide,
    by rw [(claim_C9 [15, 25, 35, 45, 55] 35).1 (by decide)]; decide,
    by rw [(claim_C9 [15, 25, 35, 45, 55] 35).2.2.1 [15] [45, 55] 25 (by decide) (by decide)
        (by decide)]; decide⟩

/-!
Embedding of the `HashTable` class (fixed capacity, three collision
strategies). Keys are JavaScript strings (`String(key)` is applied before
hashing and the stored key is compared with `===`); values are modelled as
`Int`. A bucket array slot holds a list of items — under open addressing at
most one. The open-addressing loops advance a counter `i` from 0 and abort
once `i` reaches the capacity; the counter values `0, 1, …, size-1` the loop
can take are modelled as the list `List.range size` the recursion consumes.
-/

/-- Collision strategies of the hash table. -/
inductive CollisionStrategy where
  | chaining | linearProbing | doubleHashing
deriving Repr, DecidableEq

/-- A stored key/value pair (`HashItem` in the source). -/
structure HashItem where
  key : String
  value : Int
deriving Repr, DecidableEq

/-- The `HashTable` class state: capacity `size`, strategy, bucket array. -/
structure HashTable where
  size : Nat
  collisionStrategy : CollisionStrategy
  table : List (List HashItem)
deriving Repr, DecidableEq

/-- The constructor `new HashTable({size, collisionStrategy})`: `size`
defaults to 10 when 0/absent (`options.size || 10`), buckets start empty. -/
def mkHashTable (size : Nat) (strategy : CollisionStrategy) : HashTable :=
  let s := if size = 0 then 10 else size
  ⟨s, strategy, List.replicate s []⟩

namespace HashTable

/-- The primary hash: Horner-style rolling hash with prime 31, reduced mod
`size` at each step (`charCodeAt` is the code point for the ASCII keys the
repository uses). -/
def hash (t : HashTable) (key : String) : Nat :=
  key.data.foldl (fun h c => (h * 31 + c.toNat) % t.size) 0

/-- The secondary hash for double hashing: prime 17, reduced mod `size - 1`,
plus one so the step is never zero. -/
def hash2 (t : HashTable) (key : String) : Nat :=
  1 + key.data.foldl (fun h c => (h * 17 + c.toNat) % (t.size - 1)) 0

/-- Scan of a chaining bucket for a key (the `for` loop in `search`). -/
def searchBucket : List HashItem → String → Option Int
  | [], _ => none
  | item :: rest, key => if item.key = key then some item.value else searchBucket rest key

/-- The open-addressing search loop: visit slot `(hashIndex + i*step) % size`
for each remaining counter value; stop at a bucket holding the key (found), at
an empty bucket (absent), or when the counter list is exhausted (capacity
iterations). -/
def probeSearch (t : HashTable) (key : String) (hashIndex step : Nat) :
    List Nat → Option Int
  | [] => none
  | i :: rest =>
    let probeIndex := (hashIndex + i * step) % t.size
    match t.table.getD probeIndex [] with
    | [] => none
    | item :: _ =>
      if item.key = key then some item.value else probeSearch t key hashIndex step rest

/-- `HashTable.search`: dispatch on the collision strategy. -/
def search (t : HashTable) (key : String) : Option Int :=
  let hashIndex := t.hash key
  match t.collisionStrategy with
  | .chaining => searchBucket (t.table.getD hashIndex []) key
  | .linearProbing => probeSearch t key hashIndex 1 (List.range t.size)
  | .doubleHashing => probeSearch t key hashIndex (t.hash2 key) (List.range t.size)

/-- The open-addressing insert loop: find the first empty slot along the probe
sequence and push the item there; report failure after capacity iterations. -/
def probeInsert (t : HashTable) (key : String) (value : Int) (hashIndex step : Nat) :
    List Nat → HashTable × Bool
  | [] => (t, false)
  | i :: rest =>
    let probeIndex := (hashIndex + i * step) % t.size
    match t.table.getD probeIndex [] with
    | [] => (⟨t.size, t.collisionStrategy, t.table.set probeIndex [⟨key, value⟩]⟩, true)
    | _ :: _ => probeInsert t key value hashIndex step rest

/-- `HashTable.insert`: reject present keys (via `search`), then chain or
probe according to the strategy. -/
def insert (t : HashTable) (key : String) (value : Int) : HashTable × Bool :=
  let hashIndex := t.hash key
  if (t.search key).isSome then (t, false)
  else
    match t.collisionStrategy with
    | .chaining =>
      (⟨t.size, t.collisionStrategy,
        t.table.set hashIndex (t.table.getD hashIndex [] ++ [⟨key, value⟩])⟩, true)
    | .linearProbing => probeInsert t key value hashIndex 1 (List.range t.size)
    | .doubleHashing => probeInsert t key value hashIndex (t.hash2 key) (List.range t.size)

/-- Scan-and-splice of a chaining bucket (the `for` loop in `delete`). -/
def deleteBucket : List HashItem → String → Option (List HashItem)
  | [], _ => none
  | item :: rest, key =>
    if item.key = key then some rest
    else (deleteBucket rest key).map (item :: ·)

/-- The open-addressing delete loop: on the probe path, a bucket holding the
key is reset to the empty bucket (no tombstone is left behind). -/
def probeDelete (t : HashTable) (key : String) (hashIndex step : Nat) :
    List Nat → HashTable × Bool
  | [] => (t, false)
  | i :: rest =>
    let probeIndex := (hashIndex + i * step) % t.size
    match t.table.getD probeIndex [] with
    | [] => (t, false)
    | item :: _ =>
      if item.key = key then
        (⟨t.size, t.collisionStrategy, t.table.set probeIndex []⟩, true)
      else probeDelete t key hashIndex step rest

/-- `HashTable.delete`: dispatch on the collision strategy. -/
def delete (t : HashTable) (key : String) : HashTable × Bool :=
  let hashIndex := t.hash key
  match t.collisionStrategy with
  | .chaining =>
    match deleteBucket (t.table.getD hashIndex []) key with
    | none => (t, false)
    | some b => (⟨t.size, t.collisionStrategy, t.table.set hashIndex b⟩, true)
  | .linearProbing => probeDelete t key hashIndex 1 (List.range t.size)
  | .doubleHashing => probeDelete t key hashIndex (t.hash2 key) (List.range t.size)

/-- The step the open-addressing probe loops use: `+1` for linear probing, the
secondary hash for double hashing. -/
def probeStep (t : HashTable) (key : String) : Nat :=
  match t.collisionStrategy with
  | .doubleHashing => t.hash2 key
  | _ => 1

/-- The slot indices whose occupancy the probing loop of `insert` examines, in
order: it stops after the first empty slot or once the counter list is
exhausted (capacity iterations). -/
def probeVisited (t : HashTable) (hashIndex step : Nat) : List Nat → List Nat
  | [] => []
  | i :: rest =>
    let probeIndex := (hashIndex + i * step) % t.size
    match t.table.getD probeIndex [] with
    | [] => [probeIndex]
    | _ :: _ => probeIndex :: probeVisited t hashIndex step rest

/-- The slot indices the `search` probing loop examines, in order: as for
insert, but a slot holding the key also stops the walk. -/
def searchVisited (t : HashTable) (key : String) (hashIndex step : Nat) :
    List Nat → List Nat
  | [] => []
  | i :: rest =>
    let probeIndex := (hashIndex + i * step) % t.size
    match t.table.getD probeIndex [] with
    | [] => [probeIndex]
    | item :: _ =>
      if item.key = key then [probeIndex]
      else probeIndex :: searchVisited t key hashIndex step rest

end HashTable

theorem probeInsert_full (t : HashTable) (key : String) (value : Int)
    (hlen : t.table.length = t.size) (hsz : 1 ≤ t.size)
    (hfull : ∀ b ∈ t.table, b ≠ []) (hashIndex step : Nat) :
    ∀ idxs : List Nat, HashTable.probeInsert t key value hashIndex step idxs = (t, false) := by
  intro idxs
  induction idxs with
  | nil => rfl
  | cons i rest ih =>
    rw [HashTable.probeInsert]
    have hlt : (hashIndex + i * step) % t.size < t.table.length := by
      rw [hlen]; exact Nat.mod_lt _ hsz
    have hmem : t.table.getD ((hashIndex + i * step) % t.size) [] ∈ t.table := by
      rw [List.getD_eq_getElem?_getD, List.getElem?_eq_getElem hlt]
      exact Option.getD_some ▸ List.getElem_mem _
    have hne := hfull _ hmem
    match hb : t.table.getD ((hashIndex + i * step) % t.size) [] with
    | [] => exact absurd hb hne
    | item :: more => exact ih

theorem probeVisited_full (t : HashTable) (hashIndex step : Nat)
    (hlen : t.table.length = t.size) (hsz : 1 ≤ t.size)
    (hfull : ∀ b ∈ t.table, b ≠ []) :
    ∀ idxs : List Nat, HashTable.probeVisited t hashIndex step idxs =
      idxs.map (fun i => (hashIndex + i * step) % t.size) := by
  intro idxs
  induction idxs with
  | nil => rfl
  | cons i rest ih =>
    rw [HashTable.probeVisited]
    have hlt : (hashIndex + i * step) % t.size < t.table.length := by
      rw [hlen]; exact Nat.mod_lt _ hsz
    have hmem : t.table.getD ((hashIndex + i * step) % t.size) [] ∈ t.table := by
      rw [List.getD_eq_getElem?_getD, List.getElem?_eq_getElem hlt]
      exact Option.getD_some ▸ List.getElem_mem _
    have hne := hfull _ hmem
    match hb : t.table.getD ((hashIndex + i * step) % t.size) [] with
    | [] => exact absurd hb hne
    | item :: more => simp [ih]

/-- C8: inserting into an open-addressing hash table (linear probing, or
double hashing with capacity at least 2 — the secondary hash divides by
`capacity − 1`) in which every slot is occupied examines at most capacity
slots (here: exactly the capacity-length probe sequence), returns `false`,
and leaves every slot of the table unchanged. -/
theorem claim_C8 (t : HashTable) (key : String) (value : Int)
    (hlen : t.table.length = t.size)
    (hfull : ∀ b ∈ t.table, b ≠ [])
    (hstrat : (t.collisionStrategy = .linearProbing ∧ 1 ≤ t.size) ∨
              (t.collisionStrategy = .doubleHashing ∧ 2 ≤ t.size)) :
    t.insert key value = (t, false) ∧
    (HashTable.probeVisited t (t.hash key) (t.probeStep key) (List.range t.size)).length
      ≤ t.size ∧
    HashTable.probeVisited t (t.hash key) (t.probeStep key) (List.range t.size) =
      (List.range t.size).map (fun i => (t.hash key + i * t.probeStep key) % t.size) := by
  have hsz : 1 ≤ t.size := by rcases hstrat with ⟨_, h⟩ | ⟨_, h⟩ <;> omega
  refine ⟨?_, ?_, ?_⟩
  · rw [HashTable.insert]
    by_cases hs : (t.search key).isSome
    · simp [hs]
    · simp only [hs, if_false, Bool.false_eq_true]
      rcases hstrat with ⟨hc, _⟩ | ⟨hc, _⟩ <;>
        rw [hc] <;> exact probeInsert_full t key value hlen hsz hfull _ _ _
  · rw [probeVisited_full t _ _ hlen hsz hfull]
    simp
  · exact probeVisited_full t _ _ hlen hsz hfull _

theorem claim_C8_witness :
    (HashTable.mk 2 .linearProbing [[⟨"a", 1⟩], [⟨"b", 2⟩]]).table.length =
      (HashTable.mk 2 .linearProbing [[⟨"a", 1⟩], [⟨"b", 2⟩]]).size ∧
    (∀ b ∈ (HashTable.mk 2 .linearProbing [[⟨"a", 1⟩], [⟨"b", 2⟩]]).table, b ≠ []) ∧
    (HashTable.mk 2 .linearProbing [[⟨"a", 1⟩], [⟨"b", 2⟩]]).insert "c" 3 =
      (HashTable.mk 2 .linearProbing [[⟨"a", 1⟩], [⟨"b", 2⟩]], false) :=
  ⟨by decide, by decide,
    (claim_C8 (HashTable.mk 2 .linearProbing [[⟨"a", 1⟩], [⟨"b", 2⟩]]) "c" 3
      (by decide) (by decide) (Or.inl ⟨rfl, by decide⟩)).1⟩

namespace Bst

theorem minValue_head : ∀ (v : Int) (l r : BSTTree),
    inorder (.node v l r) = minValue (.node v l r) :: (inorder (.node v l r)).tail := by
  intro v l r
  induction l generalizing v r with
  | nil => simp [inorder, minValue]
  | node lv ll lr ihl _ =>
    rw [minValue]
    have h := ihl lv lr
    show inorder (.node lv ll lr) ++ v :: inorder r =
      minValue (.node lv ll lr) :: (inorder (.node lv ll lr) ++ v :: inorder r).tail
    rw [h]
    simp

theorem sorted_nodup {l : List Int} (hs : l.Sorted (· < ·)) : l.Nodup :=
  hs.imp ne_of_lt

theorem deleteNode_node (v : Int) (l r : BSTTree) (x : Int) :
    deleteNode (.node v l r) x =
      if x < v then .node v (deleteNode l x) r
      else if v < x then .node v l (deleteNode r x)
      else
        match l, r with
        | .nil, .nil => .nil
        | .nil, _ => r
        | _, .nil => l
        | _, _ => .node (minValue r) l (deleteNode r (minValue r)) := rfl

theorem deleteNode_inorder :
    ∀ t : BSTTree, (inorder t).Sorted (· < ·) → ∀ x : Int, x ∈ inorder t →
      inorder (deleteNode t x) = (inorder t).erase x := by
  intro t
  induction t with
  | nil => intro _ x hm; cases hm
  | node v l r ihl ihr =>
    intro hs x hm
    rcases sorted_inorder_node.1 hs with ⟨hl, hr, hlv, hvr⟩
    have hm3 : x ∈ inorder l ∨ x = v ∨ x ∈ inorder r := by simpa [inorder] using hm
    by_cases hxv : x = v
    · subst hxv
      have hxl : x ∉ inorder l := fun hc => lt_irrefl x (hlv x hc)
      rw [deleteNode_node, if_neg (lt_irrefl x), if_neg (lt_irrefl x)]
      cases l with
      | nil =>
        cases r with
        | nil =>
          show inorder BSTTree.nil = _
          simp [inorder, List.erase_cons]
        | node rv rl rr =>
          show inorder (.node rv rl rr) = _
          simp [inorder, List.erase_cons]
      | node lv ll lr =>
        cases r with
        | nil =>
          show inorder (.node lv ll lr) =
            (inorder (.node lv ll lr) ++ x :: inorder BSTTree.nil).erase x
          rw [List.erase_append_right _ hxl]
          simp [inorder, List.erase_cons]
        | node rv rl rr =>
          have hmin := minValue_head rv rl rr
          have hmem : minValue (.node rv rl rr) ∈ inorder (.node rv rl rr) := by
            rw [hmin]; exact List.mem_cons_self _ _
          have hdel := ihr hr (minValue (.node rv rl rr)) hmem
          show inorder (.node lv ll lr) ++
              minValue (.node rv rl rr) ::
                inorder (deleteNode (.node rv rl rr) (minValue (.node rv rl rr))) =
            (inorder (.node lv ll lr) ++ x :: inorder (.node rv rl rr)).erase x
          rw [List.erase_append_right _ hxl, List.erase_cons_head]
          rw [hdel, hmin, List.erase_cons_head]
    · by_cases hlt : x < v
      · have hxl : x ∈ inorder l := by
          rcases hm3 with h | rfl | h
          · exact h
          · exact absurd rfl hxv
          · exact absurd hlt (not_lt.2 (le_of_lt (hvr x h)))
        rw [deleteNode_node, if_pos hlt]
        show inorder (deleteNode l x) ++ v :: inorder r =
          (inorder l ++ v :: inorder r).erase x
        rw [ihl hl x hxl, List.erase_append_left _ hxl]
      · have hgt : v < x := lt_of_le_of_ne (not_lt.1 hlt) (Ne.symm hxv)
        have hxr : x ∈ inorder r := by
          rcases hm3 with h | rfl | h
          · exact absurd (hlv x h) (not_lt.2 (le_of_lt hgt))
          · exact absurd rfl hxv
          · exact h
        have hxl : x ∉ inorder l := fun hc => absurd (hlv x hc) (not_lt.2 (le_of_lt hgt))
        rw [deleteNode_node, if_neg (not_lt.2 (le_of_lt hgt)), if_pos hgt]
        show inorder l ++ v :: inorder (deleteNode r x) =
          (inorder l ++ v :: inorder r).erase x
        rw [ihr hr x hxr, List.erase_append_right _ hxl]
        simp [List.erase_cons, Ne.symm hxv]

end Bst

/-- C5: deleting a present value `x` from a BST with strictly increasing
in-order traversal yields a tree whose traversal is the original with `x`
removed and still strictly increasing, and searching for `x` afterwards
returns false. -/
theorem claim_C5 (t : Bst.BSTTree) (x : Int)
    (hs : (Bst.inorder t).Sorted (· < ·)) (hm : x ∈ Bst.inorder t) :
    Bst.inorder (Bst.deleteNode t x) = (Bst.inorder t).erase x ∧
    (Bst.inorder (Bst.deleteNode t x)).Sorted (· < ·) ∧
    Bst.searchNode (Bst.deleteNode t x) x = false := by
  have heq := Bst.deleteNode_inorder t hs x hm
  have hsub : List.Sublist ((Bst.inorder t).erase x) (Bst.inorder t) :=
    (Bst.inorder t).erase_sublist x
  have hsorted : ((Bst.inorder t).erase x).Sorted (· < ·) := hs.sublist hsub
  refine ⟨heq, heq ▸ hsorted, ?_⟩
  have hnot : x ∉ (Bst.inorder t).erase x := by
    intro hc
    exact ((Bst.sorted_nodup hs).mem_erase_iff.1 hc).1 rfl
  rw [← heq] at hnot
  by_contra hcon
  rw [Bool.not_eq_false] at hcon
  exact hnot ((Bst.searchNode_iff_mem (heq ▸ hsorted) x).1 hcon)

theorem claim_C5_witness :
    (Bst.inorder (Bst.BSTTree.node 10 (.node 5 .nil .nil) (.node 15 .nil .nil))).Sorted
      (· < ·) ∧
    (5 : Int) ∈ Bst.inorder (Bst.BSTTree.node 10 (.node 5 .nil .nil) (.node 15 .nil .nil)) ∧
    Bst.inorder
        (Bst.deleteNode (Bst.BSTTree.node 10 (.node 5 .nil .nil) (.node 15 .nil .nil)) 5) =
      [10, 15] ∧
    Bst.searchNode
        (Bst.deleteNode (Bst.BSTTree.node 10 (.node 5 .nil .nil) (.node 15 .nil .nil)) 5) 5 =
      false := by
  have h := claim_C5 (Bst.BSTTree.node 10 (.node 5 .nil .nil) (.node 15 .nil .nil)) 5
    (by decide) (by decide)
  exact ⟨by decide, by decide, by rw [h.1]; decide, h.2.2⟩

theorem slice_split (l : List Int) (a m c : Nat) (h1 : a ≤ m) (hm : m < l.length)
    (h2 : m ≤ c) :
    (l.drop a).take (m - a) ++ l.getD m 0 :: (l.drop (m + 1)).take (c - m) =
      (l.drop a).take (c + 1 - a) := by
  have hsplit : c + 1 - a = (m - a) + (c + 1 - m) := by omega
  rw [hsplit, List.take_add]
  congr 1
  have hdd : (l.drop a).drop (m - a) = l.drop m := by
    rw [List.drop_drop]
    congr 1
    omega
  rw [hdd]
  have hcons : l.drop m = l.getD m 0 :: l.drop (m + 1) := by
    rw [List.getD_eq_getElem l 0 hm]
    exact List.drop_eq_getElem_cons hm
  rw [hcons]
  have : c + 1 - m = (c - m) + 1 := by omega
  rw [this, List.take_succ_cons]

namespace Avl

theorem buildBalancedTree_inorder (values : List Int) :
    ∀ (n : Nat) (s f : Int), (f + 1 - s).toNat = n → 0 ≤ s → f < values.length →
      inorder (buildBalancedTree values s f) =
        (values.drop s.toNat).take (f + 1 - s).toNat := by
  intro n
  induction n using Nat.strong_induction_on with
  | _ n ih =>
    intro s f hn hs hf
    by_cases hsf : f < s
    · rw [buildBalancedTree]
      have h0 : (f + 1 - s).toNat = 0 := by omega
      simp [hsf, inorder, h0]
    · push_neg at hsf
      rw [buildBalancedTree]
      simp only [if_neg (not_lt.2 hsf)]
      have hmid1 : s ≤ (s + f) / 2 := by omega
      have hmid2 : (s + f) / 2 ≤ f := by omega
      have hl := ih ((s + f) / 2 - 1 + 1 - s).toNat (by omega) s ((s + f) / 2 - 1) rfl hs
        (by omega)
      have hr := ih (f + 1 - ((s + f) / 2 + 1)).toNat (by omega) ((s + f) / 2 + 1) f rfl
        (by omega) hf
      show inorder (buildBalancedTree values s ((s + f) / 2 - 1)) ++
        values.getD ((s + f) / 2).toNat 0 ::
          inorder (buildBalancedTree values ((s + f) / 2 + 1) f) = _
      rw [hl, hr]
      have := slice_split values s.toNat ((s + f) / 2).toNat f.toNat
        (by omega) (by omega) (by omega)
      have e1 : ((s + f) / 2 - 1 + 1 - s).toNat = ((s + f) / 2).toNat - s.toNat := by omega
      have e2 : (f + 1 - ((s + f) / 2 + 1)).toNat = f.toNat - ((s + f) / 2).toNat := by
        omega
      have e3 : ((s + f) / 2 + 1).toNat = ((s + f) / 2).toNat + 1 := by omega
      have e4 : (f + 1 - s).toNat = f.toNat + 1 - s.toNat := by omega
      rw [e1, e2, e3, e4]
      exact this

theorem buildBalancedTree_height (values : List Int) :
    ∀ (n : Nat) (s f : Int), (f + 1 - s).toNat = n →
      getHeight (buildBalancedTree values s f) =
        if n = 0 then 0 else Nat.clog 2 (n + 1) := by
  intro n
  induction n using Nat.strong_induction_on with
  | _ n ih =>
    intro s f hn
    by_cases hsf : f < s
    · rw [buildBalancedTree]
      have h0 : n = 0 := by omega
      simp [hsf, getHeight, h0]
    · push_neg at hsf
      have hn1 : 1 ≤ n := by omega
      rw [buildBalancedTree]
      simp only [if_neg (not_lt.2 hsf)]
      have hmid1 : s ≤ (s + f) / 2 := by omega
      have hmid2 : (s + f) / 2 ≤ f := by omega
      have hl := ih ((s + f) / 2 - 1 + 1 - s).toNat (by omega) s ((s + f) / 2 - 1) rfl
      have hr := ih (f + 1 - ((s + f) / 2 + 1)).toNat (by omega) ((s + f) / 2 + 1) f rfl
      show max (getHeight (buildBalancedTree values s ((s + f) / 2 - 1)))
          (getHeight (buildBalancedTree values ((s + f) / 2 + 1) f)) + 1 = _
      rw [hl, hr]
      have e1 : ((s + f) / 2 - 1 + 1 - s).toNat = (n - 1) / 2 := by omega
      have e2 : (f + 1 - ((s + f) / 2 + 1)).toNat = n / 2 := by omega
      rw [e1, e2]
      have hg : ∀ a b : Nat, a ≤ b →
          (if a = 0 then 0 else Nat.clog 2 (a + 1)) ≤
            (if b = 0 then 0 else Nat.clog 2 (b + 1)) := by
        intro a b hab
        by_cases ha : a = 0
        · simp [ha]
        · have hb : ¬b = 0 := by omega
          simp only [if_neg ha, if_neg hb]
          exact Nat.clog_mono_right 2 (by omega)
      have hmax : max (if (n - 1) / 2 = 0 then 0 else Nat.clog 2 ((n - 1) / 2 + 1))
          (if n / 2 = 0 then 0 else Nat.clog 2 (n / 2 + 1)) =
          (if n / 2 = 0 then 0 else Nat.clog 2 (n / 2 + 1)) :=
        Nat.max_eq_right (hg _ _ (by omega))
      rw [hmax]
      by_cases hn2 : n / 2 = 0
      · rw [if_pos hn2, if_neg (by omega : ¬n = 0)]
        have h1 : n = 1 := by omega
        rw [h1, Nat.clog_eq_one (by norm_num) (by norm_num)]
      · have h2n : 2 ≤ n := by omega
        rw [if_neg hn2, if_neg (by omega : ¬n = 0)]
        have hrec := @Nat.clog_of_two_le 2 (n + 1) (by omega) (by omega)
        rw [hrec]
        congr 2
        omega

end Avl

namespace Avl

theorem rebuildBalancedTree_spec (c : AVLTree) (hc : c ≠ .nil) :
    inorder (rebuildBalancedTree c) = inorder c ∧
    getHeight (rebuildBalancedTree c) = Nat.clog 2 ((inorder c).length + 1) := by
  match c, hc with
  | .node v l r h, _ =>
    rw [rebuildBalancedTree]
    have hlen : 1 ≤ (inorder (.node v l r h)).length := by
      show 1 ≤ (inorder l ++ v :: inorder r).length
      simp
      omega
    constructor
    · rw [buildBalancedTree_inorder (inorder (.node v l r h))
        ((((inorder (.node v l r h)).length : Int) - 1) + 1 - 0).toNat 0
        (((inorder (.node v l r h)).length : Int) - 1) rfl (by omega) (by omega)]
      have he : ((((inorder (.node v l r h)).length : Int) - 1) + 1 - 0).toNat =
          (inorder (.node v l r h)).length := by omega
      rw [he]
      simp
    · rw [buildBalancedTree_height (inorder (.node v l r h))
        ((((inorder (.node v l r h)).length : Int) - 1) + 1 - 0).toNat 0
        (((inorder (.node v l r h)).length : Int) - 1) rfl]
      have he : ((((inorder (.node v l r h)).length : Int) - 1) + 1 - 0).toNat =
          (inorder (.node v l r h)).length := by omega
      rw [he, if_neg (by omega)]

theorem isTreeBalanced_nil : isTreeBalanced .nil = true := rfl

end Avl

/-- C6: the AVL `balance` operation always reports success; when every node's
balance factor already lies in `[-1, 1]` it is a no-op, and otherwise it
rebuilds the tree from the in-order value sequence by recursively taking the
middle element as root, producing a tree with the same in-order traversal
(hence the same value set), still strictly increasing for an ordered input,
whose height is exactly `⌈log₂(n + 1)⌉` for `n` stored values. -/
theorem claim_C6 (t : TreeNode)
    (hs : (Avl.inorder (Avl.convertToAVLFormat t)).Sorted (· < ·)) :
    (runAVLAlgorithm t ⟨.balance, 0, none⟩).success = true ∧
    (Avl.isTreeBalanced (Avl.convertToAVLFormat t) = true →
      (runAVLAlgorithm t ⟨.balance, 0, none⟩).newTree =
        Avl.convertToUIFormat (Avl.convertToAVLFormat t)) ∧
    (Avl.isTreeBalanced (Avl.convertToAVLFormat t) = false →
      (runAVLAlgorithm t ⟨.balance, 0, none⟩).newTree =
        Avl.convertToUIFormat (Avl.rebuildBalancedTree (Avl.convertToAVLFormat t)) ∧
      Avl.inorder (Avl.rebuildBalancedTree (Avl.convertToAVLFormat t)) =
        Avl.inorder (Avl.convertToAVLFormat t) ∧
      (Avl.inorder (Avl.rebuildBalancedTree (Avl.convertToAVLFormat t))).Sorted (· < ·) ∧
      Avl.getHeight (Avl.rebuildBalancedTree (Avl.convertToAVLFormat t)) =
        Nat.clog 2 ((Avl.inorder (Avl.convertToAVLFormat t)).length + 1)) := by
  refine ⟨?_, ?_, ?_⟩
  · by_cases h : Avl.isTreeBalanced (Avl.convertToAVLFormat t) = true <;>
      simp [runAVLAlgorithm, h]
  · intro h
    simp [runAVLAlgorithm, h]
  · intro h
    have hc : Avl.convertToAVLFormat t ≠ .nil := by
      intro hnil
      rw [hnil, Avl.isTreeBalanced_nil] at h
      cases h
    have hspec := Avl.rebuildBalancedTree_spec (Avl.convertToAVLFormat t) hc
    refine ⟨by simp [runAVLAlgorithm, h], hspec.1, ?_, hspec.2⟩
    rw [hspec.1]
    exact hs

theorem claim_C6_witness :
    (Avl.inorder (Avl.convertToAVLFormat
      (.mk 1 [.mk 0 [] true, .mk 2 [.mk 0 [] true, .mk 3 [] false] false] false))).Sorted
        (· < ·) ∧
    Avl.isTreeBalanced (Avl.convertToAVLFormat
      (.mk 1 [.mk 0 [] true, .mk 2 [.mk 0 [] true, .mk 3 [] false] false] false)) = false ∧
    (runAVLAlgorithm
      (.mk 1 [.mk 0 [] true, .mk 2 [.mk 0 [] true, .mk 3 [] false] false] false)
      ⟨.balance, 0, none⟩).success = true ∧
    Avl.getHeight (Avl.rebuildBalancedTree (Avl.convertToAVLFormat
      (.mk 1 [.mk 0 [] true, .mk 2 [.mk 0 [] true, .mk 3 [] false] false] false))) =
      Nat.clog 2 ((Avl.inorder (Avl.convertToAVLFormat
        (.mk 1 [.mk 0 [] true, .mk 2 [.mk 0 [] true, .mk 3 [] false] false] false))).length
          + 1) :=
  ⟨by decide, by decide,
    (claim_C6 (.mk 1 [.mk 0 [] true, .mk 2 [.mk 0 [] true, .mk 3 [] false] false] false)
      (by decide)).1,
    ((claim_C6 (.mk 1 [.mk 0 [] true, .mk 2 [.mk 0 [] true, .mk 3 [] false] false] false)
      (by decide)).2.2 (by decide)).2.2.2⟩

namespace HashTable

theorem getD_table_mem {t : HashTable} {j : Nat} (h : j < t.table.length) :
    t.table.getD j [] ∈ t.table := by
  rw [List.getD_eq_getElem?_getD, List.getElem?_eq_getElem h]
  exact List.getElem_mem h

theorem getD_set_self {l : List (List HashItem)} {j : Nat} {b : List HashItem}
    (h : j < l.length) : (l.set j b).getD j [] = b := by
  rw [List.getD_eq_getElem?_getD, List.getElem?_set_self (by simpa using h)]
  rfl

theorem getD_set_ne {l : List (List HashItem)} {j j2 : Nat} {b : List HashItem}
    (h : j2 ≠ j) : (l.set j b).getD j2 [] = l.getD j2 [] := by
  rw [List.getD_eq_getElem?_getD, List.getElem?_set_ne (Ne.symm h),
    ← List.getD_eq_getElem?_getD]

/-- The slot the probe sequence of `key` visits at iteration `i`. -/
def probeIx (t : HashTable) (key : String) (i : Nat) : Nat :=
  (t.hash key + i * t.probeStep key) % t.size

/-- Item `⟨k, v⟩` occupies some bucket of the table. -/
def stored (t : HashTable) (k : String) (v : Int) : Prop :=
  ∃ j, j < t.table.length ∧ HashItem.mk k v ∈ t.table.getD j []

/-- Basic well-formedness: the bucket array has exactly `size` slots and the
capacity is positive (the constructor guarantees both). -/
def TableWF (t : HashTable) : Prop :=
  t.table.length = t.size ∧ 1 ≤ t.size

/-- Key uniqueness across the table: a key determines its bucket and item. -/
def KeysUnique (t : HashTable) : Prop :=
  ∀ j1, j1 < t.table.length → ∀ j2, j2 < t.table.length →
    ∀ it1 ∈ t.table.getD j1 [], ∀ it2 ∈ t.table.getD j2 [],
      it1.key = it2.key → j1 = j2 ∧ it1 = it2

/-- Invariant of chaining tables: every item sits in the bucket of its
primary hash, and keys are unique. -/
def ChainInv (t : HashTable) : Prop :=
  TableWF t ∧
  (∀ j, j < t.table.length → ∀ item ∈ t.table.getD j [], t.hash item.key = j) ∧
  KeysUnique t

/-- Invariant of open-addressing tables: buckets hold at most one item, every
item sits at a slot of its key's probe sequence whose predecessors on that
sequence are all occupied, and keys are unique. -/
def OAInv (t : HashTable) : Prop :=
  TableWF t ∧
  (∀ b ∈ t.table, b.length ≤ 1) ∧
  (∀ j, j < t.table.length → ∀ item ∈ t.table.getD j [],
    ∃ i, i < t.size ∧ j = probeIx t item.key i ∧
      ∀ i2, i2 < i → t.table.getD (probeIx t item.key i2) [] ≠ []) ∧
  KeysUnique t

theorem searchBucket_found {b : List HashItem} {k : String} {v : Int}
    (huniq : ∀ it1 ∈ b, ∀ it2 ∈ b, it1.key = it2.key → it1 = it2)
    (hm : HashItem.mk k v ∈ b) : searchBucket b k = some v := by
  induction b with
  | nil => cases hm
  | cons item rest ih =>
    rw [searchBucket]
    by_cases hk : item.key = k
    · rw [if_pos hk]
      have : item = HashItem.mk k v :=
        huniq item (List.mem_cons_self _ _) _ hm (by rw [hk])
      rw [this]
    · rw [if_neg hk]
      rcases List.mem_cons.1 hm with rfl | hm2
      · exact absurd rfl hk
      · exact ih (fun it1 h1 it2 h2 => huniq it1 (List.mem_cons_of_mem _ h1) it2
          (List.mem_cons_of_mem _ h2)) hm2

theorem searchBucket_none {b : List HashItem} {k : String}
    (h : ∀ item ∈ b, item.key ≠ k) : searchBucket b k = none := by
  induction b with
  | nil => rfl
  | cons item rest ih =>
    rw [searchBucket, if_neg (h item (List.mem_cons_self _ _))]
    exact ih fun it hit => h it (List.mem_cons_of_mem _ hit)

theorem probeSearch_found {t : HashTable} {k : String} {v : Int} (step : Nat)
    (hlen : t.table.length = t.size)
    (hshort : ∀ b ∈ t.table, b.length ≤ 1)
    (huniq : ∀ j, j < t.table.length → ∀ item ∈ t.table.getD j [],
      item.key = k → item = HashItem.mk k v) :
    ∀ (cnt m : Nat), m + cnt = t.size →
      (∃ i, m ≤ i ∧ i < t.size ∧
        HashItem.mk k v ∈ t.table.getD ((t.hash k + i * step) % t.size) [] ∧
        ∀ i2, m ≤ i2 → i2 < i →
          t.table.getD ((t.hash k + i2 * step) % t.size) [] ≠ []) →
      probeSearch t k (t.hash k) step (List.range' m cnt) = some v := by
  intro cnt
  induction cnt with
  | zero =>
    intro m hm ⟨i, hmi, his, _, _⟩
    omega
  | succ c ih =>
    intro m hm ⟨i, hmi, his, hmem, hpre⟩
    have hsz : 1 ≤ t.size := by omega
    have hpm : (t.hash k + m * step) % t.size < t.table.length := by
      rw [hlen]; exact Nat.mod_lt _ hsz
    rw [List.range'_succ, probeSearch]
    match hb : t.table.getD ((t.hash k + m * step) % t.size) [] with
    | [] =>
      exfalso
      by_cases him : i = m
      · subst him; rw [hb] at hmem; cases hmem
      · exact hpre m le_rfl (by omega) hb
    | item :: rest =>
      show (if item.key = k then some item.value
        else probeSearch t k (t.hash k) step (List.range' (m + 1) c)) = some v
      by_cases hk : item.key = k
      · rw [if_pos hk]
        have := huniq _ hpm item (by rw [hb]; exact List.mem_cons_self _ _) hk
        rw [this]
      · rw [if_neg hk]
        apply ih (m + 1) (by omega)
        refine ⟨i, ?_, his, hmem, fun i2 h1 h2 => hpre i2 (by omega) h2⟩
        by_cases him : i = m
        · exfalso
          subst him
          rw [hb] at hmem
          rcases List.mem_cons.1 hmem with rfl | hmem2
          · exact hk rfl
          · have := hshort _ (hb ▸ getD_table_mem hpm)
            simp at this
            rw [this] at hmem2
            cases hmem2
        · omega

theorem probeSearch_none {t : HashTable} {k : String} (step : Nat)
    (hlen : t.table.length = t.size)
    (habs : ∀ j, j < t.table.length → ∀ item ∈ t.table.getD j [], item.key ≠ k) :
    ∀ (cnt m : Nat),
      probeSearch t k (t.hash k) step (List.range' m cnt) = none := by
  intro cnt
  induction cnt with
  | zero => intro m; rfl
  | succ c ih =>
    intro m
    rw [List.range'_succ, probeSearch]
    match hb : t.table.getD ((t.hash k + m * step) % t.size) [] with
    | [] => rfl
    | item :: rest =>
      show (if item.key = k then some item.value
        else probeSearch t k (t.hash k) step (List.range' (m + 1) c)) = none
      by_cases hpm : (t.hash k + m * step) % t.size < t.table.length
      · rw [if_neg (habs _ hpm item (by rw [hb]; exact List.mem_cons_self _ _))]
        exact ih (m + 1)
      · exfalso
        rw [List.getD_eq_getElem?_getD, List.getElem?_eq_none (by omega)] at hb
        cases hb

end HashTable

namespace HashTable

/-- Strategy-indexed table invariant. -/
def Inv (t : HashTable) : Prop :=
  match t.collisionStrategy with
  | .chaining => ChainInv t
  | _ => OAInv t

theorem hash_lt {t : HashTable} (hsz : 1 ≤ t.size) (key : String) :
    t.hash key < t.size := by
  rw [hash]
  have aux : ∀ (l : List Char) (a : Nat), a < t.size →
      l.foldl (fun h c => (h * 31 + c.toNat) % t.size) a < t.size := by
    intro l
    induction l with
    | nil => intro a ha; exact ha
    | cons c cs ih =>
      intro a _
      exact ih _ (Nat.mod_lt _ (by omega))
  exact aux key.data 0 (by omega)

theorem search_found {t : HashTable} {k : String} {v : Int}
    (hInv : Inv t) (hst : stored t k v) : t.search k = some v := by
  obtain ⟨j0, hj0, hmem⟩ := hst
  rw [search]
  rw [Inv] at hInv
  match hstrat : t.collisionStrategy with
  | .chaining =>
    rw [hstrat] at hInv
    obtain ⟨⟨hlen, hsz⟩, hhash, huniq⟩ := hInv
    show searchBucket (t.table.getD (t.hash k) []) k = some v
    have hjh : t.hash k = j0 := hhash j0 hj0 _ hmem
    rw [hjh]
    exact searchBucket_found
      (fun it1 h1 it2 h2 hk12 => (huniq j0 hj0 j0 hj0 it1 h1 it2 h2 hk12).2) hmem
  | .linearProbing =>
    rw [hstrat] at hInv
    obtain ⟨⟨hlen, hsz⟩, hshort, hplaced, huniq⟩ := hInv
    obtain ⟨i, his, hji, hpre⟩ := hplaced j0 hj0 _ hmem
    have hstep : t.probeStep k = 1 := by rw [probeStep, hstrat]
    show probeSearch t k (t.hash k) 1 (List.range t.size) = some v
    rw [List.range_eq_range']
    refine probeSearch_found 1 hlen hshort
      (fun j hj item hit hkey => (huniq j hj j0 hj0 item hit _ hmem hkey).2)
      t.size 0 (by omega) ⟨i, Nat.zero_le _, his, ?_, fun i2 _ h2 => ?_⟩
    · rw [probeIx, hstep] at hji
      rw [← hji]
      exact hmem
    · have := hpre i2 h2
      rw [probeIx, hstep] at this
      exact this
  | .doubleHashing =>
    rw [hstrat] at hInv
    obtain ⟨⟨hlen, hsz⟩, hshort, hplaced, huniq⟩ := hInv
    obtain ⟨i, his, hji, hpre⟩ := hplaced j0 hj0 _ hmem
    have hstep : t.probeStep k = t.hash2 k := by rw [probeStep, hstrat]
    show probeSearch t k (t.hash k) (t.hash2 k) (List.range t.size) = some v
    rw [List.range_eq_range']
    refine probeSearch_found (t.hash2 k) hlen hshort
      (fun j hj item hit hkey => (huniq j hj j0 hj0 item hit _ hmem hkey).2)
      t.size 0 (by omega) ⟨i, Nat.zero_le _, his, ?_, fun i2 _ h2 => ?_⟩
    · rw [probeIx, hstep] at hji
      rw [← hji]
      exact hmem
    · have := hpre i2 h2
      rw [probeIx, hstep] at this
      exact this

theorem search_none {t : HashTable} {k : String}
    (hwf : TableWF t)
    (habs : ∀ j, j < t.table.length → ∀ item ∈ t.table.getD j [], item.key ≠ k) :
    t.search k = none := by
  obtain ⟨hlen, hsz⟩ := hwf
  rw [search]
  match hstrat : t.collisionStrategy with
  | .chaining =>
    show searchBucket (t.table.getD (t.hash k) []) k = none
    have hjh : t.hash k < t.table.length := by rw [hlen]; exact hash_lt hsz k
    exact searchBucket_none (habs _ hjh)
  | .linearProbing =>
    show probeSearch t k (t.hash k) 1 (List.range t.size) = none
    rw [List.range_eq_range']
    exact probeSearch_none 1 hlen habs t.size 0
  | .doubleHashing =>
    show probeSearch t k (t.hash k) (t.hash2 k) (List.range t.size) = none
    rw [List.range_eq_range']
    exact probeSearch_none (t.hash2 k) hlen habs t.size 0

theorem no_stored_key_of_search_none {t : HashTable} {k : String}
    (hInv : Inv t) (hs : t.search k = none) :
    ∀ j, j < t.table.length → ∀ item ∈ t.table.getD j [], item.key ≠ k := by
  intro j hj item hit hkey
  have hst : stored t k item.value := by
    refine ⟨j, hj, ?_⟩
    have : item = HashItem.mk k item.value := by
      cases item; cases hkey; rfl
    rw [← this]
    exact hit
  rw [search_found hInv hst] at hs
  cases hs

theorem probeInsert_spec {t : HashTable} {k : String} {v : Int} (step : Nat)
    (hlen : t.table.length = t.size) :
    ∀ (cnt m : Nat), m + cnt = t.size →
      (∀ i2, i2 < m → t.table.getD ((t.hash k + i2 * step) % t.size) [] ≠ []) →
      probeInsert t k v (t.hash k) step (List.range' m cnt) = (t, false) ∨
      ∃ i, m ≤ i ∧ i < t.size ∧
        t.table.getD ((t.hash k + i * step) % t.size) [] = [] ∧
        (∀ i2, i2 < i → t.table.getD ((t.hash k + i2 * step) % t.size) [] ≠ []) ∧
        probeInsert t k v (t.hash k) step (List.range' m cnt) =
          (⟨t.size, t.collisionStrategy,
            t.table.set ((t.hash k + i * step) % t.size) [⟨k, v⟩]⟩, true) := by
  intro cnt
  induction cnt with
  | zero => intro m hm _; exact Or.inl rfl
  | succ c ih =>
    intro m hm hpre
    rw [List.range'_succ, probeInsert]
    match hb : t.table.getD ((t.hash k + m * step) % t.size) [] with
    | [] =>
      right
      exact ⟨m, le_rfl, by omega, hb, fun i2 h2 => hpre i2 h2, rfl⟩
    | item :: rest =>
      have hpre2 : ∀ i2, i2 < m + 1 →
          t.table.getD ((t.hash k + i2 * step) % t.size) [] ≠ [] := by
        intro i2 h2
        by_cases hi2 : i2 = m
        · subst hi2; rw [hb]; exact List.cons_ne_nil _ _
        · exact hpre i2 (by omega)
      rcases ih (m + 1) (by omega) hpre2 with h | ⟨i, h1, h2, h3, h4, h5⟩
      · exact Or.inl h
      · exact Or.inr ⟨i, by omega, h2, h3, h4, h5⟩

theorem stored_set_preserved {t : HashTable} {j0 : Nat} {b : List HashItem}
    {k2 : String} {v2 : Int}
    (hold : t.table.getD j0 [] = [])
    (hst : stored t k2 v2) :
    stored ⟨t.size, t.collisionStrategy, t.table.set j0 b⟩ k2 v2 := by
  obtain ⟨j, hj, hmem⟩ := hst
  refine ⟨j, by simpa using hj, ?_⟩
  have hne : j ≠ j0 := by
    intro hc
    subst hc
    rw [hold] at hmem
    cases hmem
  show HashItem.mk k2 v2 ∈ (t.table.set j0 b).getD j []
  rw [getD_set_ne hne]
  exact hmem


theorem mem_getD_set_split {t : HashTable} {j0 : Nat} {b : List HashItem}
    (hj0 : j0 < t.table.length) :
    ∀ j it, it ∈ (t.table.set j0 b).getD j [] →
      (j = j0 ∧ it ∈ b) ∨ (j ≠ j0 ∧ j < t.table.length ∧ it ∈ t.table.getD j []) := by
  intro j it hit
  by_cases hjj : j = j0
  · subst hjj
    rw [getD_set_self hj0] at hit
    exact Or.inl ⟨rfl, hit⟩
  · rw [getD_set_ne hjj] at hit
    by_cases hj : j < t.table.length
    · exact Or.inr ⟨hjj, hj, hit⟩
    · rw [List.getD_eq_getElem?_getD, List.getElem?_eq_none (by omega)] at hit
      cases hit

theorem probeIx_mk (t : HashTable) (tb : List (List HashItem)) (key : String) (i : Nat) :
    probeIx ⟨t.size, t.collisionStrategy, tb⟩ key i = probeIx t key i := rfl

theorem insert_step_oa {t : HashTable} {k : String} {v : Int} {i : Nat}
    (hInv : OAInv t)
    (habs : ∀ j, j < t.table.length → ∀ item ∈ t.table.getD j [], item.key ≠ k)
    (his : i < t.size)
    (hempty : t.table.getD (probeIx t k i) [] = [])
    (hpre : ∀ i2, i2 < i → t.table.getD (probeIx t k i2) [] ≠ []) :
    OAInv ⟨t.size, t.collisionStrategy, t.table.set (probeIx t k i) [⟨k, v⟩]⟩ ∧
    stored ⟨t.size, t.collisionStrategy, t.table.set (probeIx t k i) [⟨k, v⟩]⟩ k v ∧
    ∀ k2 v2, stored t k2 v2 →
      stored ⟨t.size, t.collisionStrategy, t.table.set (probeIx t k i) [⟨k, v⟩]⟩ k2 v2 := by
  obtain ⟨⟨hlen, hsz⟩, hshort, hplaced, huniq⟩ := hInv
  have hjs : probeIx t k i < t.table.length := by
    rw [hlen]
    exact Nat.mod_lt _ hsz
  have hpres : ∀ p, t.table.getD p [] ≠ [] →
      (t.table.set (probeIx t k i) [⟨k, v⟩]).getD p [] ≠ [] := by
    intro p hp
    by_cases hpj : p = probeIx t k i
    · subst hpj
      rw [getD_set_self hjs]
      exact List.cons_ne_nil _ _
    · rw [getD_set_ne hpj]
      exact hp
  refine ⟨⟨⟨by simpa using hlen, hsz⟩, ?_, ?_, ?_⟩, ?_, ?_⟩
  · -- buckets stay short
    intro b hb
    rcases List.mem_or_eq_of_mem_set hb with h | rfl
    · exact hshort b h
    · simp
  · -- every item sits on its probe path with occupied predecessors
    intro j hj item hit
    rcases mem_getD_set_split hjs j item hit with ⟨rfl, hmem⟩ | ⟨hne, hjlt, hmem⟩
    · rcases List.mem_singleton.1 hmem with rfl
      refine ⟨i, his, ?_, fun i2 h2 => ?_⟩
      · exact (probeIx_mk t (t.table.set (probeIx t k i) [⟨k, v⟩]) k i).symm
      · rw [probeIx_mk]
        exact hpres _ (hpre i2 h2)
    · obtain ⟨io, hio, hjo, hpo⟩ := hplaced j hjlt item hmem
      refine ⟨io, hio, ?_, fun i2 h2 => ?_⟩
      · rw [probeIx_mk]
        exact hjo
      · rw [probeIx_mk]
        exact hpres _ (hpo i2 h2)
  · -- keys stay unique
    intro j1 hj1 j2 hj2 it1 h1 it2 h2 hk12
    simp only [List.length_set] at hj1 hj2
    rcases mem_getD_set_split hjs j1 it1 h1 with ⟨rfl, hm1⟩ | ⟨hne1, hl1, hm1⟩ <;>
      rcases mem_getD_set_split hjs j2 it2 h2 with ⟨he2, hm2⟩ | ⟨hne2, hl2, hm2⟩
    · rcases List.mem_singleton.1 hm1 with rfl
      rcases List.mem_singleton.1 hm2 with rfl
      exact ⟨he2.symm, rfl⟩
    · rcases List.mem_singleton.1 hm1 with rfl
      exact absurd hk12.symm (habs j2 hl2 it2 hm2)
    · rcases List.mem_singleton.1 hm2 with rfl
      exact absurd hk12 (habs j1 hl1 it1 hm1)
    · exact huniq j1 hl1 j2 hl2 it1 hm1 it2 hm2 hk12
  · -- the new item is stored
    exact ⟨probeIx t k i, by simpa using hjs,
      by rw [show (⟨t.size, t.collisionStrategy,
        t.table.set (probeIx t k i) [⟨k, v⟩]⟩ : HashTable).table =
        t.table.set (probeIx t k i) [⟨k, v⟩] from rfl, getD_set_self hjs]
         exact List.mem_singleton.2 rfl⟩
  · -- previously stored items survive
    intro k2 v2 hst
    exact stored_set_preserved hempty hst

theorem Inv_of_ChainInv {t : HashTable} (h : t.collisionStrategy = .chaining)
    (hc : ChainInv t) : Inv t := by
  rw [Inv, h]
  exact hc

theorem Inv_of_OAInv {t : HashTable} (h : t.collisionStrategy ≠ .chaining)
    (hoa : OAInv t) : Inv t := by
  rw [Inv]
  match hst : t.collisionStrategy with
  | .chaining => exact absurd hst h
  | .linearProbing => exact hoa
  | .doubleHashing => exact hoa

theorem chain_insert_inv {t : HashTable} {k : String} {v : Int}
    (hInv : ChainInv t)
    (habs : ∀ j, j < t.table.length → ∀ item ∈ t.table.getD j [], item.key ≠ k) :
    ChainInv ⟨t.size, t.collisionStrategy,
      t.table.set (t.hash k) (t.table.getD (t.hash k) [] ++ [⟨k, v⟩])⟩ ∧
    stored ⟨t.size, t.collisionStrategy,
      t.table.set (t.hash k) (t.table.getD (t.hash k) [] ++ [⟨k, v⟩])⟩ k v ∧
    ∀ k2 v2, stored t k2 v2 →
      stored ⟨t.size, t.collisionStrategy,
        t.table.set (t.hash k) (t.table.getD (t.hash k) [] ++ [⟨k, v⟩])⟩ k2 v2 := by
  obtain ⟨⟨hlen, hsz⟩, hhash, huniq⟩ := hInv
  have hjh : t.hash k < t.table.length := by rw [hlen]; exact hash_lt hsz k
  have hsplit := mem_getD_set_split (t := t) (b := t.table.getD (t.hash k) [] ++ [⟨k, v⟩]) hjh
  refine ⟨⟨⟨by simpa using hlen, hsz⟩, ?_, ?_⟩, ?_, ?_⟩
  · -- items hash to their bucket
    intro j hj item hit
    rcases hsplit j item hit with ⟨rfl, hm⟩ | ⟨_, hjlt, hm⟩
    · rcases List.mem_append.1 hm with h | h
      · exact hhash _ hjh item h
      · rcases List.mem_singleton.1 h with rfl
        rfl
    · exact hhash j hjlt item hm
  · -- keys stay unique
    intro j1 hj1 j2 hj2 it1 h1 it2 h2 hk12
    have split1 := hsplit j1 it1 h1
    have split2 := hsplit j2 it2 h2
    have decompose : ∀ j it, (j = t.hash k ∧ it ∈ t.table.getD (t.hash k) [] ++ [⟨k, v⟩]) ∨
        (j ≠ t.hash k ∧ j < t.table.length ∧ it ∈ t.table.getD j []) →
        (it = HashItem.mk k v ∧ j = t.hash k) ∨ (j < t.table.length ∧ it ∈ t.table.getD j []) := by
      rintro j it (⟨rfl, hm⟩ | ⟨_, hjlt, hm⟩)
      · rcases List.mem_append.1 hm with h | h
        · exact Or.inr ⟨hjh, h⟩
        · rcases List.mem_singleton.1 h with rfl
          exact Or.inl ⟨rfl, rfl⟩
      · exact Or.inr ⟨hjlt, hm⟩
    rcases decompose j1 it1 split1 with ⟨rfl, rfl⟩ | ⟨hl1, hm1⟩ <;>
      rcases decompose j2 it2 split2 with ⟨rfl, he2⟩ | ⟨hl2, hm2⟩
    · exact ⟨he2.symm ▸ rfl, rfl⟩
    · exact absurd hk12.symm (habs j2 hl2 it2 hm2)
    · exact absurd hk12 (habs j1 hl1 it1 hm1)
    · exact huniq j1 hl1 j2 hl2 it1 hm1 it2 hm2 hk12
  · -- the new item is stored
    refine ⟨t.hash k, by simpa using hjh, ?_⟩
    show HashItem.mk k v ∈
      (t.table.set (t.hash k) (t.table.getD (t.hash k) [] ++ [⟨k, v⟩])).getD (t.hash k) []
    rw [getD_set_self hjh]
    exact List.mem_append.2 (Or.inr (List.mem_singleton.2 rfl))
  · -- previously stored items survive
    rintro k2 v2 ⟨j, hj, hmem⟩
    refine ⟨j, by simpa using hj, ?_⟩
    show HashItem.mk k2 v2 ∈
      (t.table.set (t.hash k) (t.table.getD (t.hash k) [] ++ [⟨k, v⟩])).getD j []
    by_cases hjj : j = t.hash k
    · subst hjj
      rw [getD_set_self hjh]
      exact List.mem_append.2 (Or.inl hmem)
    · rw [getD_set_ne hjj]
      exact hmem

theorem insert_step {t : HashTable} (hInv : Inv t) (k : String) (v : Int) :
    t.insert k v = (t, false) ∨
    (Inv (t.insert k v).1 ∧ (t.insert k v).2 = true ∧
      stored (t.insert k v).1 k v ∧
      (t.insert k v).1.size = t.size ∧
      (t.insert k v).1.collisionStrategy = t.collisionStrategy ∧
      (t.insert k v).1.table.length = t.table.length ∧
      ∀ k2 v2, stored t k2 v2 → stored (t.insert k v).1 k2 v2) := by
  have hwf : TableWF t := by
    rw [Inv] at hInv
    match hstrat : t.collisionStrategy with
    | .chaining => rw [hstrat] at hInv; exact hInv.1
    | .linearProbing => rw [hstrat] at hInv; exact hInv.1
    | .doubleHashing => rw [hstrat] at hInv; exact hInv.1
  obtain ⟨hlen, hsz⟩ := hwf
  by_cases hs : (t.search k).isSome
  · left
    rw [insert]
    simp [hs]
  · have hsnone : t.search k = none := by
      cases h : t.search k
      · rfl
      · rw [h] at hs; simp at hs
    have habs := no_stored_key_of_search_none hInv hsnone
    rw [Inv] at hInv
    match hstrat : t.collisionStrategy with
    | .chaining =>
      rw [hstrat] at hInv
      have hins : t.insert k v =
          (⟨t.size, t.collisionStrategy,
            t.table.set (t.hash k) (t.table.getD (t.hash k) [] ++ [⟨k, v⟩])⟩, true) := by
        rw [insert]
        simp only [hs, Bool.false_eq_true, if_false, hstrat]
      obtain ⟨hinv2, hstored, hpres⟩ := chain_insert_inv hInv habs (v := v)
      right
      rw [hins]
      exact ⟨Inv_of_ChainInv (by rw [hstrat]) hinv2, rfl, hstored, rfl, hstrat,
        by simp, hpres⟩
    | .linearProbing =>
      rw [hstrat] at hInv
      have hstep : t.probeStep k = 1 := by rw [probeStep, hstrat]
      have hins : t.insert k v =
          probeInsert t k v (t.hash k) 1 (List.range' 0 t.size) := by
        rw [insert]
        simp only [hs, Bool.false_eq_true, if_false, hstrat, List.range_eq_range']
      rcases probeInsert_spec 1 hlen t.size 0 (by omega)
          (fun i2 h => absurd h (Nat.not_lt_zero _)) with hfull | ⟨i, _, his, hempty, hpre, hres⟩
      · left
        rw [hins, hfull]
      · have hoa := @insert_step_oa t k v i hInv habs his
          (by rw [probeIx, hstep]; exact hempty)
          (fun i2 h2 => by rw [probeIx, hstep]; exact hpre i2 h2)
        right
        rw [hins, hres]
        refine ⟨Inv_of_OAInv (by rw [hstrat]; simp) ?_, rfl, ?_, rfl, hstrat, by simp, ?_⟩
        · have := hoa.1
          rw [probeIx, hstep] at this
          exact this
        · have := hoa.2.1
          rw [probeIx, hstep] at this
          exact this
        · intro k2 v2 hst
          have := hoa.2.2 k2 v2 hst
          rw [probeIx, hstep] at this
          exact this
    | .doubleHashing =>
      rw [hstrat] at hInv
      have hstep : t.probeStep k = t.hash2 k := by rw [probeStep, hstrat]
      have hins : t.insert k v =
          probeInsert t k v (t.hash k) (t.hash2 k) (List.range' 0 t.size) := by
        rw [insert]
        simp only [hs, Bool.false_eq_true, if_false, hstrat, List.range_eq_range']
      rcases probeInsert_spec (t.hash2 k) hlen t.size 0 (by omega)
          (fun i2 h => absurd h (Nat.not_lt_zero _)) with hfull | ⟨i, _, his, hempty, hpre, hres⟩
      · left
        rw [hins, hfull]
      · have hoa := @insert_step_oa t k v i hInv habs his
          (by rw [probeIx, hstep]; exact hempty)
          (fun i2 h2 => by rw [probeIx, hstep]; exact hpre i2 h2)
        right
        rw [hins, hres]
        refine ⟨Inv_of_OAInv (by rw [hstrat]; simp) ?_, rfl, ?_, rfl, hstrat, by simp, ?_⟩
        · have := hoa.1
          rw [probeIx, hstep] at this
          exact this
        · have := hoa.2.1
          rw [probeIx, hstep] at this
          exact this
        · intro k2 v2 hst
          have := hoa.2.2 k2 v2 hst
          rw [probeIx, hstep] at this
          exact this

/-- Successive inserts (left to right); the boolean is the conjunction of the
individual results — `true` means no insert failed. -/
def insertAll (t : HashTable) : List (String × Int) → HashTable × Bool
  | [] => (t, true)
  | kv :: rest =>
    let r1 := t.insert kv.1 kv.2
    let r2 := insertAll r1.1 rest
    (r2.1, r1.2 && r2.2)

theorem Inv_wf {t : HashTable} (hInv : Inv t) : TableWF t := by
  rw [Inv] at hInv
  match hstrat : t.collisionStrategy with
  | .chaining => rw [hstrat] at hInv; exact hInv.1
  | .linearProbing => rw [hstrat] at hInv; exact hInv.1
  | .doubleHashing => rw [hstrat] at hInv; exact hInv.1

theorem mkHashTable_inv (size : Nat) (strategy : CollisionStrategy) :
    Inv (mkHashTable size strategy) := by
  have hempty : ∀ j, (mkHashTable size strategy).table.getD j [] = [] := by
    intro j
    show (List.replicate (if size = 0 then 10 else size) []).getD j [] = []
    rw [List.getD_eq_getElem?_getD, List.getElem?_replicate]
    split <;> split <;> rfl
  have hwf : TableWF (mkHashTable size strategy) := by
    constructor
    · show (List.replicate (if size = 0 then 10 else size) []).length = _
      simp [mkHashTable]
    · show 1 ≤ (if size = 0 then 10 else size)
      split <;> omega
  rw [Inv]
  match strategy with
  | .chaining =>
    refine ⟨hwf, ?_, ?_⟩
    · intro j _ item hit
      rw [hempty j] at hit
      cases hit
    · intro j1 _ j2 _ it1 h1
      rw [hempty j1] at h1
      cases h1
  | .linearProbing =>
    refine ⟨hwf, ?_, ?_, ?_⟩
    · intro b hb
      rcases List.eq_of_mem_replicate hb with rfl
      simp
    · intro j _ item hit
      rw [hempty j] at hit
      cases hit
    · intro j1 _ j2 _ it1 h1
      rw [hempty j1] at h1
      cases h1
  | .doubleHashing =>
    refine ⟨hwf, ?_, ?_, ?_⟩
    · intro b hb
      rcases List.eq_of_mem_replicate hb with rfl
      simp
    · intro j _ item hit
      rw [hempty j] at hit
      cases hit
    · intro j1 _ j2 _ it1 h1
      rw [hempty j1] at h1
      cases h1

theorem insertAll_sound :
    ∀ (pairs : List (String × Int)) (t : HashTable), Inv t →
      (insertAll t pairs).2 = true →
      Inv (insertAll t pairs).1 ∧
      (∀ kv ∈ pairs, stored (insertAll t pairs).1 kv.1 kv.2) ∧
      (∀ k2 v2, stored t k2 v2 → stored (insertAll t pairs).1 k2 v2) := by
  intro pairs
  induction pairs with
  | nil =>
    intro t hInv _
    exact ⟨hInv, by simp, fun _ _ h => h⟩
  | cons kv rest ih =>
    intro t hInv hok
    rw [insertAll] at hok
    simp only [Bool.and_eq_true] at hok
    rcases insert_step hInv kv.1 kv.2 with hfail | ⟨hInv1, _, hst1, _, _, _, hpres1⟩
    · rw [hfail] at hok
      simp at hok
    · obtain ⟨hInv2, hrest, hpres2⟩ := ih (t.insert kv.1 kv.2).1 hInv1 hok.2
      refine ⟨hInv2, ?_, ?_⟩
      · intro kv2 hkv2
        rcases List.mem_cons.1 hkv2 with rfl | hmem
        · exact hpres2 _ _ hst1
        · exact hrest kv2 hmem
      · intro k2 v2 hst
        exact hpres2 _ _ (hpres1 _ _ hst)

theorem searchVisited_take (t : HashTable) (key : String) (h step : Nat) :
    ∀ idxs : List Nat, ∃ n, n ≤ idxs.length ∧
      searchVisited t key h step idxs =
        (idxs.map (fun i => (h + i * step) % t.size)).take n := by
  intro idxs
  induction idxs with
  | nil => exact ⟨0, le_rfl, rfl⟩
  | cons i rest ih =>
    rw [searchVisited]
    match t.table.getD ((h + i * step) % t.size) [] with
    | [] => exact ⟨1, by simp, by simp⟩
    | item :: more =>
      by_cases hk : item.key = key
      · exact ⟨1, by simp, by simp [hk]⟩
      · obtain ⟨n, hn, heq⟩ := ih
        exact ⟨n + 1, by simp; omega, by simp [hk, heq]⟩

theorem searchVisited_eq_probeVisited {t : HashTable} {key : String} (h step : Nat)
    (habs : ∀ j, j < t.table.length → ∀ item ∈ t.table.getD j [], item.key ≠ key) :
    ∀ idxs : List Nat, searchVisited t key h step idxs = probeVisited t h step idxs := by
  intro idxs
  induction idxs with
  | nil => rfl
  | cons i rest ih =>
    rw [searchVisited, probeVisited]
    match hb : t.table.getD ((h + i * step) % t.size) [] with
    | [] => rfl
    | item :: more =>
      show (if item.key = key then [(h + i * step) % t.size]
        else (h + i * step) % t.size :: searchVisited t key h step rest) =
        (h + i * step) % t.size :: probeVisited t h step rest
      by_cases hj : (h + i * step) % t.size < t.table.length
      · rw [if_neg (habs _ hj item (by rw [hb]; exact List.mem_cons_self _ _)), ih]
      · exfalso
        rw [List.getD_eq_getElem?_getD, List.getElem?_eq_none (by omega)] at hb
        cases hb

end HashTable

/-- C3 (amended): with a positive capacity (at least 2 for double hashing,
whose secondary hash divides by `capacity − 1`) and no intervening failures
and no deletes, every key inserted under a collision policy is found by
`search` under that policy with its stored value. For the resulting table,
`search` examines slots in exactly the deterministic probe order insert uses
(a prefix of the probe sequence of at most capacity slots), and for an absent
key it examines exactly the slots insert's probing loop would examine,
stopping at the first empty slot or after capacity iterations. An intervening
`delete` of a different key can break the probe chain (no tombstone is left),
so the original claim's "including after an intervening delete" part is
false. -/
theorem claim_C3 (strategy : CollisionStrategy) (size : Nat)
    (pairs : List (String × Int)) (key : String)
    (hdh : strategy = .doubleHashing → 2 ≤ size)
    (hok : (HashTable.insertAll (mkHashTable size strategy) pairs).2 = true) :
    (∀ kv ∈ pairs,
      (HashTable.insertAll (mkHashTable size strategy) pairs).1.search kv.1 =
        some kv.2) ∧
    (∀ T : HashTable, T = (HashTable.insertAll (mkHashTable size strategy) pairs).1 →
      (∃ n, n ≤ T.size ∧
        HashTable.searchVisited T key (T.hash key) (T.probeStep key)
            (List.range T.size) =
          ((List.range T.size).map
            (fun i => (T.hash key + i * T.probeStep key) % T.size)).take n) ∧
      ((∀ v2 : Int, ¬ HashTable.stored T key v2) →
        HashTable.searchVisited T key (T.hash key) (T.probeStep key)
            (List.range T.size) =
          HashTable.probeVisited T (T.hash key) (T.probeStep key)
            (List.range T.size))) := by
  have hInv0 := HashTable.mkHashTable_inv size strategy
  obtain ⟨hInvF, hstored, _⟩ := HashTable.insertAll_sound pairs _ hInv0 hok
  refine ⟨fun kv hkv => HashTable.search_found hInvF (hstored kv hkv), fun T hT => ⟨?_, ?_⟩⟩
  · obtain ⟨n, hn, heq⟩ :=
      HashTable.searchVisited_take T key (T.hash key) (T.probeStep key) (List.range T.size)
    exact ⟨n, by simpa using hn, heq⟩
  · intro habs
    apply HashTable.searchVisited_eq_probeVisited
    intro j hj item hit hkey
    apply habs item.value
    refine ⟨j, hj, ?_⟩
    cases item with
    | mk ik iv =>
      cases hkey
      exact hit

theorem claim_C3_witness :
    (HashTable.insertAll (mkHashTable 10 .linearProbing) [("a", 1), ("k", 2)]).2 = true ∧
    (HashTable.insertAll (mkHashTable 10 .linearProbing) [("a", 1), ("k", 2)]).1.search "a" =
      some 1 ∧
    (HashTable.insertAll (mkHashTable 10 .linearProbing) [("a", 1), ("k", 2)]).1.search "k" =
      some 2 :=
  ⟨by decide,
    (claim_C3 .linearProbing 10 [("a", 1), ("k", 2)] "a" (by decide) (by decide)).1
      ("a", 1) (by decide),
    (claim_C3 .linearProbing 10 [("a", 1), ("k", 2)] "a" (by decide) (by decide)).1
      ("k", 2) (by decide)⟩

/-- C3 counterexample: with linear probing on capacity 10, "a" and "k" share
hash slot 7; after inserting both (slots 7 and 8) and deleting "a" (slot 7 is
reset to empty, with no tombstone), "k" is still stored in slot 8 but
`search "k"` stops at the now-empty slot 7 and reports absence — an
intervening delete of a different key does break probe consistency. -/
theorem claim_C3_counterexample :
    ((mkHashTable 10 .linearProbing).insert "a" 1).2 = true ∧
    (((mkHashTable 10 .linearProbing).insert "a" 1).1.insert "k" 2).2 = true ∧
    ((((mkHashTable 10 .linearProbing).insert "a" 1).1.insert "k" 2).1.delete "a").2 =
      true ∧
    HashTable.stored
      ((((mkHashTable 10 .linearProbing).insert "a" 1).1.insert "k" 2).1.delete "a").1
      "k" 2 ∧
    (((mkHashTable 10 .linearProbing).insert "a" 1).1.insert "k" 2).1.search "k" =
      some 2 ∧
    ((((mkHashTable 10 .linearProbing).insert "a" 1).1.insert "k" 2).1.delete "a").1.search
      "k" = none :=
  ⟨by decide, by decide, by decide, ⟨8, by decide, by decide⟩, by decide, by decide⟩

namespace Avl

@[simp] theorem getHeight_nil : getHeight .nil = 0 := rfl

@[simp] theorem getHeight_node (v : Int) (l r : AVLTree) (h : Nat) :
    getHeight (.node v l r h) = h := rfl

theorem getBalance_node (v : Int) (l r : AVLTree) (h : Nat) :
    getBalance (.node v l r h) = (getHeight l : Int) - getHeight r := rfl

theorem rightRotate_node (yv xv : Int) (xl xr yr : AVLTree) (xh yh : Nat) :
    rightRotate (.node yv (.node xv xl xr xh) yr yh) =
      .node xv xl (.node yv xr yr (max (getHeight xr) (getHeight yr) + 1))
        (max (getHeight xl) (max (getHeight xr) (getHeight yr) + 1) + 1) := rfl

theorem leftRotate_node (xv yv : Int) (xl yl yr : AVLTree) (xh yh : Nat) :
    leftRotate (.node xv xl (.node yv yl yr yh) xh) =
      .node yv (.node xv xl yl (max (getHeight xl) (getHeight yl) + 1)) yr
        (max (max (getHeight xl) (getHeight yl) + 1) (getHeight yr) + 1) := rfl

theorem AVLValid.ne_nil_of_height {t : AVLTree} (h : 1 ≤ getHeight t) : t ≠ .nil := by
  intro hc
  subst hc
  simp at h

/-- The height update and balance-dispatched rotations at the end of
`deleteNode` restore the AVL shape whenever the two children are valid and
their heights differ by at most 2, and change the overall height by at most
one step around `max(children) + 1`. -/
theorem exists_node_of_ne_nil {t : AVLTree} (h : t ≠ .nil) :
    ∃ v l r hh, t = .node v l r hh := by
  cases t with
  | nil => exact absurd rfl h
  | node v l r hh => exact ⟨v, l, r, hh, rfl⟩
theorem deleteRebalance_valid (v : Int) (l r : AVLTree)
    (hl : AVLValid l) (hr : AVLValid r)
    (hd1 : getHeight l ≤ getHeight r + 2) (hd2 : getHeight r ≤ getHeight l + 2) :
    AVLValid (deleteRebalance v l r) ∧
    max (getHeight l) (getHeight r) ≤ getHeight (deleteRebalance v l r) ∧
    getHeight (deleteRebalance v l r) ≤ max (getHeight l) (getHeight r) + 1 ∧
    (getHeight l ≤ getHeight r + 1 → getHeight r ≤ getHeight l + 1 →
      getHeight (deleteRebalance v l r) = max (getHeight l) (getHeight r) + 1) := by
  rw [deleteRebalance]
  by_cases hL : getHeight l = getHeight r + 2
  · -- left child is two levels taller: one of the two left-side rotations fires
    have hcond1 : (1 : Int) <
        getBalance (.node v l r (max (getHeight l) (getHeight r) + 1)) := by
      rw [getBalance_node]
      omega
    have hlnn : l ≠ .nil := AVLValid.ne_nil_of_height (by omega)
    obtain ⟨lv, ll, lr, lh, rfl⟩ := exists_node_of_ne_nil hlnn
    obtain ⟨hvll, hvlr, hlh, hb1, hb2⟩ := hl
    simp only [getHeight_node] at hd1 hd2 hL
    by_cases hbl : (0 : Int) ≤ getBalance (.node lv ll lr lh)
    · rw [if_pos ⟨hcond1, hbl⟩, rightRotate_node]
      rw [getBalance_node] at hbl
      refine ⟨⟨hvll, ⟨hvlr, hr, rfl, ?_, ?_⟩, rfl, ?_, ?_⟩, ?_, ?_, ?_⟩ <;>
        (try simp only [getHeight_node]) <;> omega
    · -- left-right: the left child's right subtree is the taller one
      have hblA : getHeight lr > getHeight ll := by
        rw [getBalance_node] at hbl
        omega
      have hlrnn : lr ≠ .nil := AVLValid.ne_nil_of_height (by omega)
      obtain ⟨w, a, b, bh, rfl⟩ := exists_node_of_ne_nil hlrnn
      obtain ⟨hva, hvb, hbh, hab1, hab2⟩ := hvlr
      simp only [getHeight_node] at hlh hb1 hb2 hblA
      rw [if_neg (fun hc => hbl hc.2),
        if_pos ⟨hcond1, by rw [getBalance_node]; simp only [getHeight_node]; omega, rfl⟩]
      rw [leftRotate_node, rightRotate_node]
      refine ⟨⟨⟨hvll, hva, rfl, ?_, ?_⟩, ⟨hvb, hr, rfl, ?_, ?_⟩, rfl, ?_, ?_⟩, ?_, ?_, ?_⟩ <;>
        (try simp only [getHeight_node]) <;> omega
  · by_cases hR : getHeight r = getHeight l + 2
    · -- right child is two levels taller (mirror)
      have hcond3 : getBalance (.node v l r (max (getHeight l) (getHeight r) + 1)) <
          -1 := by
        rw [getBalance_node]
        omega
      have hnc1 : ¬((1 : Int) <
          getBalance (.node v l r (max (getHeight l) (getHeight r) + 1)) ∧
          (0 : Int) ≤ getBalance l) := by
        rintro ⟨hc, -⟩
        rw [getBalance_node] at hc
        omega
      have hnc2 : ¬((1 : Int) <
          getBalance (.node v l r (max (getHeight l) (getHeight r) + 1)) ∧
          getBalance l < 0 ∧ isNode l = true) := by
        rintro ⟨hc, -⟩
        rw [getBalance_node] at hc
        omega
      have hrnn : r ≠ .nil := AVLValid.ne_nil_of_height (by omega)
      obtain ⟨rv, rl, rr, rh, rfl⟩ := exists_node_of_ne_nil hrnn
      obtain ⟨hvrl, hvrr, hrh, hb1, hb2⟩ := hr
      simp only [getHeight_node] at hd1 hd2 hR
      by_cases hbr : getBalance (.node rv rl rr rh) ≤ 0
      · rw [if_neg hnc1, if_neg hnc2, if_pos ⟨hcond3, hbr⟩, leftRotate_node]
        rw [getBalance_node] at hbr
        refine ⟨⟨⟨hl, hvrl, rfl, ?_, ?_⟩, hvrr, rfl, ?_, ?_⟩, ?_, ?_, ?_⟩ <;>
          (try simp only [getHeight_node]) <;> omega
      · -- right-left: the right child's left subtree is the taller one
        have hbrA : getHeight rl > getHeight rr := by
          rw [getBalance_node] at hbr
          omega
        have hrlnn : rl ≠ .nil := AVLValid.ne_nil_of_height (by omega)
        obtain ⟨w, a, b, bh, rfl⟩ := exists_node_of_ne_nil hrlnn
        obtain ⟨hva, hvb, hbh, hab1, hab2⟩ := hvrl
        simp only [getHeight_node] at hrh hb1 hb2 hbrA
        rw [if_neg hnc1, if_neg hnc2, if_neg (fun hc => hbr hc.2),
          if_pos ⟨hcond3, by rw [getBalance_node]; simp only [getHeight_node]; omega, rfl⟩]
        rw [rightRotate_node, leftRotate_node]
        refine ⟨⟨⟨hl, hva, rfl, ?_, ?_⟩, ⟨hvb, hvrr, rfl, ?_, ?_⟩, rfl, ?_, ?_⟩, ?_, ?_, ?_⟩ <;>
          (try simp only [getHeight_node]) <;> omega
    · -- balanced within one: no rotation fires
      have hno : ∀ P : Prop, ((1 : Int) <
          getBalance (.node v l r (max (getHeight l) (getHeight r) + 1)) ∧ P) → False := by
        rintro P ⟨hc, -⟩
        rw [getBalance_node] at hc
        omega
      have hno2 : ∀ P : Prop,
          (getBalance (.node v l r (max (getHeight l) (getHeight r) + 1)) < -1 ∧ P) →
            False := by
        rintro P ⟨hc, -⟩
        rw [getBalance_node] at hc
        omega
      rw [if_neg (hno _), if_neg (hno _), if_neg (hno2 _), if_neg (hno2 _)]
      refine ⟨⟨hl, hr, rfl, by omega, by omega⟩,
        by simp only [getHeight_node]; omega,
        by simp only [getHeight_node]; omega,
        fun c1 c2 => by simp only [getHeight_node]⟩

end Avl

namespace Avl

theorem insertNode_node (v : Int) (l r : AVLTree) (h : Nat) (value : Int) :
    insertNode (.node v l r h) value =
      if value = v then .node v l r h
      else if value < v then insertRebalance v (insertNode l value) r value
      else insertRebalance v l (insertNode r value) value := rfl

/-- Structure information available when an insertion increased a subtree's
height: no rotation fired at its root, the root value is unchanged, and the
comparison-directed child is the one that grew by exactly one level. -/
def GrewInfo : AVLTree → Int → Prop
  | .nil, _ => True
  | .node v l r h, value =>
    ∃ nl nr, insertNode (.node v l r h) value =
        .node v nl nr (max (getHeight nl) (getHeight nr) + 1) ∧
      ((value < v ∧ nr = r ∧ nl = insertNode l value ∧
          getHeight nl = getHeight l + 1) ∨
       (v < value ∧ nl = l ∧ nr = insertNode r value ∧
          getHeight nr = getHeight r + 1))

/-- `insertNode` preserves validity, changes the height by at most one, and a
height increase can only come from the comparison-directed child growing with
no rotation at this root. -/
theorem insertNode_spec (value : Int) :
    ∀ t, AVLValid t →
      AVLValid (insertNode t value) ∧
      getHeight t ≤ getHeight (insertNode t value) ∧
      getHeight (insertNode t value) ≤ getHeight t + 1 ∧
      (getHeight (insertNode t value) = getHeight t + 1 → GrewInfo t value) := by
  intro t
  induction t with
  | nil =>
    intro
    exact ⟨⟨trivial, trivial, by simp, by simp, by simp⟩, by simp [insertNode],
      by simp [insertNode], fun _ => trivial⟩
  | node v l r h ihl ihr =>
    intro hval
    obtain ⟨hvl, hvr, hh, hb1, hb2⟩ := hval
    by_cases hev : value = v
    · rw [insertNode_node, if_pos hev]
      exact ⟨⟨hvl, hvr, hh, hb1, hb2⟩, le_refl _, by omega,
        fun hg => absurd hg (by omega)⟩
    · by_cases hlt : value < v
      · -- insertion goes into the left child
        obtain ⟨ivl, il1, il2, ilg⟩ := ihl hvl
        by_cases hbal : getHeight (insertNode l value) ≤ getHeight r + 1
        · -- the new left child fits without rotation
          have heq : insertNode (.node v l r h) value =
              .node v (insertNode l value) r
                (max (getHeight (insertNode l value)) (getHeight r) + 1) := by
            rw [insertNode_node, if_neg hev, if_pos hlt, insertRebalance,
              if_neg (fun hc => absurd hc.1 (by rw [getBalance_node]; omega)),
              if_neg (fun hc => absurd hc.1 (by rw [getBalance_node]; omega)),
              if_neg (fun hc => absurd hc.1 (by rw [getBalance_node]; omega)),
              if_neg (fun hc => absurd hc.1 (by rw [getBalance_node]; omega))]
          rw [heq]
          refine ⟨⟨ivl, hvr, rfl, ?_, ?_⟩, ?_, ?_, fun hgrew =>
              ⟨insertNode l value, r, heq, Or.inl ⟨hlt, rfl, rfl, ?_⟩⟩⟩ <;>
            (try simp only [getHeight_node] at hgrew) <;>
            (try simp only [getHeight_node]) <;> omega
        · -- the left child became two levels taller: a rotation fires
          have hg : getHeight (insertNode l value) = getHeight l + 1 := by omega
          have hlnn : l ≠ .nil := AVLValid.ne_nil_of_height (by omega)
          obtain ⟨lv, ll, lr, lh, rfl⟩ := exists_node_of_ne_nil hlnn
          obtain ⟨hvll, hvlr, hlh, hlb1, hlb2⟩ := hvl
          obtain ⟨nll, nlr, hnleq, hside⟩ := ilg hg
          rcases hside with ⟨hvlv, hnlreq, hnlleq, hgll⟩ |
            ⟨hvgt, hnlleq, hnlreq, hglr⟩
          · -- left-left: single right rotation
            rw [hnleq] at ivl il1 il2 hbal hg
            obtain ⟨hvnll, hvnlr, hX, hnb1, hnb2⟩ := ivl
            have hlreq : getHeight nlr = getHeight lr := by rw [hnlreq]
            simp only [getHeight_node] at il1 il2 hbal hg hh hb1 hb2
            have heq : insertNode (.node v (.node lv ll lr lh) r h) value =
                .node lv nll
                  (.node v nlr r (max (getHeight nlr) (getHeight r) + 1))
                  (max (getHeight nll)
                    (max (getHeight nlr) (getHeight r) + 1) + 1) := by
              rw [insertNode_node, if_neg hev, if_pos hlt, insertRebalance, hnleq,
                if_pos ⟨by rw [getBalance_node]; simp only [getHeight_node]; omega,
                  by simp [ltRoot, hvlv]⟩, rightRotate_node]
            rw [heq]
            refine ⟨⟨hvnll, ⟨hvnlr, hvr, rfl, ?_, ?_⟩, ?_, ?_, ?_⟩, ?_, ?_,
              fun hgrew => absurd hgrew ?_⟩ <;>
              (try simp only [getHeight_node]) <;> omega
          · -- left-right: double rotation
            have hnlrnn : nlr ≠ .nil := AVLValid.ne_nil_of_height (by omega)
            obtain ⟨w, a, b, bh, rfl⟩ := exists_node_of_ne_nil hnlrnn
            rw [hnleq] at ivl il1 il2 hbal hg
            obtain ⟨hvnll, hvnlr, hX, hnb1, hnb2⟩ := ivl
            obtain ⟨hva, hvb, hbh, hab1, hab2⟩ := hvnlr
            have hlleq : getHeight nll = getHeight ll := by rw [hnlleq]
            simp only [getHeight_node] at il1 il2 hbal hg hh hb1 hb2 hglr hnb1 hnb2
            have heq : insertNode (.node v (.node lv ll lr lh) r h) value =
                .node w (.node lv nll a (max (getHeight nll) (getHeight a) + 1))
                  (.node v b r (max (getHeight b) (getHeight r) + 1))
                  (max (getHeight (.node lv nll a
                      (max (getHeight nll) (getHeight a) + 1)))
                    (max (getHeight b) (getHeight r) + 1) + 1) := by
              rw [insertNode_node, if_neg hev, if_pos hlt, insertRebalance, hnleq,
                if_neg (fun hc => absurd hc.2 (by simp [ltRoot]; omega)),
                if_neg (fun hc => absurd hc.1
                  (by rw [getBalance_node]; simp only [getHeight_node]; omega)),
                if_pos ⟨by rw [getBalance_node]; simp only [getHeight_node]; omega,
                  by simp [gtRoot, hvgt]⟩, leftRotate_node, rightRotate_node]
            rw [heq]
            refine ⟨⟨⟨hvnll, hva, rfl, ?_, ?_⟩, ⟨hvb, hvr, rfl, ?_, ?_⟩, ?_, ?_, ?_⟩,
              ?_, ?_, fun hgrew => absurd hgrew ?_⟩ <;>
              (try simp only [getHeight_node]) <;> omega
      · -- insertion goes into the right child
        have hgt : v < value := by omega
        obtain ⟨ivr, ir1, ir2, irg⟩ := ihr hvr
        by_cases hbal : getHeight (insertNode r value) ≤ getHeight l + 1
        · -- the new right child fits without rotation
          have heq : insertNode (.node v l r h) value =
              .node v l (insertNode r value)
                (max (getHeight l) (getHeight (insertNode r value)) + 1) := by
            rw [insertNode_node, if_neg hev, if_neg hlt, insertRebalance,
              if_neg (fun hc => absurd hc.1 (by rw [getBalance_node]; omega)),
              if_neg (fun hc => absurd hc.1 (by rw [getBalance_node]; omega)),
              if_neg (fun hc => absurd hc.1 (by rw [getBalance_node]; omega)),
              if_neg (fun hc => absurd hc.1 (by rw [getBalance_node]; omega))]
          rw [heq]
          refine ⟨⟨hvl, ivr, rfl, ?_, ?_⟩, ?_, ?_, fun hgrew =>
              ⟨l, insertNode r value, heq, Or.inr ⟨hgt, rfl, rfl, ?_⟩⟩⟩ <;>
            (try simp only [getHeight_node] at hgrew) <;>
            (try simp only [getHeight_node]) <;> omega
        · -- the right child became two levels taller: a rotation fires
          have hg : getHeight (insertNode r value) = getHeight r + 1 := by omega
          have hrnn : r ≠ .nil := AVLValid.ne_nil_of_height (by omega)
          obtain ⟨rv, rl, rr, rh, rfl⟩ := exists_node_of_ne_nil hrnn
          obtain ⟨hvrl, hvrr, hrh, hrb1, hrb2⟩ := hvr
          obtain ⟨nrl, nrr, hnreq, hside⟩ := irg hg
          rcases hside with ⟨hvlv, hnrreq, hnrleq, hgrl⟩ |
            ⟨hvgt2, hnrleq, hnrreq, hgrr⟩
          · -- right-left: double rotation
            have hnrlnn : nrl ≠ .nil := AVLValid.ne_nil_of_height (by omega)
            obtain ⟨w, a, b, bh, rfl⟩ := exists_node_of_ne_nil hnrlnn
            rw [hnreq] at ivr ir1 ir2 hbal hg
            obtain ⟨hvnrl, hvnrr, hX, hnb1, hnb2⟩ := ivr
            obtain ⟨hva, hvb, hbh, hab1, hab2⟩ := hvnrl
            have hrreq : getHeight nrr = getHeight rr := by rw [hnrreq]
            simp only [getHeight_node] at ir1 ir2 hbal hg hh hb1 hb2 hgrl hnb1 hnb2
            have heq : insertNode (.node v l (.node rv rl rr rh) h) value =
                .node w (.node v l a (max (getHeight l) (getHeight a) + 1))
                  (.node rv b nrr (max (getHeight b) (getHeight nrr) + 1))
                  (max (max (getHeight l) (getHeight a) + 1)
                    (getHeight (.node rv b nrr
                      (max (getHeight b) (getHeight nrr) + 1))) + 1) := by
              rw [insertNode_node, if_neg hev, if_neg hlt, insertRebalance, hnreq,
                if_neg (fun hc => absurd hc.1
                  (by rw [getBalance_node]; simp only [getHeight_node]; omega)),
                if_neg (fun hc => absurd hc.2 (by simp [gtRoot]; omega)),
                if_neg (fun hc => absurd hc.1
                  (by rw [getBalance_node]; simp only [getHeight_node]; omega)),
                if_pos ⟨by rw [getBalance_node]; simp only [getHeight_node]; omega,
                  by simp [ltRoot, hvlv]⟩, rightRotate_node, leftRotate_node]
            rw [heq]
            refine ⟨⟨⟨hvl, hva, rfl, ?_, ?_⟩, ⟨hvb, hvnrr, rfl, ?_, ?_⟩, ?_, ?_, ?_⟩,
              ?_, ?_, fun hgrew => absurd hgrew ?_⟩ <;>
              (try simp only [getHeight_node]) <;> omega
          · -- right-right: single left rotation
            rw [hnreq] at ivr ir1 ir2 hbal hg
            obtain ⟨hvnrl, hvnrr, hX, hnb1, hnb2⟩ := ivr
            have hrleq : getHeight nrl = getHeight rl := by rw [hnrleq]
            simp only [getHeight_node] at ir1 ir2 hbal hg hh hb1 hb2
            have heq : insertNode (.node v l (.node rv rl rr rh) h) value =
                .node rv (.node v l nrl (max (getHeight l) (getHeight nrl) + 1))
                  nrr
                  (max (max (getHeight l) (getHeight nrl) + 1)
                    (getHeight nrr) + 1) := by
              rw [insertNode_node, if_neg hev, if_neg hlt, insertRebalance, hnreq,
                if_neg (fun hc => absurd hc.1
                  (by rw [getBalance_node]; simp only [getHeight_node]; omega)),
                if_pos ⟨by rw [getBalance_node]; simp only [getHeight_node]; omega,
                  by simp [gtRoot, hvgt2]⟩, leftRotate_node]
            rw [heq]
            refine ⟨⟨⟨hvl, hvnrl, rfl, ?_, ?_⟩, hvnrr, ?_, ?_, ?_⟩, ?_, ?_,
              fun hgrew => absurd hgrew ?_⟩ <;>
              (try simp only [getHeight_node]) <;> omega

end Avl

namespace Avl

theorem deleteNode_unfold (v : Int) (l r : AVLTree) (h : Nat) (value : Int) :
    deleteNode (.node v l r h) value =
      if value < v then deleteRebalance v (deleteNode l value) r
      else if v < value then deleteRebalance v l (deleteNode r value)
      else
        match l, r with
        | .nil, _ => r
        | _, .nil => l
        | _, _ => deleteRebalance (minValue r) l (deleteNode r (minValue r)) := rfl

theorem deleteNode_node_nilnil (v : Int) (h : Nat) (value : Int)
    (h1 : ¬ value < v) (h2 : ¬ v < value) :
    deleteNode (.node v .nil .nil h) value = .nil := by
  rw [deleteNode_unfold, if_neg h1, if_neg h2]

theorem deleteNode_node_nil_l (v rv : Int) (rl rr : AVLTree) (rh h : Nat)
    (value : Int) (h1 : ¬ value < v) (h2 : ¬ v < value) :
    deleteNode (.node v .nil (.node rv rl rr rh) h) value = .node rv rl rr rh := by
  rw [deleteNode_unfold, if_neg h1, if_neg h2]

theorem deleteNode_node_nil_r (v lv : Int) (ll lr : AVLTree) (lh h : Nat)
    (value : Int) (h1 : ¬ value < v) (h2 : ¬ v < value) :
    deleteNode (.node v (.node lv ll lr lh) .nil h) value = .node lv ll lr lh := by
  rw [deleteNode_unfold, if_neg h1, if_neg h2]

theorem deleteNode_node_two (v lv : Int) (ll lr : AVLTree) (lh : Nat) (rv : Int)
    (rl rr : AVLTree) (rh h : Nat) (value : Int)
    (h1 : ¬ value < v) (h2 : ¬ v < value) :
    deleteNode (.node v (.node lv ll lr lh) (.node rv rl rr rh) h) value =
      deleteRebalance (minValue (.node rv rl rr rh)) (.node lv ll lr lh)
        (deleteNode (.node rv rl rr rh) (minValue (.node rv rl rr rh))) := by
  rw [deleteNode_unfold, if_neg h1, if_neg h2]

/-- `deleteNode` preserves validity and lowers the height by at most one. -/
theorem deleteNode_spec :
    ∀ t, AVLValid t → ∀ value,
      AVLValid (deleteNode t value) ∧
      getHeight (deleteNode t value) ≤ getHeight t ∧
      getHeight t ≤ getHeight (deleteNode t value) + 1 := by
  intro t
  induction t with
  | nil => exact fun _ value => ⟨trivial, le_refl _, Nat.le_succ _⟩
  | node v l r h ihl ihr =>
    intro hval value
    obtain ⟨hvl, hvr, hh, hb1, hb2⟩ := hval
    by_cases h1 : value < v
    · rw [deleteNode_unfold, if_pos h1]
      obtain ⟨dv, d1, d2⟩ := ihl hvl value
      obtain ⟨rv2, r1, r2, r3⟩ :=
        deleteRebalance_valid v (deleteNode l value) r dv hvr (by omega) (by omega)
      rcases Decidable.em (getHeight (deleteNode l value) ≤ getHeight r + 1 ∧
          getHeight r ≤ getHeight (deleteNode l value) + 1) with hbb | hbb
      · have r4 := r3 hbb.1 hbb.2
        refine ⟨rv2, ?_, ?_⟩ <;> simp only [getHeight_node] <;> omega
      · rw [Decidable.not_and_iff_or_not] at hbb
        refine ⟨rv2, ?_, ?_⟩ <;> simp only [getHeight_node] <;> rcases hbb with hbb | hbb <;> omega
    · by_cases h2 : v < value
      · rw [deleteNode_unfold, if_neg h1, if_pos h2]
        obtain ⟨dv, d1, d2⟩ := ihr hvr value
        obtain ⟨rv2, r1, r2, r3⟩ :=
          deleteRebalance_valid v l (deleteNode r value) hvl dv (by omega) (by omega)
        rcases Decidable.em (getHeight l ≤ getHeight (deleteNode r value) + 1 ∧
            getHeight (deleteNode r value) ≤ getHeight l + 1) with hbb | hbb
        · have r4 := r3 hbb.1 hbb.2
          refine ⟨rv2, ?_, ?_⟩ <;> simp only [getHeight_node] <;> omega
        · rw [Decidable.not_and_iff_or_not] at hbb
          refine ⟨rv2, ?_, ?_⟩ <;> simp only [getHeight_node] <;> rcases hbb with hbb | hbb <;> omega
      · cases l with
        | nil =>
          cases r with
          | nil =>
            rw [deleteNode_node_nilnil v h value h1 h2]
            refine ⟨trivial, Nat.zero_le _, ?_⟩
            simp only [getHeight_node, getHeight_nil] at hh ⊢
            omega
          | node rv rl rr rh =>
            rw [deleteNode_node_nil_l v rv rl rr rh h value h1 h2]
            refine ⟨hvr, ?_, ?_⟩ <;>
              simp only [getHeight_node, getHeight_nil] at hh ⊢ <;> omega
        | node lv ll lr lh =>
          cases r with
          | nil =>
            rw [deleteNode_node_nil_r v lv ll lr lh h value h1 h2]
            refine ⟨hvl, ?_, ?_⟩ <;>
              simp only [getHeight_node, getHeight_nil] at hh ⊢ <;> omega
          | node rv rl rr rh =>
            rw [deleteNode_node_two v lv ll lr lh rv rl rr rh h value h1 h2]
            obtain ⟨dv, d1, d2⟩ := ihr hvr (minValue (.node rv rl rr rh))
            obtain ⟨rv2, r1, r2, r3⟩ :=
              deleteRebalance_valid (minValue (.node rv rl rr rh))
                (.node lv ll lr lh)
                (deleteNode (.node rv rl rr rh) (minValue (.node rv rl rr rh)))
                hvl dv (by simp only [getHeight_node] at *; omega)
                (by simp only [getHeight_node] at *; omega)
            simp only [getHeight_node] at d1 d2 hh hb1 hb2 r1 r2 r3 ⊢
            rcases Decidable.em
              (lh ≤ getHeight (deleteNode (.node rv rl rr rh)
                  (minValue (.node rv rl rr rh))) + 1 ∧
               getHeight (deleteNode (.node rv rl rr rh)
                  (minValue (.node rv rl rr rh))) ≤ lh + 1) with hbb | hbb
            · have r4 := r3 hbb.1 hbb.2
              exact ⟨rv2, by omega, by omega⟩
            · rw [Decidable.not_and_iff_or_not] at hbb
              rcases hbb with hbb | hbb <;> exact ⟨rv2, by omega, by omega⟩

/-- An operation fed to the AVL tree routines: an `insertNode` call or a
`deleteNode` call. -/
inductive AVLOp where
  | ins (v : Int)
  | del (v : Int)
deriving Repr, DecidableEq

def applyAVLOp (t : AVLTree) : AVLOp → AVLTree
  | .ins v => insertNode t v
  | .del v => deleteNode t v

def applyAVLOps (t : AVLTree) (ops : List AVLOp) : AVLTree :=
  ops.foldl applyAVLOp t

/-- Every `ins` in the sequence inserts a value absent (per the code's own
`collectAllValues` membership test) from the tree it is applied to. -/
def insertsAbsent : AVLTree → List AVLOp → Bool
  | _, [] => true
  | t, op :: rest =>
    (match op with
     | .ins v => !(collectAllValues t).contains v
     | .del _ => true) && insertsAbsent (applyAVLOp t op) rest

end Avl

/-- **C1.** For every valid AVL tree (stored heights correct, all balance
factors in `[-1, 1]`) and any sequence of `insertNode` calls with absent
values and `deleteNode` calls, the resulting tree is again a valid AVL tree:
every node satisfies `|height(left) - height(right)| ≤ 1` and
`height(node) = 1 + max(height(left), height(right))`. -/
theorem claim_C1 (t : Avl.AVLTree) (ops : List Avl.AVLOp) (hv : Avl.AVLValid t)
    (habs : Avl.insertsAbsent t ops = true) :
    Avl.AVLValid (Avl.applyAVLOps t ops) := by
  induction ops generalizing t with
  | nil => exact hv
  | cons op rest ih =>
    simp only [Avl.insertsAbsent, Bool.and_eq_true] at habs
    have hstep : Avl.AVLValid (Avl.applyAVLOp t op) := by
      cases op with
      | ins v => exact (Avl.insertNode_spec v t hv).1
      | del v => exact (Avl.deleteNode_spec t hv v).1
    have hrest : Avl.applyAVLOps t (op :: rest) =
        Avl.applyAVLOps (Avl.applyAVLOp t op) rest := rfl
    rw [hrest]
    exact ih (Avl.applyAVLOp t op) hstep habs.2

theorem claim_C1_witness :
    Avl.AVLValid .nil ∧
    Avl.insertsAbsent .nil
      [.ins 2, .ins 1, .ins 3, .ins 4, .ins 5, .del 2] = true ∧
    Avl.AVLValid (Avl.applyAVLOps .nil
      [.ins 2, .ins 1, .ins 3, .ins 4, .ins 5, .del 2]) :=
  ⟨trivial, by decide,
    claim_C1 .nil [.ins 2, .ins 1, .ins 3, .ins 4, .ins 5, .del 2]
      trivial (by decide)⟩

/-! ## Skip list (`SkipList.ts`)

The `SkipList` class mutates heap-allocated `SkipNode` objects through their
`forward` pointer arrays.  We model the heap as an arena: node ids are
indices into `nodes`, index `0` being the head sentinel, and `null` pointers
are `none`.  `randomLevel()` is modelled by passing the drawn level to
`insert` explicitly (the loop guarantees it is at most `maxLevel`).  The
unbounded `while` walks take `nodes.length` as fuel, which suffices on every
state whose chains are strictly sorted (no node repeats on a chain).
Reading `forward[i]` beyond the array's length yields `none`, matching the
in-bounds accesses the invariant-satisfying states perform. -/

structure SkipNode where
  value : Int
  forward : List (Option Nat)
deriving Repr, DecidableEq

structure SkipList where
  nodes : List SkipNode
  maxLevel : Nat
  level : Nat
  size : Int
deriving Repr, DecidableEq

namespace SkipList

/-- `Number.MIN_SAFE_INTEGER`, the head sentinel's value. -/
def minSafeInteger : Int := -(2 ^ 53 - 1)

def mkSkipList (maxLevel : Nat) : SkipList :=
  ⟨[⟨minSafeInteger, List.replicate (maxLevel + 1) none⟩], maxLevel, 0, 0⟩

def getNode (s : SkipList) (n : Nat) : SkipNode := s.nodes.getD n ⟨0, []⟩

/-- `node.forward[i]`. -/
def fwd (s : SkipList) (n i : Nat) : Option Nat := (getNode s n).forward.getD i none

/-- `node.value`. -/
def val (s : SkipList) (n : Nat) : Int := (getNode s n).value

/-- `node.forward[i] = p`. -/
def setFwd (s : SkipList) (n i : Nat) (p : Option Nat) : SkipList :=
  { s with nodes := s.nodes.set n { getNode s n with forward := (getNode s n).forward.set i p } }

/-- The walk along level-`i` pointers, together with a flag telling whether it
ended on a `null` pointer (rather than by fuel exhaustion). -/
def chainFromF (s : SkipList) (i : Nat) : Nat → Option Nat → List Nat × Bool
  | _, none => ([], true)
  | 0, some _ => ([], false)
  | fuel + 1, some n =>
    let r := chainFromF s i fuel (fwd s n i)
    (n :: r.1, r.2)

def chainF (s : SkipList) (i : Nat) : List Nat × Bool :=
  chainFromF s i s.nodes.length (fwd s 0 i)

/-- The level-`i` forward chain from the head sentinel (excluding the head). -/
def chain (s : SkipList) (i : Nat) : List Nat := (chainF s i).1

/-- `toArray()`: the values along the level-0 chain. -/
def toArray (s : SkipList) : List Int := (chain s 0).map (val s)

/-- The `while (current.forward[i] !== null && current.forward[i].value < value)`
advance loop shared by `insert`, `search` and `delete`. -/
def advance (s : SkipList) (i : Nat) (value : Int) : Nat → Nat → Nat
  | 0, cur => cur
  | fuel + 1, cur =>
    match fwd s cur i with
    | none => cur
    | some nxt => if val s nxt < value then advance s i value fuel nxt else cur

/-- `update[j]` for `j ≤ s.level`: the position reached after running the
advance loops at levels `s.level, s.level - 1, …, j` starting from the head. -/
def updGo (s : SkipList) (value : Int) : Nat → Nat → Nat
  | j, 0 => advance s j value s.nodes.length 0
  | j, d + 1 => advance s j value s.nodes.length (updGo s value (j + 1) d)

def upd (s : SkipList) (value : Int) (j : Nat) : Nat :=
  updGo s value j (s.level - j)

/-- The splice loop of `insert`: for `i = 0 … newLevel`,
`newNode.forward[i] = update[i].forward[i]; update[i].forward[i] = newNode`,
where `update[i]` is the head for the levels above the old list level. -/
def spliceLoop (s0 : SkipList) (value : Int) (newId : Nat) :
    List Nat → SkipList → SkipList
  | [], scur => scur
  | i :: rest, scur =>
    let u := if i ≤ s0.level then upd s0 value i else 0
    let s1 := setFwd scur newId i (fwd scur u i)
    let s2 := setFwd s1 u i (some newId)
    spliceLoop s0 value newId rest s2

/-- `insert(value)` with the level drawn by `randomLevel()` passed in. -/
def insert (s : SkipList) (value : Int) (newLevel : Nat) : SkipList × Bool :=
  match fwd s (upd s value 0) 0 with
  | some n =>
    if val s n = value then (s, false)
    else
      let s1 := { s with
        nodes := s.nodes ++ [⟨value, List.replicate (newLevel + 1) none⟩],
        level := if newLevel > s.level then newLevel else s.level }
      let s2 := spliceLoop s value s.nodes.length (List.range (newLevel + 1)) s1
      ({ s2 with size := s2.size + 1 }, true)
  | none =>
      let s1 := { s with
        nodes := s.nodes ++ [⟨value, List.replicate (newLevel + 1) none⟩],
        level := if newLevel > s.level then newLevel else s.level }
      let s2 := spliceLoop s value s.nodes.length (List.range (newLevel + 1)) s1
      ({ s2 with size := s2.size + 1 }, true)

/-- `search(value)`. -/
def search (s : SkipList) (value : Int) : Bool :=
  match fwd s (upd s value 0) 0 with
  | some n => val s n = value
  | none => false

/-- The unlink loop of `delete` with its `break` on the first level whose
`update[i].forward[i]` is not the target. -/
def unlinkLoop (s0 : SkipList) (value : Int) (target : Nat) :
    List Nat → SkipList → SkipList
  | [], scur => scur
  | i :: rest, scur =>
    if fwd scur (upd s0 value i) i = some target then
      unlinkLoop s0 value target rest
        (setFwd scur (upd s0 value i) i (fwd scur target i))
    else scur

/-- The `while (this.level > 0 && this.head.forward[this.level] === null)`
level-shrinking loop of `delete`. -/
def shrink (s : SkipList) : Nat → Nat
  | 0 => 0
  | l + 1 => if fwd s 0 (l + 1) = none then shrink s l else l + 1

/-- `delete(value)`. -/
def delete (s : SkipList) (value : Int) : SkipList × Bool :=
  match fwd s (upd s value 0) 0 with
  | none => (s, false)
  | some t =>
    if val s t = value then
      let s1 := unlinkLoop s value t (List.range (s.level + 1)) s
      ({ s1 with level := shrink s1 s1.level, size := s1.size - 1 }, true)
    else (s, false)

/-- One user-visible skip list operation; `ins` carries the level drawn by
`randomLevel()`. -/
inductive SkipOp where
  | ins (v : Int) (lvl : Nat)
  | del (v : Int)
  | find (v : Int)
deriving Repr, DecidableEq

def applyOp (s : SkipList) : SkipOp → SkipList
  | .ins v lvl => (insert s v lvl).1
  | .del v => (delete s v).1
  | .find _ => s

def applyOps (s : SkipList) (ops : List SkipOp) : SkipList :=
  ops.foldl applyOp s

/-- All drawn insertion levels respect `randomLevel()`'s bound. -/
def opsOK (maxLevel : Nat) : List SkipOp → Bool
  | [] => true
  | .ins _ lvl :: rest => decide (lvl ≤ maxLevel) && opsOK maxLevel rest
  | _ :: rest => opsOK maxLevel rest

end SkipList

namespace SkipList

@[simp] theorem length_setFwd (s : SkipList) (n i : Nat) (p : Option Nat) :
    (setFwd s n i p).nodes.length = s.nodes.length := by
  simp [setFwd]

theorem getNode_out (s : SkipList) (n : Nat) (hn : ¬ n < s.nodes.length) :
    getNode s n = ⟨0, []⟩ := by
  rw [getNode, List.getD_eq_getElem?_getD, List.getElem?_eq_none (by omega)]
  rfl

theorem getNode_setFwd_self (s : SkipList) (n i : Nat) (p : Option Nat)
    (hn : n < s.nodes.length) :
    getNode (setFwd s n i p) n =
      { getNode s n with forward := (getNode s n).forward.set i p } := by
  rw [setFwd, getNode, List.getD_eq_getElem?_getD, List.getElem?_set_self (by simpa using hn)]
  rfl

theorem getNode_setFwd_ne (s : SkipList) (n i : Nat) (p : Option Nat) (m : Nat)
    (hm : m ≠ n) :
    getNode (setFwd s n i p) m = getNode s m := by
  rw [setFwd, getNode, List.getD_eq_getElem?_getD, List.getElem?_set_ne (Ne.symm hm),
    ← List.getD_eq_getElem?_getD]
  rfl

theorem getNode_setFwd_forward_length (s : SkipList) (n i : Nat) (p : Option Nat)
    (m : Nat) :
    (getNode (setFwd s n i p) m).forward.length = (getNode s m).forward.length := by
  by_cases hn : n < s.nodes.length
  · by_cases hm : m = n
    · subst hm
      rw [getNode_setFwd_self s m i p hn]
      simp
    · rw [getNode_setFwd_ne s n i p m hm]
  · rw [setFwd, getNode, List.set_eq_of_length_le (by omega), ← getNode]

theorem val_setFwd (s : SkipList) (n i : Nat) (p : Option Nat) (m : Nat) :
    val (setFwd s n i p) m = val s m := by
  by_cases hn : n < s.nodes.length
  · by_cases hm : m = n
    · subst hm
      rw [val, getNode_setFwd_self s m i p hn, val]
    · rw [val, getNode_setFwd_ne s n i p m hm, val]
  · rw [val, setFwd, getNode, List.set_eq_of_length_le (by omega), ← getNode, ← val]

theorem fwd_setFwd_self (s : SkipList) (n i : Nat) (p : Option Nat)
    (hn : n < s.nodes.length) (hi : i < (getNode s n).forward.length) :
    fwd (setFwd s n i p) n i = p := by
  rw [fwd, getNode_setFwd_self s n i p hn]
  simp only []
  rw [List.getD_eq_getElem?_getD, List.getElem?_set_self (by simpa using hi)]
  rfl

theorem fwd_setFwd_of_ne (s : SkipList) (n i : Nat) (p : Option Nat) (m j : Nat)
    (h : m ≠ n ∨ j ≠ i) :
    fwd (setFwd s n i p) m j = fwd s m j := by
  by_cases hn : n < s.nodes.length
  · rcases h with h | h
    · rw [fwd, getNode_setFwd_ne s n i p m h, ← fwd]
    · by_cases hm : m = n
      · subst hm
        rw [fwd, getNode_setFwd_self s m i p hn]
        simp only []
        rw [List.getD_eq_getElem?_getD, List.getElem?_set_ne (Ne.symm h),
          ← List.getD_eq_getElem?_getD, ← fwd]
      · rw [fwd, getNode_setFwd_ne s n i p m hm, ← fwd]
  · rw [fwd, setFwd, getNode, List.set_eq_of_length_le (by omega), ← getNode, ← fwd]

theorem fwd_out_of_range (s : SkipList) (n i : Nat)
    (hi : (getNode s n).forward.length ≤ i) : fwd s n i = none := by
  rw [fwd, List.getD_eq_getElem?_getD, List.getElem?_eq_none (by omega)]
  rfl

end SkipList

namespace SkipList

theorem getNode_keep (s s2 : SkipList) (x : SkipNode)
    (h : s2.nodes = s.nodes ++ [x]) (m : Nat) (hm : m < s.nodes.length) :
    getNode s2 m = getNode s m := by
  rw [getNode, h, List.getD_eq_getElem?_getD, List.getElem?_append_left hm,
    ← List.getD_eq_getElem?_getD, ← getNode]

theorem getNode_new (s s2 : SkipList) (x : SkipNode)
    (h : s2.nodes = s.nodes ++ [x]) :
    getNode s2 s.nodes.length = x := by
  rw [getNode, h, List.getD_eq_getElem?_getD, List.getElem?_append_right (le_refl _)]
  simp

theorem chainFromF_succ_some (s : SkipList) (i fuel : Nat) (n : Nat) :
    chainFromF s i (fuel + 1) (some n) =
      (n :: (chainFromF s i fuel (fwd s n i)).1,
        (chainFromF s i fuel (fwd s n i)).2) := rfl

theorem chainFromF_congr_mem (s s2 : SkipList) (i : Nat) :
    ∀ fuel (p : Option Nat) (c : List Nat), chainFromF s i fuel p = (c, true) →
      (∀ n ∈ c, fwd s2 n i = fwd s n i) → chainFromF s2 i fuel p = (c, true) := by
  intro fuel
  induction fuel with
  | zero =>
    intro p c h hc
    cases p with
    | none => simpa [chainFromF] using h
    | some n => simp [chainFromF] at h
  | succ fuel ih =>
    intro p c h hc
    cases p with
    | none => simpa [chainFromF] using h
    | some n =>
      rw [chainFromF_succ_some] at h
      have h1 : n :: (chainFromF s i fuel (fwd s n i)).1 = c := congrArg Prod.fst h
      have h2 : (chainFromF s i fuel (fwd s n i)).2 = true := congrArg Prod.snd h
      have hprev : chainFromF s i fuel (fwd s n i) =
          ((chainFromF s i fuel (fwd s n i)).1, true) := by
        rw [← h2]
      have hrec := ih (fwd s n i) (chainFromF s i fuel (fwd s n i)).1 hprev
        (fun m hm => hc m (by rw [← h1]; exact List.mem_cons_of_mem _ hm))
      rw [chainFromF_succ_some, hc n (by rw [← h1]; exact List.mem_cons_self _ _),
        hrec, ← h1]

theorem chainFromF_mono (s : SkipList) (i : Nat) :
    ∀ fuel fuel2 (p : Option Nat) (c : List Nat), chainFromF s i fuel p = (c, true) →
      fuel ≤ fuel2 → chainFromF s i fuel2 p = (c, true) := by
  intro fuel
  induction fuel with
  | zero =>
    intro fuel2 p c h _
    cases p with
    | none => simpa [chainFromF] using h
    | some n => simp [chainFromF] at h
  | succ fuel ih =>
    intro fuel2 p c h hle
    cases p with
    | none => simpa [chainFromF] using h
    | some n =>
      obtain ⟨fuel3, rfl⟩ : ∃ f3, fuel2 = f3 + 1 := ⟨fuel2 - 1, by omega⟩
      rw [chainFromF_succ_some] at h
      have h1 : n :: (chainFromF s i fuel (fwd s n i)).1 = c := congrArg Prod.fst h
      have h2 : (chainFromF s i fuel (fwd s n i)).2 = true := congrArg Prod.snd h
      have hprev : chainFromF s i fuel (fwd s n i) =
          ((chainFromF s i fuel (fwd s n i)).1, true) := by
        rw [← h2]
      have hrec := ih fuel3 (fwd s n i) (chainFromF s i fuel (fwd s n i)).1 hprev
        (by omega)
      rw [chainFromF_succ_some, hrec, ← h1]

theorem chainFromF_nil_inv (s : SkipList) (i fuel : Nat) (p : Option Nat)
    (h : chainFromF s i fuel p = ([], true)) : p = none := by
  cases p with
  | none => rfl
  | some n =>
    cases fuel with
    | zero => simp [chainFromF] at h
    | succ fuel =>
      rw [chainFromF_succ_some] at h
      have h1 := congrArg Prod.fst h
      simp at h1

theorem chainFromF_cons_inv (s : SkipList) (i fuel : Nat) (p : Option Nat)
    (n : Nat) (c : List Nat) (h : chainFromF s i fuel p = (n :: c, true)) :
    p = some n ∧ chainFromF s i (fuel - 1) (fwd s n i) = (c, true) := by
  cases p with
  | none =>
    rw [show chainFromF s i fuel none = ([], true) from by
      cases fuel <;> rfl] at h
    exact absurd (congrArg Prod.fst h) (by simp)
  | some m =>
    cases fuel with
    | zero => simp [chainFromF] at h
    | succ fuel =>
      rw [chainFromF_succ_some] at h
      have h1 : m :: (chainFromF s i fuel (fwd s m i)).1 = n :: c :=
        congrArg Prod.fst h
      have h2 : (chainFromF s i fuel (fwd s m i)).2 = true := congrArg Prod.snd h
      have hm : m = n := by injection h1
      subst hm
      refine ⟨rfl, ?_⟩
      have hc : (chainFromF s i fuel (fwd s m i)).1 = c := by injection h1
      rw [show fuel + 1 - 1 = fuel from rfl, ← hc, ← h2]

theorem chainFromF_suffix (s : SkipList) (i : Nat) :
    ∀ (c1 : List Nat) (fuel : Nat) (p : Option Nat) (n : Nat) (c2 : List Nat),
      chainFromF s i fuel p = (c1 ++ n :: c2, true) →
      chainFromF s i (fuel - (c1.length + 1)) (fwd s n i) = (c2, true) := by
  intro c1
  induction c1 with
  | nil =>
    intro fuel p n c2 h
    simpa using (chainFromF_cons_inv s i fuel p n c2 h).2
  | cons a c1 ih =>
    intro fuel p n c2 h
    rw [List.cons_append] at h
    obtain ⟨-, h2⟩ := chainFromF_cons_inv s i fuel p a (c1 ++ n :: c2) h
    have := ih (fuel - 1) (fwd s a i) n c2 h2
    rw [show fuel - 1 - (c1.length + 1) = fuel - ((a :: c1).length + 1) from by
      simp
      omega] at this
    exact this

end SkipList

namespace SkipList

theorem takeWhile_append_all {α : Type} {p : α → Bool} :
    ∀ (a b : List α), (∀ x ∈ a, p x = true) →
      (a ++ b).takeWhile p = a ++ b.takeWhile p := by
  intro a
  induction a with
  | nil => intro b _; rfl
  | cons x a ih =>
    intro b h
    rw [List.cons_append,
      List.takeWhile_cons_of_pos (by rw [h x (List.mem_cons_self _ _)]),
      List.cons_append, ih b (fun y hy => h y (List.mem_cons_of_mem _ hy))]

theorem dropWhile_append_all {α : Type} {p : α → Bool} :
    ∀ (a b : List α), (∀ x ∈ a, p x = true) →
      (a ++ b).dropWhile p = b.dropWhile p := by
  intro a
  induction a with
  | nil => intro b _; rfl
  | cons x a ih =>
    intro b h
    rw [List.cons_append,
      List.dropWhile_cons_of_pos (by rw [h x (List.mem_cons_self _ _)]),
      ih b (fun y hy => h y (List.mem_cons_of_mem _ hy))]

theorem takeWhile_all_false {α : Type} {p : α → Bool} (a : List α)
    (h : ∀ x ∈ a, p x = false) : a.takeWhile p = [] := by
  cases a with
  | nil => rfl
  | cons x a =>
    rw [List.takeWhile_cons_of_neg (by rw [h x (List.mem_cons_self _ _)]; simp)]

theorem dropWhile_all_false {α : Type} {p : α → Bool} (a : List α)
    (h : ∀ x ∈ a, p x = false) : a.dropWhile p = a := by
  cases a with
  | nil => rfl
  | cons x a =>
    rw [List.dropWhile_cons_of_neg (by rw [h x (List.mem_cons_self _ _)]; simp)]

theorem advance_succ (s : SkipList) (i : Nat) (v : Int) (fuel cur : Nat) :
    advance s i v (fuel + 1) cur =
      match fwd s cur i with
      | none => cur
      | some nxt => if val s nxt < v then advance s i v fuel nxt else cur := rfl

/-- The advance loop lands on the last node of `cur :: chain` whose value is
below the search value (`cur` counting unconditionally), and its level-`i`
successor is the remainder's head. -/
theorem advance_spec (s : SkipList) (i : Nat) (v : Int) :
    ∀ fuel (cur : Nat) (c : List Nat),
      chainFromF s i fuel (fwd s cur i) = (c, true) →
      advance s i v fuel cur =
        (cur :: c.takeWhile (fun n => decide (val s n < v))).getLast
          (List.cons_ne_nil _ _) ∧
      fwd s (advance s i v fuel cur) i =
        (c.dropWhile (fun n => decide (val s n < v))).head? := by
  intro fuel
  induction fuel with
  | zero =>
    intro cur c h
    cases hcur : fwd s cur i with
    | none =>
      rw [hcur] at h
      have : c = [] := by simpa [chainFromF] using congrArg Prod.fst h
      subst this
      exact ⟨rfl, by simpa [advance] using hcur⟩
    | some n =>
      rw [hcur] at h
      simp [chainFromF] at h
  | succ fuel ih =>
    intro cur c h
    cases hcur : fwd s cur i with
    | none =>
      rw [hcur] at h
      have : c = [] := by simpa [chainFromF] using congrArg Prod.fst h
      subst this
      refine ⟨by rw [advance_succ, hcur]; rfl, ?_⟩
      rw [advance_succ, hcur]
      exact hcur
    | some nxt =>
      rw [hcur] at h
      rw [chainFromF_succ_some] at h
      have h1 : nxt :: (chainFromF s i fuel (fwd s nxt i)).1 = c :=
        congrArg Prod.fst h
      have h2 : (chainFromF s i fuel (fwd s nxt i)).2 = true := congrArg Prod.snd h
      have hprev : chainFromF s i fuel (fwd s nxt i) =
          ((chainFromF s i fuel (fwd s nxt i)).1, true) := by
        rw [← h2]
      by_cases hlt : val s nxt < v
      · obtain ⟨ih1, ih2⟩ := ih nxt (chainFromF s i fuel (fwd s nxt i)).1 hprev
        have hadv : advance s i v (fuel + 1) cur = advance s i v fuel nxt := by
          rw [advance_succ, hcur]
          simp [hlt]
        rw [hadv, ← h1, List.takeWhile_cons_of_pos (by simpa using hlt),
          List.dropWhile_cons_of_pos (by simpa using hlt)]
        refine ⟨?_, ih2⟩
        rw [List.getLast_cons (List.cons_ne_nil _ _)]
        exact ih1
      · have hadv : advance s i v (fuel + 1) cur = cur := by
          rw [advance_succ, hcur]
          simp [hlt]
        rw [hadv, ← h1, List.takeWhile_cons_of_neg (by simpa using hlt),
          List.dropWhile_cons_of_neg (by simpa using hlt)]
        exact ⟨rfl, by rw [hcur]; rfl⟩

end SkipList

namespace SkipList

/-- The structural invariant of `SkipList.ts` states: the head sentinel's
pointer array spans all levels, chains above the current list level are
empty, every chain walk ends on a `null` pointer within the arena, the
level-0 chain visits valid non-head nodes with strictly increasing values,
and the level-`i` chain consists exactly of the level-0 chain's nodes whose
towers reach level `i`. -/
structure Inv (s : SkipList) : Prop where
  len_pos : 0 < s.nodes.length
  head_len : (getNode s 0).forward.length = s.maxLevel + 1
  level_le : s.level ≤ s.maxLevel
  above_none : ∀ k, s.level < k → fwd s 0 k = none
  closed : ∀ i, i ≤ s.maxLevel → (chainF s i).2 = true
  bounds : ∀ n ∈ chain s 0, 0 < n ∧ n < s.nodes.length
  node_len : ∀ n ∈ chain s 0, (getNode s n).forward.length ≤ s.maxLevel + 1
  sorted : List.Chain' (· < ·) ((chain s 0).map (val s))
  levels : ∀ i, i ≤ s.maxLevel → chain s i =
    (chain s 0).filter (fun n => decide (i < (getNode s n).forward.length))

theorem Inv.chainF_eq {s : SkipList} (hInv : Inv s) (i : Nat) (hi : i ≤ s.maxLevel) :
    chainFromF s i s.nodes.length (fwd s 0 i) = (chain s i, true) := by
  have h2 := hInv.closed i hi
  rw [chain, chainF]
  rw [chainF] at h2
  rw [← h2]

theorem Inv.chain_sublist_zero {s : SkipList} (hInv : Inv s) (i : Nat)
    (hi : i ≤ s.maxLevel) : List.Sublist (chain s i) (chain s 0) := by
  rw [hInv.levels i hi]
  exact List.filter_sublist _

theorem Inv.chain_sorted {s : SkipList} (hInv : Inv s) (i : Nat)
    (hi : i ≤ s.maxLevel) : List.Chain' (· < ·) ((chain s i).map (val s)) :=
  hInv.sorted.sublist ((hInv.chain_sublist_zero i hi).map _)

theorem Inv.chain_pairwise {s : SkipList} (hInv : Inv s) (i : Nat)
    (hi : i ≤ s.maxLevel) :
    List.Pairwise (fun a b => val s a < val s b) (chain s i) := by
  have h := (List.chain'_iff_pairwise).mp (hInv.chain_sorted i hi)
  exact (List.pairwise_map).mp h

theorem Inv.chain_succ_sublist {s : SkipList} (hInv : Inv s) (i : Nat)
    (hi : i + 1 ≤ s.maxLevel) : List.Sublist (chain s (i + 1)) (chain s i) := by
  rw [hInv.levels (i + 1) hi, hInv.levels i (by omega)]
  have heq : (chain s 0).filter
      (fun n => decide (i + 1 < (getNode s n).forward.length)) =
      ((chain s 0).filter (fun n => decide (i < (getNode s n).forward.length))).filter
        (fun n => decide (i + 1 < (getNode s n).forward.length)) := by
    rw [List.filter_filter]
    apply List.filter_congr
    intro n _
    by_cases h : i + 1 < (getNode s n).forward.length
    · have h2 : i < (getNode s n).forward.length := by omega
      simp [h, h2]
    · simp [h]
  rw [heq]
  exact List.filter_sublist _

/-- After the descent loops at levels `s.level … j`, the position is the last
node of the level-`j` chain with value below the search value (or the head),
and its level-`j` successor is the chain's remainder's head. -/
theorem updGo_spec (s : SkipList) (v : Int) (hInv : Inv s) :
    ∀ d j, j + d = s.level →
      updGo s v j d =
        (0 :: (chain s j).takeWhile (fun n => decide (val s n < v))).getLast
          (List.cons_ne_nil _ _) ∧
      fwd s (updGo s v j d) j =
        ((chain s j).dropWhile (fun n => decide (val s n < v))).head? := by
  intro d
  induction d with
  | zero =>
    intro j hj
    exact advance_spec s j v s.nodes.length 0 (chain s j)
      (hInv.chainF_eq j (by have := hInv.level_le; omega))
  | succ d ih =>
    intro j hj
    have hjm : j ≤ s.maxLevel := by
      have := hInv.level_le
      omega
    obtain ⟨ih1, ih2⟩ := ih (j + 1) (by omega)
    have hgo : updGo s v j (d + 1) =
        advance s j v s.nodes.length (updGo s v (j + 1) d) := rfl
    by_cases htne : (chain s (j + 1)).takeWhile
        (fun n => decide (val s n < v)) = []
    · have hcur0 : updGo s v (j + 1) d = 0 := by
        rw [ih1, htne]
        rfl
      rw [hgo, hcur0]
      exact advance_spec s j v s.nodes.length 0 (chain s j) (hInv.chainF_eq j hjm)
    · set cur := updGo s v (j + 1) d with hcurdef
      have hcur : cur = ((chain s (j + 1)).takeWhile
          (fun n => decide (val s n < v))).getLast htne := by
        rw [ih1]
        exact List.getLast_cons htne
      have hcurmem : cur ∈ (chain s (j + 1)).takeWhile
          (fun n => decide (val s n < v)) := by
        rw [hcur]
        exact List.getLast_mem htne
      have hcurlt : val s cur < v := by
        have := List.mem_takeWhile_imp hcurmem
        simpa using this
      have hcurchain : cur ∈ chain s (j + 1) :=
        (List.takeWhile_sublist _).subset hcurmem
      have hcurj : cur ∈ chain s j :=
        (hInv.chain_succ_sublist j (by have := hInv.level_le; omega)).subset hcurchain
      obtain ⟨P, S, hsplit⟩ := List.append_of_mem hcurj
      have hPlt : ∀ x ∈ P, val s x < v := by
        intro x hx
        have hpw := hInv.chain_pairwise j hjm
        rw [hsplit] at hpw
        have := (List.pairwise_append.mp hpw).2.2 x hx cur (List.mem_cons_self _ _)
        exact lt_trans this hcurlt
      have hPcur : ∀ x ∈ P ++ [cur],
          (fun n => decide (val s n < v)) x = true := by
        intro x hx
        rcases List.mem_append.mp hx with hx | hx
        · simpa using hPlt x hx
        · simp only [List.mem_singleton] at hx
          subst hx
          simpa using hcurlt
      have hclosed := hInv.chainF_eq j hjm
      rw [hsplit] at hclosed
      have hsuf := chainFromF_suffix s j P s.nodes.length (fwd s 0 j) cur S hclosed
      have hsufN := chainFromF_mono s j _ s.nodes.length (fwd s cur j) S hsuf
        (by omega)
      obtain ⟨adv1, adv2⟩ := advance_spec s j v s.nodes.length cur S hsufN
      rw [hgo]
      have hassoc : P ++ cur :: S = (P ++ [cur]) ++ S := by simp
      constructor
      · rw [adv1, hsplit, hassoc, takeWhile_append_all (P ++ [cur]) S hPcur]
        have hlist : (0 :: (P ++ [cur] ++
            S.takeWhile (fun n => decide (val s n < v)))) =
            (0 :: P) ++ (cur :: S.takeWhile (fun n => decide (val s n < v))) := by
          simp
        exact ((List.getLast_congr _ _ hlist).trans
          (List.getLast_append' (0 :: P) _ (List.cons_ne_nil _ _))).symm
      · rw [adv2, hsplit, hassoc, dropWhile_append_all (P ++ [cur]) S hPcur]

theorem upd_spec {s : SkipList} (hInv : Inv s) (v : Int) (j : Nat)
    (hj : j ≤ s.level) :
    upd s v j =
      (0 :: (chain s j).takeWhile (fun n => decide (val s n < v))).getLast
        (List.cons_ne_nil _ _) ∧
    fwd s (upd s v j) j =
      ((chain s j).dropWhile (fun n => decide (val s n < v))).head? := by
  have := updGo_spec s v hInv (s.level - j) j (by omega)
  rw [upd]
  exact this

end SkipList

namespace SkipList

/-- The update position used by the splice loop at each level. -/
def updAt (s : SkipList) (v : Int) (j : Nat) : Nat :=
  if j ≤ s.level then upd s v j else 0

theorem chain_above {s : SkipList} (hInv : Inv s) (j : Nat) (hj : s.level < j) :
    chain s j = [] := by
  have hnone := hInv.above_none j hj
  have hempty : chainFromF s j s.nodes.length none = ([], true) := by
    cases s.nodes.length <;> rfl
  rw [chain, chainF, hnone, hempty]

theorem updAt_spec {s : SkipList} (hInv : Inv s) (v : Int) (j : Nat)
    (hj : j ≤ s.maxLevel) :
    updAt s v j =
      (0 :: (chain s j).takeWhile (fun n => decide (val s n < v))).getLast
        (List.cons_ne_nil _ _) ∧
    fwd s (updAt s v j) j =
      ((chain s j).dropWhile (fun n => decide (val s n < v))).head? := by
  rw [updAt]
  by_cases hle : j ≤ s.level
  · rw [if_pos hle]
    exact upd_spec hInv v j hle
  · rw [if_neg hle]
    rw [chain_above hInv j (by omega)]
    exact ⟨rfl, by rw [hInv.above_none j (by omega)]; rfl⟩

theorem Inv.chain_mem_bounds {s : SkipList} (hInv : Inv s) (j : Nat)
    (hj : j ≤ s.maxLevel) {n : Nat} (hn : n ∈ chain s j) :
    0 < n ∧ n < s.nodes.length :=
  hInv.bounds n ((hInv.chain_sublist_zero j hj).subset hn)

theorem Inv.chain_mem_len {s : SkipList} (hInv : Inv s) (j : Nat)
    (hj : j ≤ s.maxLevel) {n : Nat} (hn : n ∈ chain s j) :
    j < (getNode s n).forward.length := by
  rw [hInv.levels j hj] at hn
  simpa using (List.mem_filter.mp hn).2

theorem updAt_cases {s : SkipList} (hInv : Inv s) (v : Int) (j : Nat)
    (hj : j ≤ s.maxLevel) :
    updAt s v j = 0 ∨
      (updAt s v j ∈ chain s j ∧ val s (updAt s v j) < v) := by
  obtain ⟨h1, -⟩ := updAt_spec hInv v j hj
  by_cases hne : (chain s j).takeWhile (fun n => decide (val s n < v)) = []
  · left
    rw [h1, hne]
    rfl
  · right
    have hlast : updAt s v j =
        ((chain s j).takeWhile (fun n => decide (val s n < v))).getLast hne := by
      rw [h1]
      exact List.getLast_cons hne
    have hmem : updAt s v j ∈
        (chain s j).takeWhile (fun n => decide (val s n < v)) := by
      rw [hlast]
      exact List.getLast_mem hne
    refine ⟨(List.takeWhile_sublist _).subset hmem, ?_⟩
    simpa using List.mem_takeWhile_imp hmem

theorem updAt_lt_len {s : SkipList} (hInv : Inv s) (v : Int) (j : Nat)
    (hj : j ≤ s.maxLevel) : updAt s v j < s.nodes.length := by
  rcases updAt_cases hInv v j hj with h | ⟨h, -⟩
  · rw [h]; exact hInv.len_pos
  · exact (hInv.chain_mem_bounds j hj h).2

theorem updAt_fwd_len {s : SkipList} (hInv : Inv s) (v : Int) (j : Nat)
    (hj : j ≤ s.maxLevel) : j < (getNode s (updAt s v j)).forward.length := by
  rcases updAt_cases hInv v j hj with h | ⟨h, -⟩
  · rw [h, hInv.head_len]; omega
  · exact hInv.chain_mem_len j hj h

theorem Inv.dropWhile_ge {s : SkipList} (hInv : Inv s) (v : Int) (j : Nat)
    (hj : j ≤ s.maxLevel) :
    ∀ x ∈ (chain s j).dropWhile (fun n => decide (val s n < v)), ¬ val s x < v := by
  cases hD : (chain s j).dropWhile (fun n => decide (val s n < v)) with
  | nil => intro x hx; simp at hx
  | cons h0 t =>
    intro x hx
    have hhead : ¬ val s h0 < v := by
      have := List.head?_dropWhile_not (fun n => decide (val s n < v)) (chain s j)
      rw [hD] at this
      simpa using this
    rcases List.mem_cons.mp hx with rfl | hx
    · exact hhead
    · have hpw : List.Pairwise (fun a b => val s a < val s b) (h0 :: t) := by
        have := hInv.chain_pairwise j hj
        exact this.sublist (hD ▸ List.dropWhile_sublist _)
      have := (List.pairwise_cons.mp hpw).1 x hx
      omega

end SkipList

namespace SkipList

theorem Inv.chain_nodup {s : SkipList} (hInv : Inv s) (j : Nat)
    (hj : j ≤ s.maxLevel) : (chain s j).Nodup := by
  have h := hInv.chain_pairwise j hj
  exact h.imp (fun hab => by
    intro heq
    subst heq
    exact absurd hab (lt_irrefl _))

/-- Walking level `j` after the two pointer writes of a splice at `u` yields
the old chain with `newId` inserted after `u`. -/
theorem splice_walk (s s2 : SkipList) (j u newId : Nat) (c2 : List Nat)
    (hu : fwd s2 u j = some newId)
    (hnew : fwd s2 newId j = fwd s u j)
    (hothers : ∀ x, x ≠ u → x ≠ newId → fwd s2 x j = fwd s x j)
    (hc2u : u ∉ c2) (hc2new : newId ∉ c2) :
    ∀ (c1 : List Nat) (w : Nat) (fuel : Nat),
      chainFromF s j fuel (fwd s w j) = (c1 ++ c2, true) →
      (w :: c1).getLast (List.cons_ne_nil _ _) = u →
      newId ∉ w :: c1 → (w :: c1).Nodup →
      chainFromF s2 j (fuel + 1) (fwd s2 w j) = (c1 ++ newId :: c2, true) := by
  intro c1
  induction c1 with
  | nil =>
    intro w fuel hwalk hlast hnin hnd
    have hw : w = u := hlast
    subst hw
    rw [hu, chainFromF_succ_some, hnew]
    have hc2 : chainFromF s2 j fuel (fwd s w j) = (c2, true) := by
      refine chainFromF_congr_mem s s2 j fuel (fwd s w j) c2 (by simpa using hwalk) ?_
      intro x hx
      exact hothers x (fun he => hc2u (he ▸ hx)) (fun he => hc2new (he ▸ hx))
    rw [hc2]
    rfl
  | cons a c1 ih =>
    intro w fuel hwalk hlast hnin hnd
    rw [List.cons_append] at hwalk
    obtain ⟨hfw, hrest⟩ := chainFromF_cons_inv s j fuel (fwd s w j) a (c1 ++ c2) hwalk
    have hfuel : 1 ≤ fuel := by
      by_contra hf
      have : fuel = 0 := by omega
      subst this
      rw [hfw] at hwalk
      simp [chainFromF] at hwalk
    have hlast2 : (a :: c1).getLast (List.cons_ne_nil _ _) = u := by
      rw [← hlast]
      exact (List.getLast_cons (List.cons_ne_nil _ _)).symm
    have humem : u ∈ a :: c1 := hlast2 ▸ List.getLast_mem _
    have hwne : w ≠ u := by
      intro he
      subst he
      exact (List.nodup_cons.mp hnd).1 humem
    have hwnenew : w ≠ newId := fun he => hnin (he ▸ List.mem_cons_self _ _)
    rw [hothers w hwne hwnenew, hfw]
    obtain ⟨f2, rfl⟩ : ∃ f2, fuel = f2 + 1 := ⟨fuel - 1, by omega⟩
    rw [chainFromF_succ_some]
    have := ih a f2 (by simpa using hrest) hlast2
      (fun hmem => hnin (List.mem_cons_of_mem _ hmem)) (List.nodup_cons.mp hnd).2
    rw [this]
    rfl

theorem spliceLoop_cons (s0 : SkipList) (v : Int) (newId : Nat) (i : Nat)
    (rest : List Nat) (scur : SkipList) :
    spliceLoop s0 v newId (i :: rest) scur =
      spliceLoop s0 v newId rest
        (setFwd (setFwd scur newId i (fwd scur (updAt s0 v i) i))
          (updAt s0 v i) i (some newId)) := rfl

theorem spliceLoop_length (s0 : SkipList) (v : Int) (newId : Nat) :
    ∀ (L : List Nat) (scur : SkipList),
      (spliceLoop s0 v newId L scur).nodes.length = scur.nodes.length := by
  intro L
  induction L with
  | nil => intro scur; rfl
  | cons i rest ih =>
    intro scur
    rw [spliceLoop_cons, ih]
    simp

theorem spliceLoop_keeps (s0 : SkipList) (v : Int) (newId : Nat) :
    ∀ (L : List Nat) (scur : SkipList) (m : Nat),
      val (spliceLoop s0 v newId L scur) m = val scur m ∧
      (getNode (spliceLoop s0 v newId L scur) m).forward.length =
        (getNode scur m).forward.length := by
  intro L
  induction L with
  | nil => intro scur m; exact ⟨rfl, rfl⟩
  | cons i rest ih =>
    intro scur m
    rw [spliceLoop_cons]
    obtain ⟨h1, h2⟩ := ih (setFwd (setFwd scur newId i
      (fwd scur (updAt s0 v i) i)) (updAt s0 v i) i (some newId)) m
    rw [h1, h2, val_setFwd, val_setFwd, getNode_setFwd_forward_length,
      getNode_setFwd_forward_length]
    exact ⟨rfl, rfl⟩

theorem spliceLoop_fields (s0 : SkipList) (v : Int) (newId : Nat) :
    ∀ (L : List Nat) (scur : SkipList),
      (spliceLoop s0 v newId L scur).maxLevel = scur.maxLevel ∧
      (spliceLoop s0 v newId L scur).level = scur.level ∧
      (spliceLoop s0 v newId L scur).size = scur.size := by
  intro L
  induction L with
  | nil => intro scur; exact ⟨rfl, rfl, rfl⟩
  | cons i rest ih =>
    intro scur
    rw [spliceLoop_cons]
    exact ih _

end SkipList

namespace SkipList

/-- Pointwise effect of the splice loop on the forward pointers: at each
processed level `i`, `update[i]` now points to the new node and the new node
points to `update[i]`'s old successor; everything else is untouched. -/
theorem spliceLoop_fwd (s0 : SkipList) (v : Int) (newId : Nat) :
    ∀ (L : List Nat) (scur : SkipList) (m j : Nat),
      L.Nodup →
      (∀ i ∈ L, updAt s0 v i < scur.nodes.length ∧ newId < scur.nodes.length ∧
        i < (getNode scur (updAt s0 v i)).forward.length ∧
        i < (getNode scur newId).forward.length ∧ updAt s0 v i ≠ newId) →
      fwd (spliceLoop s0 v newId L scur) m j =
        if j ∈ L then
          if m = newId then fwd scur (updAt s0 v j) j
          else if m = updAt s0 v j then some newId
          else fwd scur m j
        else fwd scur m j := by
  intro L
  induction L with
  | nil =>
    intro scur m j _ _
    simp [spliceLoop]
  | cons i rest ih =>
    intro scur m j hnd hb
    obtain ⟨hu_lt, hnew_lt, hu_len, hnew_len, hu_ne⟩ := hb i (List.mem_cons_self _ _)
    set u := updAt s0 v i with hudef
    set s1 := setFwd scur newId i (fwd scur u i) with hs1def
    set s2 := setFwd s1 u i (some newId) with hs2def
    have hlen1 : s1.nodes.length = scur.nodes.length := by rw [hs1def]; simp
    have hlen2 : s2.nodes.length = scur.nodes.length := by rw [hs2def, hs1def]; simp
    have hflen1 : ∀ x, (getNode s1 x).forward.length =
        (getNode scur x).forward.length := by
      intro x
      rw [hs1def, getNode_setFwd_forward_length]
    have hflen2 : ∀ x, (getNode s2 x).forward.length =
        (getNode scur x).forward.length := by
      intro x
      rw [hs2def, getNode_setFwd_forward_length, hflen1]
    have hrec := ih s2 m j (List.nodup_cons.mp hnd).2 ?bnd
    case bnd =>
      intro i2 hi2
      obtain ⟨h1, h2, h3, h4, h5⟩ := hb i2 (List.mem_cons_of_mem _ hi2)
      rw [hlen2, hflen2, hflen2]
      exact ⟨h1, h2, h3, h4, h5⟩
    rw [spliceLoop_cons, ← hudef, ← hs1def, ← hs2def, hrec]
    by_cases hjrest : j ∈ rest
    · rw [if_pos hjrest, if_pos (List.mem_cons_of_mem _ hjrest)]
      have hji : j ≠ i := fun he => (List.nodup_cons.mp hnd).1 (he ▸ hjrest)
      have hs2eq : ∀ x, fwd s2 x j = fwd scur x j := by
        intro x
        rw [hs2def, fwd_setFwd_of_ne _ _ _ _ _ _ (Or.inr hji), hs1def,
          fwd_setFwd_of_ne _ _ _ _ _ _ (Or.inr hji)]
      rw [hs2eq, hs2eq]
    · rw [if_neg hjrest]
      by_cases hji : j = i
      · subst hji
        rw [if_pos (List.mem_cons_self _ _)]
        by_cases hmnew : m = newId
        · rw [if_pos hmnew, hmnew, hs2def,
            fwd_setFwd_of_ne _ _ _ _ _ _ (Or.inl (Ne.symm hu_ne)), hs1def,
            fwd_setFwd_self _ _ _ _ hnew_lt hnew_len, hudef]
        · rw [if_neg hmnew]
          by_cases hmu : m = updAt s0 v j
          · rw [if_pos hmu, hmu, ← hudef, hs2def,
              fwd_setFwd_self _ _ _ _ (by rw [hlen1]; exact hu_lt)
                (by rw [hflen1]; exact hu_len)]
          · rw [if_neg hmu, hs2def,
              fwd_setFwd_of_ne _ _ _ _ _ _
                (Or.inl (show m ≠ u from by rw [hudef]; exact hmu)),
              hs1def, fwd_setFwd_of_ne _ _ _ _ _ _ (Or.inl hmnew)]
      · have hnotin : ¬ (j ∈ i :: rest) := by
          intro hc
          rcases List.mem_cons.mp hc with h | h
          · exact hji h
          · exact hjrest h
        rw [if_neg hnotin, hs2def, fwd_setFwd_of_ne _ _ _ _ _ _ (Or.inr hji),
          hs1def, fwd_setFwd_of_ne _ _ _ _ _ _ (Or.inr hji)]

end SkipList

namespace SkipList

theorem fwd_keep (s s2 : SkipList) (x : SkipNode) (h : s2.nodes = s.nodes ++ [x])
    (m : Nat) (hm : m < s.nodes.length) (j : Nat) : fwd s2 m j = fwd s m j := by
  rw [fwd, getNode_keep s s2 x h m hm, ← fwd]

theorem fwd_ge (s : SkipList) (m : Nat) (hm : s.nodes.length ≤ m) (j : Nat) :
    fwd s m j = none := by
  rw [fwd, getNode_out s m (by omega)]
  rfl

theorem fwd_replicate (s : SkipList) (m : Nat) (v : Int) (k j : Nat)
    (h : getNode s m = ⟨v, List.replicate k none⟩) : fwd s m j = none := by
  rw [fwd, h]
  simp only []
  rw [List.getD_eq_getElem?_getD, List.getElem?_replicate]
  split <;> rfl

theorem updAt_zero_or_mem_take {s : SkipList} (hInv : Inv s) (v : Int) (j : Nat)
    (hj : j ≤ s.maxLevel) :
    updAt s v j = 0 ∨
      updAt s v j ∈ (chain s j).takeWhile (fun n => decide (val s n < v)) := by
  obtain ⟨h1, -⟩ := updAt_spec hInv v j hj
  by_cases hne : (chain s j).takeWhile (fun n => decide (val s n < v)) = []
  · left
    rw [h1, hne]
    rfl
  · right
    rw [h1, List.getLast_cons hne]
    exact List.getLast_mem hne

/-- The state built by a successful `insert`: push the new node, raise the
list level, splice at levels `0 … newLevel`, bump the size. -/
def insertNew (s : SkipList) (value : Int) (newLevel : Nat) : SkipList :=
  let s1 : SkipList := { s with
    nodes := s.nodes ++ [⟨value, List.replicate (newLevel + 1) none⟩],
    level := if newLevel > s.level then newLevel else s.level }
  let s2 := spliceLoop s value s.nodes.length (List.range (newLevel + 1)) s1
  { s2 with size := s2.size + 1 }

theorem insert_eq_new (s : SkipList) (v : Int) (lvl : Nat)
    (h : ∀ n, fwd s (upd s v 0) 0 = some n → val s n ≠ v) :
    insert s v lvl = (insertNew s v lvl, true) := by
  rw [insert]
  cases hf : fwd s (upd s v 0) 0 with
  | none => rfl
  | some n =>
    show (if val s n = v then (s, false) else (insertNew s v lvl, true)) =
      (insertNew s v lvl, true)
    rw [if_neg (h n hf)]

theorem insert_eq_dup (s : SkipList) (v : Int) (lvl : Nat) (n : Nat)
    (hf : fwd s (upd s v 0) 0 = some n) (hv : val s n = v) :
    insert s v lvl = (s, false) := by
  rw [insert, hf]
  show (if val s n = v then (s, false) else (insertNew s v lvl, true)) = (s, false)
  rw [if_pos hv]

end SkipList

namespace SkipList

theorem chainFromF_none (s : SkipList) (i fuel : Nat) :
    chainFromF s i fuel none = ([], true) := by
  cases fuel <;> rfl

theorem chainFromF_ext (s s2 : SkipList) (h : ∀ n i, fwd s2 n i = fwd s n i) :
    ∀ i fuel (p : Option Nat), chainFromF s2 i fuel p = chainFromF s i fuel p := by
  intro i fuel
  induction fuel with
  | zero => intro p; cases p <;> rfl
  | succ fuel ih =>
    intro p
    cases p with
    | none => rfl
    | some n =>
      rw [chainFromF_succ_some, chainFromF_succ_some, h n i, ih (fwd s n i)]

/-- Pointer-level description of the state a successful `insert` builds. -/
theorem insertNew_fwd {s : SkipList} (hInv : Inv s) (v : Int) (lvl : Nat)
    (hlvl : lvl ≤ s.maxLevel) :
    (∀ m j, fwd (insertNew s v lvl) m j =
      if j ≤ lvl then
        if m = s.nodes.length then fwd s (updAt s v j) j
        else if m = updAt s v j then some s.nodes.length
        else fwd s m j
      else if m = s.nodes.length then none else fwd s m j) ∧
    (∀ m, m < s.nodes.length → val (insertNew s v lvl) m = val s m) ∧
    (∀ m, m < s.nodes.length → (getNode (insertNew s v lvl) m).forward.length =
      (getNode s m).forward.length) ∧
    val (insertNew s v lvl) s.nodes.length = v ∧
    (getNode (insertNew s v lvl) s.nodes.length).forward.length = lvl + 1 ∧
    (insertNew s v lvl).nodes.length = s.nodes.length + 1 ∧
    (insertNew s v lvl).maxLevel = s.maxLevel ∧
    (insertNew s v lvl).level = (if lvl > s.level then lvl else s.level) := by
  set s1 : SkipList := { s with
    nodes := s.nodes ++ [⟨v, List.replicate (lvl + 1) none⟩],
    level := if lvl > s.level then lvl else s.level } with hs1def
  have hs1nodes : s1.nodes = s.nodes ++ [⟨v, List.replicate (lvl + 1) none⟩] := rfl
  set s2 := spliceLoop s v s.nodes.length (List.range (lvl + 1)) s1 with hs2def
  have hfwd1 : ∀ m j, m < s.nodes.length → fwd s1 m j = fwd s m j := by
    intro m j hm
    exact fwd_keep s s1 _ hs1nodes m hm j
  have hfwd1new : ∀ j, fwd s1 s.nodes.length j = none := by
    intro j
    exact fwd_replicate s1 _ v (lvl + 1) j (getNode_new s s1 _ hs1nodes)
  have hfwd1ge : ∀ m j, s.nodes.length + 1 ≤ m → fwd s1 m j = none := by
    intro m j hm
    refine fwd_ge s1 m ?_ j
    rw [hs1def]
    simp
    omega
  have hflen1 : ∀ m, m < s.nodes.length →
      (getNode s1 m).forward.length = (getNode s m).forward.length := by
    intro m hm
    rw [getNode_keep s s1 _ hs1nodes m hm]
  have hflen1new : (getNode s1 s.nodes.length).forward.length = lvl + 1 := by
    rw [getNode_new s s1 _ hs1nodes]
    simp
  have hlen1 : s1.nodes.length = s.nodes.length + 1 := by
    rw [hs1def]
    simp
  have hbnd : ∀ i ∈ List.range (lvl + 1),
      updAt s v i < s1.nodes.length ∧ s.nodes.length < s1.nodes.length ∧
      i < (getNode s1 (updAt s v i)).forward.length ∧
      i < (getNode s1 s.nodes.length).forward.length ∧
      updAt s v i ≠ s.nodes.length := by
    intro i hi
    have hil : i ≤ lvl := by simpa [Nat.lt_succ_iff] using List.mem_range.mp hi
    have him : i ≤ s.maxLevel := le_trans hil hlvl
    have hu_lt := updAt_lt_len hInv v i him
    refine ⟨by omega, by omega, ?_, ?_, by omega⟩
    · rw [hflen1 _ hu_lt]
      exact updAt_fwd_len hInv v i him
    · rw [hflen1new]
      omega
  have hF := spliceLoop_fwd s v s.nodes.length (List.range (lvl + 1)) s1
  have hkeeps := spliceLoop_keeps s v s.nodes.length (List.range (lvl + 1)) s1
  have hfields := spliceLoop_fields s v s.nodes.length (List.range (lvl + 1)) s1
  have hlen2 : s2.nodes.length = s.nodes.length + 1 := by
    rw [hs2def, spliceLoop_length, hlen1]
  refine ⟨?_, ?_, ?_, ?_, ?_, ?_, ?_, ?_⟩
  · intro m j
    have h1 : fwd (insertNew s v lvl) m j = fwd s2 m j := rfl
    rw [h1, hs2def, hF m j (List.nodup_range _) hbnd]
    by_cases hj : j ≤ lvl
    · rw [if_pos (by rw [List.mem_range]; omega), if_pos hj]
      by_cases hm : m = s.nodes.length
      · rw [if_pos hm, if_pos hm, hfwd1 _ _ (updAt_lt_len hInv v j
          (le_trans hj hlvl))]
      · rw [if_neg hm, if_neg hm]
        by_cases hmu : m = updAt s v j
        · rw [if_pos hmu, if_pos hmu]
        · rw [if_neg hmu, if_neg hmu]
          by_cases hmlt : m < s.nodes.length
          · exact hfwd1 m j hmlt
          · rw [hfwd1ge m j (by omega), fwd_ge s m (by omega) j]
    · rw [if_neg (by rw [List.mem_range]; omega), if_neg hj]
      by_cases hm : m = s.nodes.length
      · rw [if_pos hm, hm]
        exact hfwd1new j
      · rw [if_neg hm]
        by_cases hmlt : m < s.nodes.length
        · exact hfwd1 m j hmlt
        · rw [hfwd1ge m j (by omega), fwd_ge s m (by omega) j]
  · intro m hm
    have h1 : val (insertNew s v lvl) m = val s2 m := rfl
    rw [h1, hs2def, (hkeeps m).1, val, getNode_keep s s1 _ hs1nodes m hm, ← val]
  · intro m hm
    have h1 : (getNode (insertNew s v lvl) m).forward.length =
        (getNode s2 m).forward.length := rfl
    rw [h1, hs2def, (hkeeps m).2, hflen1 m hm]
  · have h1 : val (insertNew s v lvl) s.nodes.length = val s2 s.nodes.length := rfl
    rw [h1, hs2def, (hkeeps _).1, val, getNode_new s s1 _ hs1nodes]
  · have h1 : (getNode (insertNew s v lvl) s.nodes.length).forward.length =
        (getNode s2 s.nodes.length).forward.length := rfl
    rw [h1, hs2def, (hkeeps _).2, hflen1new]
  · have h1 : (insertNew s v lvl).nodes.length = s2.nodes.length := rfl
    rw [h1, hlen2]
  · have h1 : (insertNew s v lvl).maxLevel = s2.maxLevel := rfl
    rw [h1, hs2def, hfields.1, hs1def]
  · have h1 : (insertNew s v lvl).level = s2.level := rfl
    rw [h1, hs2def, hfields.2.1, hs1def]

end SkipList

namespace SkipList

/-- Chain-level description of a successful `insert`: the new node is woven
into the chains of levels `0 … newLevel` right after the last
smaller-valued node, and all higher chains are untouched. -/
theorem insertNew_chain {s : SkipList} (hInv : Inv s) (v : Int) (lvl : Nat)
    (hlvl : lvl ≤ s.maxLevel) :
    (∀ j, j ≤ lvl →
      chain (insertNew s v lvl) j =
        (chain s j).takeWhile (fun n => decide (val s n < v)) ++
          s.nodes.length :: (chain s j).dropWhile (fun n => decide (val s n < v))) ∧
    (∀ j, lvl < j → j ≤ s.maxLevel → chain (insertNew s v lvl) j = chain s j) ∧
    (∀ j, j ≤ s.maxLevel → (chainF (insertNew s v lvl) j).2 = true) := by
  obtain ⟨hFw, hval2, hflen, hvnew, hfnew, hlen, hml, hlevel⟩ :=
    insertNew_fwd hInv v lvl hlvl
  have hchainF : ∀ j, chainF (insertNew s v lvl) j =
      chainFromF (insertNew s v lvl) j (s.nodes.length + 1)
        (fwd (insertNew s v lvl) 0 j) := by
    intro j
    rw [chainF, hlen]
  have hle : ∀ j, j ≤ lvl → chainF (insertNew s v lvl) j =
      ((chain s j).takeWhile (fun n => decide (val s n < v)) ++
        s.nodes.length :: (chain s j).dropWhile (fun n => decide (val s n < v)),
        true) := by
    intro j hj
    have hjm : j ≤ s.maxLevel := le_trans hj hlvl
    have hsplit : chain s j =
        (chain s j).takeWhile (fun n => decide (val s n < v)) ++
        (chain s j).dropWhile (fun n => decide (val s n < v)) :=
      (List.takeWhile_append_dropWhile _ _).symm
    have hwalk : chainFromF s j s.nodes.length (fwd s 0 j) =
        ((chain s j).takeWhile (fun n => decide (val s n < v)) ++
         (chain s j).dropWhile (fun n => decide (val s n < v)), true) := by
      rw [← hsplit]
      exact hInv.chainF_eq j hjm
    have hu_lt := updAt_lt_len hInv v j hjm
    have hu2 : fwd (insertNew s v lvl) (updAt s v j) j = some s.nodes.length := by
      rw [hFw, if_pos hj, if_neg (by omega), if_pos rfl]
    have hnew2 : fwd (insertNew s v lvl) s.nodes.length j =
        fwd s (updAt s v j) j := by
      rw [hFw, if_pos hj, if_pos rfl]
    have hothers : ∀ x, x ≠ updAt s v j → x ≠ s.nodes.length →
        fwd (insertNew s v lvl) x j = fwd s x j := by
      intro x hx1 hx2
      rw [hFw, if_pos hj, if_neg hx2, if_neg hx1]
    have hmemc2 : ∀ x ∈ (chain s j).dropWhile (fun n => decide (val s n < v)),
        0 < x ∧ x < s.nodes.length := by
      intro x hx
      exact hInv.chain_mem_bounds j hjm ((List.dropWhile_sublist _).subset hx)
    have hmemc1 : ∀ x ∈ (chain s j).takeWhile (fun n => decide (val s n < v)),
        0 < x ∧ x < s.nodes.length := by
      intro x hx
      exact hInv.chain_mem_bounds j hjm ((List.takeWhile_sublist _).subset hx)
    have hc2u : updAt s v j ∉
        (chain s j).dropWhile (fun n => decide (val s n < v)) := by
      rcases updAt_zero_or_mem_take hInv v j hjm with h0 | hmem
      · rw [h0]
        intro hc
        exact absurd (hmemc2 0 hc).1 (lt_irrefl 0)
      · have hnd := hInv.chain_nodup j hjm
        rw [hsplit] at hnd
        exact fun hc => (List.disjoint_of_nodup_append hnd) hmem hc
    have hc2new : s.nodes.length ∉
        (chain s j).dropWhile (fun n => decide (val s n < v)) := by
      intro hc
      exact absurd (hmemc2 _ hc).2 (lt_irrefl _)
    have hnotin : s.nodes.length ∉
        0 :: (chain s j).takeWhile (fun n => decide (val s n < v)) := by
      intro hc
      rcases List.mem_cons.mp hc with h | h
      · exact absurd h.symm (by have := hInv.len_pos; omega)
      · exact absurd (hmemc1 _ h).2 (lt_irrefl _)
    have hnodup : (0 :: (chain s j).takeWhile
        (fun n => decide (val s n < v))).Nodup := by
      rw [List.nodup_cons]
      refine ⟨fun hc => absurd (hmemc1 _ hc).1 (lt_irrefl 0), ?_⟩
      exact (List.takeWhile_sublist _).nodup (hInv.chain_nodup j hjm)
    have hwres := splice_walk s (insertNew s v lvl) j (updAt s v j)
      s.nodes.length _ hu2 hnew2 hothers hc2u hc2new
      ((chain s j).takeWhile (fun n => decide (val s n < v))) 0 s.nodes.length
      hwalk (updAt_spec hInv v j hjm).1.symm hnotin hnodup
    rw [hchainF, hwres]
  have hgt : ∀ j, lvl < j → j ≤ s.maxLevel →
      chainF (insertNew s v lvl) j = (chain s j, true) := by
    intro j hj hjm
    have hold := chainFromF_mono s j s.nodes.length (s.nodes.length + 1)
      (fwd s 0 j) (chain s j) (hInv.chainF_eq j hjm) (by omega)
    have hcongr := chainFromF_congr_mem s (insertNew s v lvl) j
      (s.nodes.length + 1) (fwd s 0 j) (chain s j) hold ?mem
    case mem =>
      intro x hx
      obtain ⟨hx0, hxlt⟩ := hInv.chain_mem_bounds j hjm hx
      rw [hFw, if_neg (by omega), if_neg (by omega)]
    have hstart : fwd (insertNew s v lvl) 0 j = fwd s 0 j := by
      rw [hFw, if_neg (by omega), if_neg (by have := hInv.len_pos; omega)]
    rw [hchainF, hstart, hcongr]
  refine ⟨?_, ?_, ?_⟩
  · intro j hj
    rw [chain, hle j hj]
  · intro j hj hjm
    rw [chain, hgt j hj hjm]
  · intro j hjm
    by_cases hj : j ≤ lvl
    · rw [hle j hj]
    · rw [hgt j (by omega) hjm]

end SkipList

namespace SkipList

/-- Splitting a level-`j` chain at the search value commutes with the
tower-height filter relating it to the level-0 chain. -/
theorem Inv.take_drop_filter {s : SkipList} (hInv : Inv s) (v : Int) (j : Nat)
    (hj : j ≤ s.maxLevel) :
    (chain s j).takeWhile (fun n => decide (val s n < v)) =
      ((chain s 0).takeWhile (fun n => decide (val s n < v))).filter
        (fun n => decide (j < (getNode s n).forward.length)) ∧
    (chain s j).dropWhile (fun n => decide (val s n < v)) =
      ((chain s 0).dropWhile (fun n => decide (val s n < v))).filter
        (fun n => decide (j < (getNode s n).forward.length)) := by
  have hsplit0 : chain s 0 =
      (chain s 0).takeWhile (fun n => decide (val s n < v)) ++
      (chain s 0).dropWhile (fun n => decide (val s n < v)) :=
    (List.takeWhile_append_dropWhile _ _).symm
  have hstep : chain s j =
      ((chain s 0).takeWhile (fun n => decide (val s n < v))).filter
        (fun n => decide (j < (getNode s n).forward.length)) ++
      ((chain s 0).dropWhile (fun n => decide (val s n < v))).filter
        (fun n => decide (j < (getNode s n).forward.length)) := by
    rw [hInv.levels j hj]
    conv_lhs => rw [hsplit0]
    rw [List.filter_append]
  have hTall : ∀ x ∈ ((chain s 0).takeWhile
      (fun n => decide (val s n < v))).filter
        (fun n => decide (j < (getNode s n).forward.length)),
      (fun n => decide (val s n < v)) x = true := by
    intro x hx
    have hx2 : x ∈ (chain s 0).takeWhile (fun n => decide (val s n < v)) :=
      List.mem_of_mem_filter hx
    have hx3 := List.mem_takeWhile_imp hx2
    simpa using hx3
  have hDall : ∀ x ∈ ((chain s 0).dropWhile
      (fun n => decide (val s n < v))).filter
        (fun n => decide (j < (getNode s n).forward.length)),
      (fun n => decide (val s n < v)) x = false := by
    intro x hx
    have hx2 : x ∈ (chain s 0).dropWhile (fun n => decide (val s n < v)) :=
      List.mem_of_mem_filter hx
    have := hInv.dropWhile_ge v 0 (Nat.zero_le _) x hx2
    simpa using this
  constructor
  · rw [hstep, takeWhile_append_all _ _ hTall, takeWhile_all_false _ hDall,
      List.append_nil]
  · rw [hstep, dropWhile_append_all _ _ hTall, dropWhile_all_false _ hDall]

end SkipList

namespace SkipList

/-- A successful `insert` of an absent value preserves the structure
invariant and splices the value into the sorted level-0 value sequence. -/
theorem insertNew_inv {s : SkipList} (hInv : Inv s) (v : Int) (lvl : Nat)
    (hlvl : lvl ≤ s.maxLevel) (habs : ∀ n ∈ chain s 0, val s n ≠ v) :
    Inv (insertNew s v lvl) ∧
    (insertNew s v lvl).maxLevel = s.maxLevel ∧
    toArray (insertNew s v lvl) =
      (toArray s).takeWhile (fun x => decide (x < v)) ++
        v :: (toArray s).dropWhile (fun x => decide (x < v)) := by
  obtain ⟨hFw, hval2, hflen, hvnew, hfnew, hlen, hml, hlevel⟩ :=
    insertNew_fwd hInv v lvl hlvl
  obtain ⟨hcle, hcgt, hclosed⟩ := insertNew_chain hInv v lvl hlvl
  have hsplit0 : chain s 0 =
      (chain s 0).takeWhile (fun n => decide (val s n < v)) ++
      (chain s 0).dropWhile (fun n => decide (val s n < v)) :=
    (List.takeWhile_append_dropWhile _ _).symm
  have hc0 := hcle 0 (Nat.zero_le _)
  have hTmem : ∀ x ∈ (chain s 0).takeWhile (fun n => decide (val s n < v)),
      x ∈ chain s 0 := fun x hx => (List.takeWhile_sublist _).subset hx
  have hDmem : ∀ x ∈ (chain s 0).dropWhile (fun n => decide (val s n < v)),
      x ∈ chain s 0 := fun x hx => (List.dropWhile_sublist _).subset hx
  have hTb : ∀ x ∈ (chain s 0).takeWhile (fun n => decide (val s n < v)),
      0 < x ∧ x < s.nodes.length := fun x hx => hInv.bounds x (hTmem x hx)
  have hDb : ∀ x ∈ (chain s 0).dropWhile (fun n => decide (val s n < v)),
      0 < x ∧ x < s.nodes.length := fun x hx => hInv.bounds x (hDmem x hx)
  have hTlt : ∀ x ∈ (chain s 0).takeWhile (fun n => decide (val s n < v)),
      val s x < v := by
    intro x hx
    have := List.mem_takeWhile_imp hx
    simpa using this
  have hDgt : ∀ x ∈ (chain s 0).dropWhile (fun n => decide (val s n < v)),
      v < val s x := by
    intro x hx
    have h1 := hInv.dropWhile_ge v 0 (Nat.zero_le _) x hx
    have h2 := habs x (hDmem x hx)
    omega
  have hmapT : ((chain s 0).takeWhile
      (fun n => decide (val s n < v))).map (val (insertNew s v lvl)) =
      ((chain s 0).takeWhile (fun n => decide (val s n < v))).map (val s) :=
    List.map_congr_left (fun x hx => hval2 x (hTb x hx).2)
  have hmapD : ((chain s 0).dropWhile
      (fun n => decide (val s n < v))).map (val (insertNew s v lvl)) =
      ((chain s 0).dropWhile (fun n => decide (val s n < v))).map (val s) :=
    List.map_congr_left (fun x hx => hval2 x (hDb x hx).2)
  have hfT : ∀ i, ((chain s 0).takeWhile
      (fun n => decide (val s n < v))).filter
        (fun n => decide (i < (getNode (insertNew s v lvl) n).forward.length)) =
      ((chain s 0).takeWhile (fun n => decide (val s n < v))).filter
        (fun n => decide (i < (getNode s n).forward.length)) :=
    fun i => List.filter_congr (fun x hx => by rw [hflen x (hTb x hx).2])
  have hfD : ∀ i, ((chain s 0).dropWhile
      (fun n => decide (val s n < v))).filter
        (fun n => decide (i < (getNode (insertNew s v lvl) n).forward.length)) =
      ((chain s 0).dropWhile (fun n => decide (val s n < v))).filter
        (fun n => decide (i < (getNode s n).forward.length)) :=
    fun i => List.filter_congr (fun x hx => by rw [hflen x (hDb x hx).2])
  refine ⟨⟨?_, ?_, ?_, ?_, ?_, ?_, ?_, ?_, ?_⟩, hml, ?_⟩
  · rw [hlen]
    omega
  · rw [hflen 0 hInv.len_pos, hml]
    exact hInv.head_len
  · rw [hlevel, hml]
    split
    · exact hlvl
    · exact hInv.level_le
  · intro k hk
    rw [hlevel] at hk
    have hk2 : lvl < k ∧ s.level < k := by
      by_cases h : lvl > s.level
      · rw [if_pos h] at hk
        omega
      · rw [if_neg h] at hk
        omega
    rw [hFw, if_neg (by omega), if_neg (by have := hInv.len_pos; omega)]
    exact hInv.above_none k hk2.2
  · intro i hi
    rw [hml] at hi
    exact hclosed i hi
  · intro n hn
    rw [hc0] at hn
    rw [hlen]
    rcases List.mem_append.mp hn with h | h
    · obtain ⟨h1, h2⟩ := hTb n h
      exact ⟨h1, by omega⟩
    · rcases List.mem_cons.mp h with rfl | h
      · exact ⟨hInv.len_pos, by omega⟩
      · obtain ⟨h1, h2⟩ := hDb n h
        exact ⟨h1, by omega⟩
  · intro n hn
    rw [hc0] at hn
    rw [hml]
    rcases List.mem_append.mp hn with h | h
    · rw [hflen n (hTb n h).2]
      exact hInv.node_len n (hTmem n h)
    · rcases List.mem_cons.mp h with rfl | h
      · rw [hfnew]
        omega
      · rw [hflen n (hDb n h).2]
        exact hInv.node_len n (hDmem n h)
  · rw [hc0, List.map_append, List.map_cons, hmapT, hmapD, hvnew,
      List.chain'_iff_pairwise]
    have hold : List.Pairwise (· < ·) ((chain s 0).map (val s)) :=
      (List.chain'_iff_pairwise).mp hInv.sorted
    rw [hsplit0, List.map_append] at hold
    obtain ⟨pT, pD, cross⟩ := List.pairwise_append.mp hold
    rw [List.pairwise_append]
    refine ⟨pT, ?_, ?_⟩
    · rw [List.pairwise_cons]
      refine ⟨?_, pD⟩
      intro y hy
      obtain ⟨x, hx, rfl⟩ := List.mem_map.mp hy
      exact hDgt x hx
    · intro a ha b hb
      obtain ⟨x, hx, rfl⟩ := List.mem_map.mp ha
      rcases List.mem_cons.mp hb with rfl | hb
      · exact hTlt x hx
      · exact cross _ ha _ hb
  · intro i hi
    rw [hml] at hi
    by_cases hil : i ≤ lvl
    · rw [hcle i hil, hc0, List.filter_append,
        List.filter_cons_of_pos (by simp [hfnew]; omega),
        hfT i, hfD i, ← (hInv.take_drop_filter v i hi).1,
        ← (hInv.take_drop_filter v i hi).2]
    · rw [hcgt i (by omega) hi, hc0, List.filter_append,
        List.filter_cons_of_neg (by simp [hfnew]; omega),
        hfT i, hfD i, ← List.filter_append, ← hsplit0, ← hInv.levels i hi]
  · rw [toArray, hc0, List.map_append, List.map_cons, hmapT, hmapD, hvnew,
      toArray, List.takeWhile_map, List.dropWhile_map]
    have hcomp : ((fun x => decide (x < v)) ∘ (val s)) =
        (fun n => decide (val s n < v)) := rfl
    rw [hcomp]

end SkipList

namespace SkipList

theorem takeWhile_congr {α : Type} {p q : α → Bool} :
    ∀ (l : List α), (∀ x ∈ l, p x = q x) → l.takeWhile p = l.takeWhile q := by
  intro l
  induction l with
  | nil => intro _; rfl
  | cons a l ih =>
    intro h
    rw [List.takeWhile_cons, List.takeWhile_cons, h a (List.mem_cons_self _ _),
      ih (fun x hx => h x (List.mem_cons_of_mem _ hx))]

theorem unlinkLoop_cons (s0 : SkipList) (v : Int) (t : Nat) (i : Nat)
    (rest : List Nat) (scur : SkipList) :
    unlinkLoop s0 v t (i :: rest) scur =
      if fwd scur (upd s0 v i) i = some t then
        unlinkLoop s0 v t rest (setFwd scur (upd s0 v i) i (fwd scur t i))
      else scur := rfl

theorem unlinkLoop_length (s0 : SkipList) (v : Int) (t : Nat) :
    ∀ (L : List Nat) (scur : SkipList),
      (unlinkLoop s0 v t L scur).nodes.length = scur.nodes.length := by
  intro L
  induction L with
  | nil => intro scur; rfl
  | cons i rest ih =>
    intro scur
    rw [unlinkLoop_cons]
    split
    · rw [ih]
      simp
    · rfl

theorem unlinkLoop_keeps (s0 : SkipList) (v : Int) (t : Nat) :
    ∀ (L : List Nat) (scur : SkipList) (m : Nat),
      val (unlinkLoop s0 v t L scur) m = val scur m ∧
      (getNode (unlinkLoop s0 v t L scur) m).forward.length =
        (getNode scur m).forward.length := by
  intro L
  induction L with
  | nil => intro scur m; exact ⟨rfl, rfl⟩
  | cons i rest ih =>
    intro scur m
    rw [unlinkLoop_cons]
    split
    · obtain ⟨h1, h2⟩ := ih (setFwd scur (upd s0 v i) i (fwd scur t i)) m
      rw [h1, h2, val_setFwd, getNode_setFwd_forward_length]
      exact ⟨rfl, rfl⟩
    · exact ⟨rfl, rfl⟩

theorem unlinkLoop_fields (s0 : SkipList) (v : Int) (t : Nat) :
    ∀ (L : List Nat) (scur : SkipList),
      (unlinkLoop s0 v t L scur).maxLevel = scur.maxLevel ∧
      (unlinkLoop s0 v t L scur).level = scur.level ∧
      (unlinkLoop s0 v t L scur).size = scur.size := by
  intro L
  induction L with
  | nil => intro scur; exact ⟨rfl, rfl, rfl⟩
  | cons i rest ih =>
    intro scur
    rw [unlinkLoop_cons]
    split
    · exact ih _
    · exact ⟨rfl, rfl, rfl⟩

/-- Walking level `j` after the unlink write at `u` yields the old chain with
the target dropped. -/
theorem erase_walk (s s2 : SkipList) (j u t : Nat) (c2 : List Nat)
    (hu : fwd s2 u j = fwd s t j)
    (hothers : ∀ x, x ≠ u → fwd s2 x j = fwd s x j)
    (htne : t ≠ u) (htc2 : t ∉ c2) (huc2 : u ∉ c2) :
    ∀ (c1 : List Nat) (w : Nat) (fuel : Nat),
      chainFromF s j fuel (fwd s w j) = (c1 ++ t :: c2, true) →
      (w :: c1).getLast (List.cons_ne_nil _ _) = u →
      (w :: c1).Nodup → t ∉ w :: c1 →
      chainFromF s2 j fuel (fwd s2 w j) = (c1 ++ c2, true) := by
  intro c1
  induction c1 with
  | nil =>
    intro w fuel hwalk hlast hnd htn
    have hw : w = u := hlast
    subst hw
    obtain ⟨hfwd, hrest⟩ := chainFromF_cons_inv s j fuel (fwd s w j) t c2
      (by simpa using hwalk)
    rw [hu]
    have hc2 : chainFromF s2 j (fuel - 1) (fwd s t j) = (c2, true) := by
      refine chainFromF_congr_mem s s2 j (fuel - 1) (fwd s t j) c2 hrest ?_
      intro x hx
      exact hothers x (fun he => huc2 (he ▸ hx))
    simpa using chainFromF_mono s2 j (fuel - 1) fuel (fwd s t j) c2 hc2 (by omega)
  | cons a c1 ih =>
    intro w fuel hwalk hlast hnd htn
    rw [List.cons_append] at hwalk
    obtain ⟨hfwd, hrest⟩ := chainFromF_cons_inv s j fuel (fwd s w j) a
      (c1 ++ t :: c2) hwalk
    have hfuel : 1 ≤ fuel := by
      by_contra hf
      have h0 : fuel = 0 := by omega
      subst h0
      rw [hfwd] at hwalk
      simp [chainFromF] at hwalk
    have hlast2 : (a :: c1).getLast (List.cons_ne_nil _ _) = u := by
      rw [← hlast]
      exact (List.getLast_cons (List.cons_ne_nil _ _)).symm
    have humem : u ∈ a :: c1 := hlast2 ▸ List.getLast_mem _
    have hwne : w ≠ u := by
      intro he
      subst he
      exact (List.nodup_cons.mp hnd).1 humem
    rw [hothers w hwne, hfwd]
    obtain ⟨f2, rfl⟩ : ∃ f2, fuel = f2 + 1 := ⟨fuel - 1, by omega⟩
    rw [chainFromF_succ_some]
    have := ih a f2 (by simpa using hrest) hlast2 (List.nodup_cons.mp hnd).2
      (fun hmem => htn (List.mem_cons_of_mem _ hmem))
    rw [this]
    rfl

theorem shrink_spec (s : SkipList) : ∀ lv : Nat,
    shrink s lv ≤ lv ∧
    (∀ k, shrink s lv < k → k ≤ lv → fwd s 0 k = none) := by
  intro lv
  induction lv with
  | zero => exact ⟨le_refl _, fun k h1 h2 => by omega⟩
  | succ l ih =>
    rw [shrink]
    split
    · refine ⟨by omega, ?_⟩
      intro k h1 h2
      by_cases hk : k ≤ l
      · exact ih.2 k h1 hk
      · have : k = l + 1 := by omega
        subst this
        assumption
    · exact ⟨le_refl _, fun k h1 h2 => by omega⟩

/-- The state built by a successful `delete`: unlink the target at the levels
that point to it, shrink the list level, drop the size. -/
def deleteGone (s : SkipList) (value : Int) (t : Nat) : SkipList :=
  let s1 := unlinkLoop s value t (List.range (s.level + 1)) s
  { s1 with level := shrink s1 s1.level, size := s1.size - 1 }

theorem delete_eq_gone (s : SkipList) (v : Int) (t : Nat)
    (hf : fwd s (upd s v 0) 0 = some t) (hv : val s t = v) :
    delete s v = (deleteGone s v t, true) := by
  rw [delete, hf]
  show (if val s t = v then (deleteGone s v t, true) else (s, false)) = _
  rw [if_pos hv]

theorem delete_eq_none (s : SkipList) (v : Int)
    (hf : fwd s (upd s v 0) 0 = none) : delete s v = (s, false) := by
  rw [delete, hf]

theorem delete_eq_ne (s : SkipList) (v : Int) (t : Nat)
    (hf : fwd s (upd s v 0) 0 = some t) (hv : val s t ≠ v) :
    delete s v = (s, false) := by
  rw [delete, hf]
  show (if val s t = v then (deleteGone s v t, true) else (s, false)) = _
  rw [if_neg hv]

end SkipList

namespace SkipList

/-- Pointwise effect of the unlink loop: writes happen at the processed
prefix of levels (those whose `update[i].forward[i]` is the target) and
redirect `update[i]` to the target's successor. -/
theorem unlinkLoop_fwd (s0 : SkipList) (v : Int) (t : Nat) :
    ∀ (L : List Nat) (scur : SkipList) (m j : Nat),
      L.Nodup →
      (∀ i ∈ L, upd s0 v i ≠ t ∧ upd s0 v i < scur.nodes.length ∧
        i < (getNode scur (upd s0 v i)).forward.length) →
      fwd (unlinkLoop s0 v t L scur) m j =
        if j ∈ L.takeWhile (fun i => decide (fwd scur (upd s0 v i) i = some t)) ∧
            m = upd s0 v j then
          fwd scur t j
        else fwd scur m j := by
  intro L
  induction L with
  | nil =>
    intro scur m j _ _
    rw [if_neg (by rintro ⟨h, -⟩; simp at h)]
    rfl
  | cons i rest ih =>
    intro scur m j hnd hb
    obtain ⟨hne_t, hu_lt, hu_len⟩ := hb i (List.mem_cons_self _ _)
    rw [unlinkLoop_cons]
    by_cases hcond : fwd scur (upd s0 v i) i = some t
    · rw [if_pos hcond]
      set s2 := setFwd scur (upd s0 v i) i (fwd scur t i) with hs2def
      have hlen2 : s2.nodes.length = scur.nodes.length := by
        rw [hs2def]
        simp
      have hflen2 : ∀ x, (getNode s2 x).forward.length =
          (getNode scur x).forward.length := by
        intro x
        rw [hs2def, getNode_setFwd_forward_length]
      have hrec := ih s2 m j (List.nodup_cons.mp hnd).2 ?bnd
      case bnd =>
        intro i2 hi2
        obtain ⟨a, b, c⟩ := hb i2 (List.mem_cons_of_mem _ hi2)
        rw [hlen2, hflen2]
        exact ⟨a, b, c⟩
      rw [hrec]
      have htw : rest.takeWhile
          (fun i2 => decide (fwd s2 (upd s0 v i2) i2 = some t)) =
          rest.takeWhile
            (fun i2 => decide (fwd scur (upd s0 v i2) i2 = some t)) := by
        apply takeWhile_congr
        intro i2 hi2
        have hne : i2 ≠ i := fun he => (List.nodup_cons.mp hnd).1 (he ▸ hi2)
        rw [hs2def, fwd_setFwd_of_ne _ _ _ _ _ _ (Or.inr hne)]
      rw [htw, List.takeWhile_cons_of_pos (by simpa using hcond)]
      have hfwd_t : ∀ j2, fwd s2 t j2 = fwd scur t j2 := by
        intro j2
        rw [hs2def, fwd_setFwd_of_ne _ _ _ _ _ _ (Or.inl (Ne.symm hne_t))]
      by_cases hA : j ∈ rest.takeWhile
          (fun i2 => decide (fwd scur (upd s0 v i2) i2 = some t)) ∧
          m = upd s0 v j
      · rw [if_pos hA, if_pos ⟨List.mem_cons_of_mem _ hA.1, hA.2⟩, hfwd_t]
      · rw [if_neg hA]
        by_cases hB : j = i ∧ m = upd s0 v j
        · obtain ⟨hBj, hBm⟩ := hB
          subst hBj
          rw [if_pos ⟨List.mem_cons_self _ _, hBm⟩, hBm, hs2def,
            fwd_setFwd_self _ _ _ _ hu_lt hu_len]
        · have hRHS : ¬ (j ∈ i :: rest.takeWhile
              (fun i2 => decide (fwd scur (upd s0 v i2) i2 = some t)) ∧
              m = upd s0 v j) := by
            rintro ⟨hj, hm⟩
            rcases List.mem_cons.mp hj with rfl | hj2
            · exact hB ⟨rfl, hm⟩
            · exact hA ⟨hj2, hm⟩
          rw [if_neg hRHS, hs2def]
          by_cases hji : j = i
          · subst hji
            have hmne : m ≠ upd s0 v j := fun he => hB ⟨rfl, he⟩
            rw [fwd_setFwd_of_ne _ _ _ _ _ _ (Or.inl hmne)]
          · rw [fwd_setFwd_of_ne _ _ _ _ _ _ (Or.inr hji)]
    · rw [if_neg hcond, List.takeWhile_cons_of_neg (by simpa using hcond)]
      rw [if_neg (by rintro ⟨h, -⟩; simp at h)]

theorem takeWhile_range_eq (C : Nat → Bool) (n M : Nat) (hM : M ≤ n)
    (h1 : ∀ i, i < M → C i = true) (h2 : M < n → C M = false) :
    (List.range n).takeWhile C = List.range M := by
  have hsplit : List.range n = List.range M ++ List.range' M (n - M) := by
    rw [List.range_eq_range', List.range_eq_range']
    have := List.range'_append 0 M (n - M) 1
    simp only [Nat.mul_one, Nat.zero_add, Nat.one_mul] at this
    rw [this, Nat.sub_add_cancel hM]
  rw [hsplit, takeWhile_append_all _ _ (fun x hx => h1 x (List.mem_range.mp hx))]
  have hrest : (List.range' M (n - M)).takeWhile C = [] := by
    cases hnm : n - M with
    | zero => rfl
    | succ k =>
      rw [List.range'_succ, List.takeWhile_cons_of_neg]
      rw [h2 (by omega)]
      simp
  rw [hrest, List.append_nil]

end SkipList

namespace SkipList

theorem mem_chain_dropWhile_eq {s : SkipList} (hInv : Inv s) (v : Int) (j : Nat)
    (hj : j ≤ s.maxLevel) (t : Nat) (hv : val s t = v) (hmem : t ∈ chain s j) :
    ∃ D2, (chain s j).dropWhile (fun n => decide (val s n < v)) = t :: D2 := by
  have hsplit : chain s j =
      (chain s j).takeWhile (fun n => decide (val s n < v)) ++
      (chain s j).dropWhile (fun n => decide (val s n < v)) :=
    (List.takeWhile_append_dropWhile _ _).symm
  have htT : t ∉ (chain s j).takeWhile (fun n => decide (val s n < v)) := by
    intro hc
    have := List.mem_takeWhile_imp hc
    simp [hv] at this
  have htD : t ∈ (chain s j).dropWhile (fun n => decide (val s n < v)) := by
    rcases List.mem_append.mp (hsplit ▸ hmem) with h | h
    · exact absurd h htT
    · exact h
  cases hD : (chain s j).dropWhile (fun n => decide (val s n < v)) with
  | nil =>
    rw [hD] at htD
    simp at htD
  | cons h0 D2 =>
    rw [hD] at htD
    rcases List.mem_cons.mp htD with rfl | htD2
    · exact ⟨D2, rfl⟩
    · exfalso
      have hpw : List.Pairwise (fun a b => val s a < val s b) (h0 :: D2) :=
        (hInv.chain_pairwise j hj).sublist (hD ▸ List.dropWhile_sublist _)
      have h1 := (List.pairwise_cons.mp hpw).1 t htD2
      have h2 := hInv.dropWhile_ge v j hj h0 (by rw [hD]; exact List.mem_cons_self _ _)
      omega

theorem dup_check_iff {s : SkipList} (hInv : Inv s) (v : Int) :
    (∃ n, fwd s (upd s v 0) 0 = some n ∧ val s n = v) ↔ v ∈ toArray s := by
  obtain ⟨-, hfwd⟩ := upd_spec hInv v 0 (Nat.zero_le _)
  constructor
  · rintro ⟨n, hf, hvn⟩
    rw [hfwd] at hf
    have hn : n ∈ (chain s 0).dropWhile (fun x => decide (val s x < v)) :=
      List.mem_of_mem_head? (by rw [hf]; rfl)
    have : n ∈ chain s 0 := (List.dropWhile_sublist _).subset hn
    rw [toArray]
    exact List.mem_map.mpr ⟨n, this, hvn⟩
  · intro hmem
    obtain ⟨x, hx, hvx⟩ := List.mem_map.mp hmem
    obtain ⟨D2, hD⟩ := mem_chain_dropWhile_eq hInv v 0 (Nat.zero_le _) x hvx hx
    exact ⟨x, by rw [hfwd, hD]; rfl, hvx⟩

/-- `insert` rejects exactly the present values; a successful insert keeps
the invariant and splices the value into the sorted level-0 sequence. -/
theorem insert_inv {s : SkipList} (hInv : Inv s) (v : Int) (lvl : Nat)
    (hlvl : lvl ≤ s.maxLevel) :
    Inv (insert s v lvl).1 ∧ (insert s v lvl).1.maxLevel = s.maxLevel ∧
    toArray (insert s v lvl).1 =
      (if v ∈ toArray s then toArray s
       else (toArray s).takeWhile (fun x => decide (x < v)) ++
         v :: (toArray s).dropWhile (fun x => decide (x < v))) := by
  by_cases hmem : v ∈ toArray s
  · obtain ⟨n, hf, hvn⟩ := (dup_check_iff hInv v).mpr hmem
    rw [insert_eq_dup s v lvl n hf hvn]
    exact ⟨hInv, rfl, by rw [if_pos hmem]⟩
  · have habs : ∀ n ∈ chain s 0, val s n ≠ v := by
      intro n hn he
      exact hmem (by rw [toArray]; exact List.mem_map.mpr ⟨n, hn, he⟩)
    have hnone : ∀ n, fwd s (upd s v 0) 0 = some n → val s n ≠ v := by
      intro n hf he
      exact hmem ((dup_check_iff hInv v).mp ⟨n, hf, he⟩)
    rw [insert_eq_new s v lvl hnone]
    obtain ⟨h1, h2, h3⟩ := insertNew_inv hInv v lvl hlvl habs
    exact ⟨h1, h2, by rw [if_neg hmem]; exact h3⟩

end SkipList

namespace SkipList

/-- Pointer-level description of the state a successful `delete` builds,
together with the basic facts about the target node. -/
theorem deleteGone_fwd {s : SkipList} (hInv : Inv s) (v : Int) (t : Nat)
    (hf : fwd s (upd s v 0) 0 = some t) (hv : val s t = v) :
    (∀ m j, fwd (deleteGone s v t) m j =
      if j < (getNode s t).forward.length ∧ m = upd s v j then fwd s t j
      else fwd s m j) ∧
    (∀ m, val (deleteGone s v t) m = val s m) ∧
    (∀ m, (getNode (deleteGone s v t) m).forward.length =
      (getNode s m).forward.length) ∧
    (deleteGone s v t).nodes.length = s.nodes.length ∧
    (deleteGone s v t).maxLevel = s.maxLevel ∧
    t ∈ chain s 0 ∧ 0 < (getNode s t).forward.length ∧
    (getNode s t).forward.length ≤ s.level + 1 ∧
    (∀ j, j ≤ s.maxLevel → (t ∈ chain s j ↔ j < (getNode s t).forward.length)) := by
  obtain ⟨-, hfwd0⟩ := upd_spec hInv v 0 (Nat.zero_le _)
  have ht0 : t ∈ chain s 0 := by
    have hn : t ∈ (chain s 0).dropWhile (fun x => decide (val s x < v)) :=
      List.mem_of_mem_head? (by rw [← hfwd0, hf]; rfl)
    exact (List.dropWhile_sublist _).subset hn
  have htb := hInv.bounds t ht0
  have hL1 : 0 < (getNode s t).forward.length := hInv.chain_mem_len 0 (Nat.zero_le _) ht0
  have hmemj : ∀ j, j ≤ s.maxLevel →
      (t ∈ chain s j ↔ j < (getNode s t).forward.length) := by
    intro j hj
    rw [hInv.levels j hj, List.mem_filter]
    constructor
    · rintro ⟨-, h⟩
      simpa using h
    · intro h
      exact ⟨ht0, by simpa using h⟩
  have hL_le : (getNode s t).forward.length ≤ s.level + 1 := by
    by_cases hcase : s.level < s.maxLevel
    · by_contra hgt
      have hj : s.level + 1 ≤ s.maxLevel := by omega
      have h1 := (hmemj (s.level + 1) hj).mpr (by omega)
      rw [chain_above hInv (s.level + 1) (by omega)] at h1
      simp at h1
    · have h1 := hInv.node_len t ht0
      have h2 := hInv.level_le
      omega
  have hupd_eq : ∀ j, j ≤ s.level → upd s v j = updAt s v j := by
    intro j hj
    rw [updAt, if_pos hj]
  have hune : ∀ j, j ≤ s.level → upd s v j ≠ t := by
    intro j hj
    rw [hupd_eq j hj]
    have hjm : j ≤ s.maxLevel := le_trans hj hInv.level_le
    rcases updAt_cases hInv v j hjm with h | ⟨-, hlt⟩
    · rw [h]
      omega
    · intro he
      rw [he, hv] at hlt
      exact absurd hlt (lt_irrefl _)
  have hcondiff : ∀ j, j ≤ s.level →
      (fwd s (upd s v j) j = some t ↔ j < (getNode s t).forward.length) := by
    intro j hj
    have hjm : j ≤ s.maxLevel := le_trans hj hInv.level_le
    obtain ⟨-, hfw⟩ := upd_spec hInv v j hj
    constructor
    · intro h
      have hn : t ∈ (chain s j).dropWhile (fun x => decide (val s x < v)) :=
        List.mem_of_mem_head? (by rw [← hfw, h]; rfl)
      exact (hmemj j hjm).mp ((List.dropWhile_sublist _).subset hn)
    · intro h
      obtain ⟨D2, hD⟩ := mem_chain_dropWhile_eq hInv v j hjm t hv
        ((hmemj j hjm).mpr h)
      rw [hfw, hD]
      rfl
  have htkw : (List.range (s.level + 1)).takeWhile
      (fun i => decide (fwd s (upd s v i) i = some t)) =
      List.range (getNode s t).forward.length := by
    apply takeWhile_range_eq _ _ _ hL_le
    · intro i hi
      have hil : i ≤ s.level := by omega
      simpa using (hcondiff i hil).mpr hi
    · intro hlt
      have hil : (getNode s t).forward.length ≤ s.level := by omega
      simp only [decide_eq_false_iff_not]
      intro hc
      exact absurd ((hcondiff _ hil).mp hc) (lt_irrefl _)
  have hbnd : ∀ i ∈ List.range (s.level + 1), upd s v i ≠ t ∧
      upd s v i < s.nodes.length ∧
      i < (getNode s (upd s v i)).forward.length := by
    intro i hi
    have hil : i ≤ s.level := by
      have := List.mem_range.mp hi
      omega
    have him : i ≤ s.maxLevel := le_trans hil hInv.level_le
    refine ⟨hune i hil, ?_, ?_⟩
    · rw [hupd_eq i hil]
      exact updAt_lt_len hInv v i him
    · rw [hupd_eq i hil]
      exact updAt_fwd_len hInv v i him
  have hULfwd := unlinkLoop_fwd s v t (List.range (s.level + 1)) s
  have hkeeps := unlinkLoop_keeps s v t (List.range (s.level + 1)) s
  have hfields := unlinkLoop_fields s v t (List.range (s.level + 1)) s
  have hullen := unlinkLoop_length s v t (List.range (s.level + 1)) s
  refine ⟨?_, ?_, ?_, ?_, ?_, ht0, hL1, hL_le, hmemj⟩
  · intro m j
    have h1 : fwd (deleteGone s v t) m j =
        fwd (unlinkLoop s v t (List.range (s.level + 1)) s) m j := rfl
    rw [h1, hULfwd m j (List.nodup_range _) hbnd, htkw]
    by_cases hc : j ∈ List.range (getNode s t).forward.length ∧ m = upd s v j
    · rw [if_pos hc, if_pos ⟨List.mem_range.mp hc.1, hc.2⟩]
    · rw [if_neg hc, if_neg (fun hc2 => hc ⟨List.mem_range.mpr hc2.1, hc2.2⟩)]
  · intro m
    have h1 : val (deleteGone s v t) m =
        val (unlinkLoop s v t (List.range (s.level + 1)) s) m := rfl
    rw [h1, (hkeeps m).1]
  · intro m
    have h1 : (getNode (deleteGone s v t) m).forward.length =
        (getNode (unlinkLoop s v t (List.range (s.level + 1)) s) m).forward.length :=
      rfl
    rw [h1, (hkeeps m).2]
  · have h1 : (deleteGone s v t).nodes.length =
        (unlinkLoop s v t (List.range (s.level + 1)) s).nodes.length := rfl
    rw [h1, hullen]
  · have h1 : (deleteGone s v t).maxLevel =
        (unlinkLoop s v t (List.range (s.level + 1)) s).maxLevel := rfl
    rw [h1, hfields.1]

end SkipList

namespace SkipList

/-- Chain-level description of a successful `delete`: the target disappears
from every chain that contained it and all other chains are untouched. -/
theorem deleteGone_chain {s : SkipList} (hInv : Inv s) (v : Int) (t : Nat)
    (hf : fwd s (upd s v 0) 0 = some t) (hv : val s t = v) :
    (∀ j, j < (getNode s t).forward.length →
      ∃ D2, (chain s j).dropWhile (fun n => decide (val s n < v)) = t :: D2 ∧
        chain (deleteGone s v t) j =
          (chain s j).takeWhile (fun n => decide (val s n < v)) ++ D2) ∧
    (∀ j, (getNode s t).forward.length ≤ j → j ≤ s.maxLevel →
      chain (deleteGone s v t) j = chain s j) ∧
    (∀ j, j ≤ s.maxLevel → (chainF (deleteGone s v t) j).2 = true) := by
  obtain ⟨hFw, hval2, hflen, hlen, hml, ht0, hL1, hL_le, hmemj⟩ :=
    deleteGone_fwd hInv v t hf hv
  have htb := hInv.bounds t ht0
  have hchainF : ∀ j, chainF (deleteGone s v t) j =
      chainFromF (deleteGone s v t) j s.nodes.length
        (fwd (deleteGone s v t) 0 j) := by
    intro j
    rw [chainF, hlen]
  have hle : ∀ j, j < (getNode s t).forward.length →
      ∃ D2, (chain s j).dropWhile (fun n => decide (val s n < v)) = t :: D2 ∧
        chainF (deleteGone s v t) j =
          ((chain s j).takeWhile (fun n => decide (val s n < v)) ++ D2, true) := by
    intro j hjL
    have hjlev : j ≤ s.level := by omega
    have hjm : j ≤ s.maxLevel := le_trans hjlev hInv.level_le
    obtain ⟨D2, hD⟩ := mem_chain_dropWhile_eq hInv v j hjm t hv ((hmemj j hjm).mpr hjL)
    refine ⟨D2, hD, ?_⟩
    have hupd_eq : upd s v j = updAt s v j := by rw [updAt, if_pos hjlev]
    have hsplit : chain s j =
        (chain s j).takeWhile (fun n => decide (val s n < v)) ++ t :: D2 := by
      conv_lhs => rw [← List.takeWhile_append_dropWhile
        (fun n => decide (val s n < v)) (chain s j)]
      rw [hD]
    have hTmem : ∀ x ∈ (chain s j).takeWhile (fun n => decide (val s n < v)),
        x ∈ chain s j := fun x hx => (List.takeWhile_sublist _).subset hx
    have hD2mem : ∀ x ∈ D2, x ∈ chain s j := by
      intro x hx
      rw [hsplit]
      exact List.mem_append.mpr (Or.inr (List.mem_cons_of_mem _ hx))
    have htT : t ∉ (chain s j).takeWhile (fun n => decide (val s n < v)) := by
      intro hc
      have := List.mem_takeWhile_imp hc
      simp [hv] at this
    have hnd := hInv.chain_nodup j hjm
    rw [hsplit] at hnd
    have hdisj := List.disjoint_of_nodup_append hnd
    have htD2 : t ∉ D2 :=
      (List.nodup_cons.mp (List.nodup_append.mp hnd).2.1).1
    have hune : upd s v j ≠ t := by
      rw [hupd_eq]
      rcases updAt_cases hInv v j hjm with h | ⟨-, hlt⟩
      · rw [h]
        omega
      · intro he
        rw [he, hv] at hlt
        exact absurd hlt (lt_irrefl _)
    have huD2 : upd s v j ∉ D2 := by
      rw [hupd_eq]
      rcases updAt_zero_or_mem_take hInv v j hjm with h | h
      · rw [h]
        intro hc
        exact absurd (hInv.chain_mem_bounds j hjm (hD2mem _ hc)).1 (lt_irrefl 0)
      · intro hc
        exact hdisj h (List.mem_cons_of_mem _ hc)
    have hwalk : chainFromF s j s.nodes.length (fwd s 0 j) =
        ((chain s j).takeWhile (fun n => decide (val s n < v)) ++ t :: D2,
          true) := by
      rw [← hsplit]
      exact hInv.chainF_eq j hjm
    have hu2 : fwd (deleteGone s v t) (upd s v j) j = fwd s t j := by
      rw [hFw, if_pos ⟨hjL, rfl⟩]
    have hothers : ∀ x, x ≠ upd s v j →
        fwd (deleteGone s v t) x j = fwd s x j := by
      intro x hx
      rw [hFw, if_neg (fun hc => hx hc.2)]
    have hlast : (0 :: (chain s j).takeWhile
        (fun n => decide (val s n < v))).getLast (List.cons_ne_nil _ _) =
        upd s v j := by
      rw [hupd_eq]
      exact (updAt_spec hInv v j hjm).1.symm
    have hnodup0 : (0 :: (chain s j).takeWhile
        (fun n => decide (val s n < v))).Nodup := by
      rw [List.nodup_cons]
      refine ⟨?_, (List.takeWhile_sublist _).nodup (hInv.chain_nodup j hjm)⟩
      intro hc
      exact absurd (hInv.chain_mem_bounds j hjm (hTmem _ hc)).1 (lt_irrefl 0)
    have htnotin : t ∉ 0 :: (chain s j).takeWhile
        (fun n => decide (val s n < v)) := by
      intro hc
      rcases List.mem_cons.mp hc with h | h
      · omega
      · exact htT h
    have hwres := erase_walk s (deleteGone s v t) j (upd s v j) t D2
      hu2 hothers (Ne.symm hune) htD2 huD2
      ((chain s j).takeWhile (fun n => decide (val s n < v))) 0 s.nodes.length
      hwalk hlast hnodup0 htnotin
    rw [hchainF, hwres]
  have hgt : ∀ j, (getNode s t).forward.length ≤ j → j ≤ s.maxLevel →
      chainF (deleteGone s v t) j = (chain s j, true) := by
    intro j hjL hjm
    have hcongr := chainFromF_congr_mem s (deleteGone s v t) j
      s.nodes.length (fwd s 0 j) (chain s j) (hInv.chainF_eq j hjm) ?mem
    case mem =>
      intro x hx
      rw [hFw, if_neg (fun hc => by omega)]
    have hstart : fwd (deleteGone s v t) 0 j = fwd s 0 j := by
      rw [hFw, if_neg (fun hc => by omega)]
    rw [hchainF, hstart, hcongr]
  refine ⟨?_, ?_, ?_⟩
  · intro j hj
    obtain ⟨D2, h1, h2⟩ := hle j hj
    exact ⟨D2, h1, by rw [chain, h2]⟩
  · intro j hj hjm
    rw [chain, hgt j hj hjm]
  · intro j hjm
    by_cases hj : j < (getNode s t).forward.length
    · obtain ⟨D2, -, h2⟩ := hle j hj
      rw [h2]
    · rw [hgt j (by omega) hjm]

end SkipList

namespace SkipList

/-- A successful `delete` preserves the structure invariant and removes the
value from the sorted level-0 value sequence. -/
theorem deleteGone_inv {s : SkipList} (hInv : Inv s) (v : Int) (t : Nat)
    (hf : fwd s (upd s v 0) 0 = some t) (hv : val s t = v) :
    Inv (deleteGone s v t) ∧ (deleteGone s v t).maxLevel = s.maxLevel ∧
    toArray (deleteGone s v t) = (toArray s).erase v := by
  obtain ⟨hFw, hval2, hflen, hlen, hml, ht0, hL1, hL_le, hmemj⟩ :=
    deleteGone_fwd hInv v t hf hv
  obtain ⟨hcle, hcgt, hclosed⟩ := deleteGone_chain hInv v t hf hv
  obtain ⟨D20, hD0, hc0⟩ := hcle 0 hL1
  have hsplit0 : chain s 0 =
      (chain s 0).takeWhile (fun n => decide (val s n < v)) ++ t :: D20 := by
    conv_lhs => rw [← List.takeWhile_append_dropWhile
      (fun n => decide (val s n < v)) (chain s 0)]
    rw [hD0]
  have hTmem : ∀ x ∈ (chain s 0).takeWhile (fun n => decide (val s n < v)),
      x ∈ chain s 0 := fun x hx => (List.takeWhile_sublist _).subset hx
  have hD2mem : ∀ x ∈ D20, x ∈ chain s 0 := by
    intro x hx
    rw [hsplit0]
    exact List.mem_append.mpr (Or.inr (List.mem_cons_of_mem _ hx))
  have hTlt : ∀ x ∈ (chain s 0).takeWhile (fun n => decide (val s n < v)),
      val s x < v := by
    intro x hx
    have := List.mem_takeWhile_imp hx
    simpa using this
  have hmapall : ∀ (l : List Nat),
      l.map (val (deleteGone s v t)) = l.map (val s) :=
    fun l => List.map_congr_left (fun x _ => hval2 x)
  have hfcong : ∀ (i : Nat) (l : List Nat),
      l.filter (fun n => decide (i < (getNode (deleteGone s v t) n).forward.length)) =
      l.filter (fun n => decide (i < (getNode s n).forward.length)) :=
    fun i l => List.filter_congr (fun x _ => by rw [hflen x])
  have hlev : (deleteGone s v t).level =
      shrink (unlinkLoop s v t (List.range (s.level + 1)) s)
        (unlinkLoop s v t (List.range (s.level + 1)) s).level := rfl
  have hs1lev : (unlinkLoop s v t (List.range (s.level + 1)) s).level = s.level :=
    (unlinkLoop_fields s v t (List.range (s.level + 1)) s).2.1
  have hshr := shrink_spec (unlinkLoop s v t (List.range (s.level + 1)) s)
    (unlinkLoop s v t (List.range (s.level + 1)) s).level
  refine ⟨⟨?_, ?_, ?_, ?_, ?_, ?_, ?_, ?_, ?_⟩, hml, ?_⟩
  · rw [hlen]
    exact hInv.len_pos
  · rw [hflen 0, hml]
    exact hInv.head_len
  · rw [hlev, hml]
    have h1 := hshr.1
    have h2 := hInv.level_le
    omega
  · intro k hk
    rw [hlev] at hk
    by_cases hks : k ≤ s.level
    · have := hshr.2 k hk (by rw [hs1lev]; exact hks)
      exact this
    · rw [hFw, if_neg (fun hc => by omega)]
      exact hInv.above_none k (by omega)
  · intro i hi
    rw [hml] at hi
    exact hclosed i hi
  · intro n hn
    rw [hc0] at hn
    rw [hlen]
    rcases List.mem_append.mp hn with h | h
    · exact hInv.bounds n (hTmem n h)
    · exact hInv.bounds n (hD2mem n h)
  · intro n hn
    rw [hc0] at hn
    rw [hflen n, hml]
    rcases List.mem_append.mp hn with h | h
    · exact hInv.node_len n (hTmem n h)
    · exact hInv.node_len n (hD2mem n h)
  · rw [hc0, hmapall]
    refine hInv.sorted.sublist ?_
    refine List.Sublist.map _ ?_
    conv_rhs => rw [hsplit0]
    exact (List.sublist_cons_self t D20).append_left _
  · intro i hi
    rw [hml] at hi
    by_cases hiL : i < (getNode s t).forward.length
    · obtain ⟨D2i, hDi, hci⟩ := hcle i hiL
      rw [hci, hc0, List.filter_append, hfcong, hfcong]
      have h1 := (hInv.take_drop_filter v i hi).1
      have h2 := (hInv.take_drop_filter v i hi).2
      rw [hDi, hD0, List.filter_cons_of_pos (by simpa using hiL)] at h2
      have h3 : D2i = D20.filter
          (fun n => decide (i < (getNode s n).forward.length)) := by
        injection h2
      rw [← h1, ← h3]
    · rw [hcgt i (by omega) hi, hc0, List.filter_append, hfcong, hfcong,
        hInv.levels i hi]
      conv_lhs => rw [hsplit0]
      rw [List.filter_append,
        List.filter_cons_of_neg (by simp; omega)]
  · have hnm : v ∉ ((chain s 0).takeWhile
        (fun n => decide (val s n < v))).map (val s) := by
      intro hc
      obtain ⟨x, hx, hvx⟩ := List.mem_map.mp hc
      have := hTlt x hx
      omega
    have hR : ((chain s 0).map (val s)).erase v =
        ((chain s 0).takeWhile (fun n => decide (val s n < v))).map (val s) ++
        D20.map (val s) := by
      conv_lhs => rw [hsplit0]
      rw [List.map_append, List.map_cons, hv,
        List.erase_append_right _ hnm, List.erase_cons_head]
    rw [toArray, hc0, hmapall, toArray, hR, List.map_append]

end SkipList
